import Mathlib

/-!
The ledger-consensus adaptor (`RCLConsensus::Adaptor`).

A shallow embedding of `src/ripple/app/consensus/RCLConsensus.cpp`.

* Member variables of the adaptor are the fields of `Adaptor`.
* Every call into a collaborator that changes something outside the adaptor
  (job queue, overlay, ledger master, time keeper, ...) is recorded, in program
  order, as an `Event`; a member function returns the new adaptor state
  together with the events of that call.
* Every value read from a collaborator is a field of the environment record
  of the member function that reads it.
* The call of the member function `buildLCL` from `doAccept` is recorded with
  its arguments (`Event.buildLCL`), followed by the events of its body.
* Journal output (`JLOG`) is not recorded, with the exception of the
  censorship warning.
* Unsigned machine integers are natural numbers reduced modulo `2 ^ w` where a
  result is stored; signed ones are integers wrapped to two's complement.
-/

namespace ripple

/-! ## Basic types -/

/-- A 256-bit value (`uint256`), as the number it denotes. -/
abbrev uint256 := Nat

/-- Identity of a ledger. -/
abbrev LedgerHash := uint256

/-- Identity of a transaction. -/
abbrev TxID := uint256

/-- Ledger sequence number (`std::uint32_t`). -/
abbrev LedgerIndex := Nat

/-- The sum `seq + n` of a ledger index and a number, in `std::uint32_t`. -/
def ledgerIndexAdd (seq : LedgerIndex) (n : Nat) : LedgerIndex := (seq + n) % 2 ^ 32

/-- Identity of a node. -/
abbrev NodeID := Nat

/-- Serialized bytes. -/
abbrev Blob := List Nat

/-- Modelled from the spec: the representation of `NetClock` is declared outside
the sources at hand; section 6 of the specification gives network times as u32
seconds since the network epoch, so a time point is the number of seconds
reduced modulo `NetClock.repMod`. -/
def NetClock.repMod : Nat := 2 ^ 32

/-- The expression `t + d` for a `NetClock::time_point` `t` and a number of
seconds `d`, stored back into a `NetClock::time_point`. -/
def NetClock.addSeconds (t d : Nat) : Nat := (t + d) % NetClock.repMod

/-- The null time point `NetClock::time_point{}`. -/
def NetClock.null : Nat := 0

/-- Modelled from the spec: `ConsensusMode` is declared outside the sources at
hand; the four modes are the ones the specification lists for the mode
controller and the ones `RCLConsensus.cpp` names. -/
inductive ConsensusMode where
  | proposing
  | observing
  | wrongLedger
  | switchedLedger
deriving DecidableEq, Repr

/-- Modelled from the spec: `ConsensusState` is declared outside the sources at
hand; `RCLConsensus.cpp` names `Yes` and `MovedOn`, `No` stands for the
remaining state. -/
inductive ConsensusState where
  | No
  | MovedOn
  | Yes
deriving DecidableEq, Repr

/-- What the adaptor reads from a closed ledger (`RCLCxLedger`). -/
structure RCLCxLedger where
  id : LedgerHash
  seq : LedgerIndex
  parentID : LedgerHash
  closeTime : Nat
  enabledAmendments : List uint256
  fix1528 : Bool
deriving DecidableEq, Repr

/-- A leaf of a transaction-set tree: key and serialized transaction. -/
structure SHAMapItem where
  key : TxID
  slice : Blob
deriving DecidableEq, Repr

/-- A transaction set (`RCLTxSet`): its identity and its leaves in visiting
order. -/
structure RCLTxSet where
  id : uint256
  items : List SHAMapItem
deriving DecidableEq, Repr

/-- The optional fee fields of a validation (`STValidation::FeeSettings`). -/
structure FeeSettings where
  loadFee : Option Nat
  baseFee : Option Nat
  reserveBase : Option Nat
  reserveIncrement : Option Nat
deriving DecidableEq, Repr

/-- The fields `Adaptor::validate` hands to the `STValidation` constructor (the
signature the constructor computes from the secret key is not represented). -/
structure STValidation where
  ledgerHash : LedgerHash
  ledgerSeq : LedgerIndex
  consensusHash : uint256
  signTime : Nat
  publicKey : Blob
  nodeID : NodeID
  full : Bool
  fees : FeeSettings
  amendments : List uint256
deriving DecidableEq, Repr

/-- The node events `RCLConsensus.cpp` puts into a status change. -/
inductive NodeEvent where
  | neCLOSING_LEDGER
  | neACCEPTED_LEDGER
  | neLOST_SYNC
deriving DecidableEq, Repr

/-- The status-change message `Adaptor::notify` sends to every peer. -/
structure TMStatusChange where
  newEvent : NodeEvent
  ledgerSeq : LedgerIndex
  networkTime : Nat
  ledgerHashPrevious : LedgerHash
  ledgerHash : LedgerHash
  firstSeq : Nat
  lastSeq : Nat
deriving DecidableEq, Repr

/-- Calls the adaptor makes into its collaborators, as far as they change
something outside the adaptor, and the call of `buildLCL` with its arguments. -/
inductive Event where
  | addJobAcquire (id : LedgerHash)
  | inboundNewRound (seq : LedgerIndex)
  | consensusViewChange
  | statusChange (s : TMStatusChange)
  | applyHeldTransactions
  | setBuildingLedger (seq : LedgerIndex)
  | feeVoteDoVoting (prev : LedgerHash)
  | amendmentDoVoting (prev : LedgerHash)
  | snapShot (setHash : uint256)
  | censorshipPropose (proposed : List (TxID × LedgerIndex))
  | censorshipCheck (accepted : List TxID) (curr : LedgerIndex)
  | censorshipWarning (id : TxID) (since curr : LedgerIndex)
  | censorshipReset
  | buildLCL (prev : LedgerHash) (closeTime : Nat) (closeTimeCorrect : Bool)
      (closeResolution : Nat) (roundTime : Nat)
  | buildLedgerReplay (parent : LedgerHash)
  | buildLedger (parent : LedgerHash) (closeTime : Nat) (closeTimeCorrect : Bool)
      (closeResolution : Nat)
  | processClosedLedger (ledger : LedgerHash) (slowRound : Bool)
  | storeLedger (ledger : LedgerHash)
  | feeVoteDoValidation (ledger : LedgerHash)
  | amendmentDoValidation (ledger : LedgerHash)
  | addSuppression (digest : uint256)
  | handleNewValidation (v : STValidation)
  | sendValidation (v : STValidation)
  | consensusBuilt (ledger : LedgerHash) (txSet : uint256)
  | openLedgerAccept (ledger : LedgerHash) (anyDisputes : Bool)
      (retriable : List TxID)
  | reportFeeChange
  | switchLCL (ledger : LedgerHash)
  | adjustCloseTime (offset : Int)
deriving DecidableEq, Repr

/-- The member variables of `RCLConsensus::Adaptor` (the secret key, only used
for signing, is not represented). `censorshipDetector_` holds the tracked
transactions with the sequence since which each is tracked. -/
structure Adaptor where
  nodeID_ : NodeID
  valPublic_ : Blob
  validating_ : Bool
  lastValidationTime_ : Nat
  acquiringLedger_ : LedgerHash
  mode_ : ConsensusMode
  prevProposers_ : Nat
  prevRoundTime_ : Nat
  useRoundedCloseTime : Bool
  censorshipDetector_ : List (TxID × LedgerIndex)
deriving DecidableEq, Repr

/-! ## `Adaptor::validate` -/

/-- What `Adaptor::validate` reads from its collaborators: the time keeper's
close time, the load-fee track, the fee-vote module, the amendment table and the
digest of the serialized validation. -/
structure ValidateEnv where
  closeTime : Nat
  localFee : Nat
  clusterFee : Nat
  loadBase : Nat
  feeVoteDoValidation : RCLCxLedger → FeeSettings → FeeSettings
  amendmentDoValidation : List uint256 → List uint256
  digest : STValidation → uint256

/-- The signing time `Adaptor::validate` chooses: the clock reading, or one
second past the stored time when the clock has not passed it. -/
def validationTime (now lastValidationTime : Nat) : Nat :=
  if now ≤ lastValidationTime then NetClock.addSeconds lastValidationTime 1 else now

/-- The validation `Adaptor::validate` builds. -/
def buildValidation (a : Adaptor) (env : ValidateEnv) (ledger : RCLCxLedger)
    (txns : RCLTxSet) (proposing : Bool) : STValidation :=
  let fee := max env.localFee env.clusterFee
  let fees : FeeSettings :=
    { loadFee := if fee > env.loadBase then some fee else none
      baseFee := none
      reserveBase := none
      reserveIncrement := none }
  let flag : Bool := (ledger.seq + 1) % 256 == 0
  { ledgerHash := ledger.id
    ledgerSeq := ledger.seq
    consensusHash := txns.id
    signTime := validationTime env.closeTime a.lastValidationTime_
    publicKey := a.valPublic_
    nodeID := a.nodeID_
    full := proposing
    fees := if flag then env.feeVoteDoValidation ledger fees else fees
    amendments :=
      if flag then env.amendmentDoValidation ledger.enabledAmendments else [] }

/-- The member function `Adaptor::validate`. -/
def Adaptor.validate (a : Adaptor) (env : ValidateEnv) (ledger : RCLCxLedger)
    (txns : RCLTxSet) (proposing : Bool) : Adaptor × List Event :=
  let v := buildValidation a env ledger txns proposing
  let flag : Bool := (ledger.seq + 1) % 256 == 0
  ({ a with lastValidationTime_ := v.signTime },
   (if flag then
      [Event.feeVoteDoValidation ledger.id, Event.amendmentDoValidation ledger.id]
    else []) ++
   [Event.addSuppression (env.digest v), Event.handleNewValidation v,
    Event.sendValidation v])

/-- One call of `Adaptor::validate`: the collaborators as they are at that
call, and the arguments. -/
structure ValidateCall where
  env : ValidateEnv
  ledger : RCLCxLedger
  txns : RCLTxSet
  proposing : Bool

/-- The validation an event sends to the overlay, if it is such an event. -/
def Event.sentValidation : Event → Option STValidation
  | Event.sendValidation v => some v
  | _ => none

/-- The validations sent to the overlay, in order. -/
def sentValidations (es : List Event) : List STValidation :=
  es.filterMap Event.sentValidation

/-- The validation an event registers with the validation store, if it is such
an event. -/
def Event.registeredValidation : Event → Option STValidation
  | Event.handleNewValidation v => some v
  | _ => none

/-- The validations registered with the local validation store, in order. -/
def registeredValidations (es : List Event) : List STValidation :=
  es.filterMap Event.registeredValidation

/-- A sequence of calls of `Adaptor::validate` on one adaptor: final state and
all events. -/
def validateCalls (a : Adaptor) : List ValidateCall → Adaptor × List Event
  | [] => (a, [])
  | c :: cs =>
    let r := a.validate c.env c.ledger c.txns c.proposing
    let rs := validateCalls r.1 cs
    (rs.1, r.2 ++ rs.2)

/-- No call of the sequence steps the stored time past the largest
representable time point. -/
def validateNoOverflow (a : Adaptor) : List ValidateCall → Prop
  | [] => True
  | c :: cs =>
    (c.env.closeTime ≤ a.lastValidationTime_ →
      a.lastValidationTime_ + 1 < NetClock.repMod) ∧
    validateNoOverflow (a.validate c.env c.ledger c.txns c.proposing).1 cs

/-! ## `Adaptor::acquireLedger` -/

/-- What `Adaptor::acquireLedger` reads: the ledger master's lookup by hash. -/
structure AcquireEnv where
  getLedgerByHash : LedgerHash → Option RCLCxLedger

/-- The member function `Adaptor::acquireLedger`: new state, events and the
returned optional ledger. -/
def Adaptor.acquireLedger (a : Adaptor) (env : AcquireEnv) (hash : LedgerHash) :
    Adaptor × List Event × Option RCLCxLedger :=
  match env.getLedgerByHash hash with
  | none =>
    if a.acquiringLedger_ ≠ hash then
      ({ a with acquiringLedger_ := hash }, [Event.addJobAcquire hash], none)
    else
      (a, [], none)
  | some built =>
    ({ a with useRoundedCloseTime := built.fix1528 },
     [Event.inboundNewRound built.seq], some built)

/-- A sequence of calls of `Adaptor::acquireLedger` on one adaptor, each with
the ledger master as it is at that call: final state, all events, and the
returned values in order. -/
def acquireCalls (a : Adaptor) :
    List (AcquireEnv × LedgerHash) → Adaptor × List Event × List (Option RCLCxLedger)
  | [] => (a, [], [])
  | c :: cs =>
    let r := a.acquireLedger c.1 c.2
    let rs := acquireCalls r.1 cs
    (rs.1, r.2.1 ++ rs.2.1, r.2.2 :: rs.2.2)

/-- The hashes for which a fetch job was scheduled, in order. -/
def scheduledFetches : List Event → List LedgerHash
  | [] => []
  | Event.addJobAcquire h :: es => h :: scheduledFetches es
  | _ :: es => scheduledFetches es

/-! ## `Adaptor::getPrevLedger` -/

/-- What `Adaptor::getPrevLedger` reads: the validation store's preferred
ledger and the ledger master's valid ledger index. -/
structure PrevLedgerEnv where
  getPreferred : RCLCxLedger → LedgerIndex → uint256
  validLedgerIndex : LedgerIndex

/-- The member function `Adaptor::getPrevLedger`: events and the returned
hash (no member variable changes). -/
def Adaptor.getPrevLedger (_a : Adaptor) (env : PrevLedgerEnv) (ledgerID : uint256)
    (ledger : RCLCxLedger) (mode : ConsensusMode) : List Event × uint256 :=
  let netLgr := env.getPreferred ledger env.validLedgerIndex
  (if netLgr ≠ ledgerID then
     (if mode ≠ ConsensusMode.wrongLedger then [Event.consensusViewChange] else [])
   else [],
   netLgr)

/-! ## `Adaptor::preStartRound` -/

/-- What `Adaptor::preStartRound` reads from the application. -/
structure PreStartEnv where
  maxDisallowedLedger : LedgerIndex
  amendmentBlocked : Bool
  standalone : Bool
  validatorsCount : Nat
  expires : Option Nat
  now : Nat
  operatingModeFull : Bool

/-- The value `Adaptor::preStartRound` leaves in `validating_`. -/
def preStartValidating (a : Adaptor) (env : PreStartEnv) (prevLgr : RCLCxLedger) : Bool :=
  let validating : Bool :=
    a.valPublic_.length != 0 && decide (prevLgr.seq ≥ env.maxDisallowedLedger) &&
      !env.amendmentBlocked
  if validating && !env.standalone && env.validatorsCount != 0 then
    match env.expires with
    | none => false
    | some w => if w < env.now then false else validating
  else validating

/-- The member function `Adaptor::preStartRound`: new state, events and the
returned flag. -/
def Adaptor.preStartRound (a : Adaptor) (env : PreStartEnv) (prevLgr : RCLCxLedger) :
    Adaptor × List Event × Bool :=
  let validating := preStartValidating a env prevLgr
  let synced := env.operatingModeFull
  ({ a with validating_ := validating, useRoundedCloseTime := prevLgr.fix1528 },
   [Event.inboundNewRound prevLgr.seq],
   validating && synced)

/-! ## `Adaptor::notify` -/

/-- What `Adaptor::notify` reads: the network time and the ledger master's
validated range. -/
structure NotifyEnv where
  networkTime : Nat
  fullValidatedRange : Option (Nat × Nat)
  earliestFetch : Nat

/-- The member function `Adaptor::notify`. -/
def notify (env : NotifyEnv) (ne : NodeEvent) (ledger : RCLCxLedger)
    (haveCorrectLCL : Bool) : List Event :=
  let range : Nat × Nat :=
    match env.fullValidatedRange with
    | none => (0, 0)
    | some r => (max r.1 env.earliestFetch, r.2)
  [Event.statusChange
    { newEvent := if !haveCorrectLCL then NodeEvent.neLOST_SYNC else ne
      ledgerSeq := ledger.seq
      networkTime := env.networkTime
      ledgerHashPrevious := ledger.parentID
      ledgerHash := ledger.id
      firstSeq := range.1
      lastSeq := range.2 }]

/-! ## `Adaptor::onClose` -/

/-- A signed position of a node (`RCLCxPeerPos::Proposal`), in the order of the
constructor arguments `onClose` passes. -/
structure Proposal where
  prevLedger : LedgerHash
  proposeSeq : Nat
  position : uint256
  closeTime : Nat
  time : Nat
  nodeID : NodeID
deriving DecidableEq, Repr

/-- Modelled from the spec: the constant `Proposal::seqJoin` is declared outside
the sources at hand; it is the sentinel with which a propose-sequence starts. -/
def seqJoin : Nat := 0

/-- A disputed transaction with the local vote. -/
structure DisputedTx where
  tx : SHAMapItem
  ourVote : Bool
deriving DecidableEq, Repr

/-- Modelled from the spec: the result record of a round is declared outside the
sources at hand; it holds the accepted transaction set, the final position, the
dispute map, the state, the proposer count and the round time (milliseconds). -/
structure Result where
  txns : RCLTxSet
  position : Proposal
  disputes : List (TxID × DisputedTx)
  state : ConsensusState
  proposers : Nat
  roundTime : Nat
deriving DecidableEq, Repr

/-- Modelled from the spec: the transaction-set tree is declared outside the
sources at hand; it maps a transaction id to one serialized transaction, so
adding an item whose key is present changes nothing. The leaves are kept in
the order in which they were added. -/
def SHAMap.addItem (m : List SHAMapItem) (item : SHAMapItem) : List SHAMapItem :=
  if m.any (fun i => i.key == item.key) then m else m ++ [item]

/-- Modelled from the spec: the censorship detector is declared outside the
sources at hand; `propose` records each entry as tracked since its sequence if
its transaction is not already tracked. -/
def CensorshipDetector.propose (tracker proposed : List (TxID × LedgerIndex)) :
    List (TxID × LedgerIndex) :=
  proposed.foldl
    (fun t p => if t.any (fun e => e.1 == p.1) then t else t ++ [p]) tracker

/-- What `Adaptor::onClose` reads from the application: the open ledger, the
trusted validations, the quorum, the two voting modules (each returns the set
with its pseudo-transactions inserted), the hash of a set and the time
keeper. -/
structure OnCloseEnv where
  notifyEnv : NotifyEnv
  standalone : Bool
  openLedgerParentHash : LedgerHash
  openLedgerTxs : List SHAMapItem
  trustedForLedger : LedgerHash → List STValidation
  quorum : Nat
  feeVoteDoVoting : RCLCxLedger → List STValidation → List SHAMapItem → List SHAMapItem
  amendmentDoVoting : RCLCxLedger → List STValidation → List SHAMapItem → List SHAMapItem
  getHash : List SHAMapItem → uint256
  timeKeeperCloseTime : Nat

/-- The condition under which `onClose` invokes the two voting modules. -/
def onCloseVotes (env : OnCloseEnv) (ledger : RCLCxLedger) (mode : ConsensusMode) : Bool :=
  let wrongLCL : Bool := mode == ConsensusMode.wrongLedger
  let proposing : Bool := mode == ConsensusMode.proposing
  if (env.standalone || (proposing && !wrongLCL)) && (ledger.seq % 256 == 0) then
    decide ((env.trustedForLedger ledger.parentID).length ≥ env.quorum)
  else false

/-- The member function `Adaptor::onClose`: new state, events and the returned
result. -/
def Adaptor.onClose (a : Adaptor) (env : OnCloseEnv) (ledger : RCLCxLedger)
    (closeTime : Nat) (mode : ConsensusMode) : Adaptor × List Event × Result :=
  let wrongLCL : Bool := mode == ConsensusMode.wrongLedger
  let open0 := env.openLedgerTxs.foldl SHAMap.addItem []
  let votes := onCloseVotes env ledger mode
  let validations := env.trustedForLedger ledger.parentID
  let voted :=
    if votes then
      env.amendmentDoVoting ledger validations (env.feeVoteDoVoting ledger validations open0)
    else open0
  let seq := ledgerIndexAdd ledger.seq 1
  let proposed := voted.map (fun item => (item.key, seq))
  let setHash := env.getHash voted
  ({ a with censorshipDetector_ :=
        if !wrongLCL then CensorshipDetector.propose a.censorshipDetector_ proposed
        else a.censorshipDetector_ },
   notify env.notifyEnv NodeEvent.neCLOSING_LEDGER ledger (!wrongLCL) ++
   [Event.applyHeldTransactions, Event.setBuildingLedger (ledgerIndexAdd ledger.seq 1)] ++
   (if votes then [Event.feeVoteDoVoting ledger.id, Event.amendmentDoVoting ledger.id]
    else []) ++
   [Event.snapShot setHash] ++
   (if !wrongLCL then [Event.censorshipPropose proposed] else []),
   { txns := { id := setHash, items := voted }
     position :=
       { prevLedger := env.openLedgerParentHash
         proposeSeq := seqJoin
         position := setHash
         closeTime := closeTime
         time := env.timeKeeperCloseTime
         nodeID := a.nodeID_ }
     disputes := []
     state := ConsensusState.No
     proposers := 0
     roundTime := 0 })

/-! ## `Adaptor::buildLCL` and `Adaptor::doAccept` -/

/-- What `doAccept` reads from a deserialized transaction (`STTx`). -/
structure STTx where
  txid : TxID
  pseudo : Bool
deriving DecidableEq, Repr

/-- Modelled from the spec: the canonical transaction set is declared outside
the sources at hand; it is keyed by the hash of the agreed set and holds each
transaction once. -/
structure CanonicalTXSet where
  key : uint256
  txs : List STTx
deriving DecidableEq, Repr

/-- Insertion into the canonical set: a transaction that is present stays as it
is. -/
def CanonicalTXSet.insert (s : CanonicalTXSet) (t : STTx) : CanonicalTXSet :=
  if s.txs.any (fun u => u.txid == t.txid) then s else { s with txs := s.txs ++ [t] }

/-- Insertion into a `std::set<TxID>`. -/
def setInsert (s : List TxID) (x : TxID) : List TxID :=
  if x ∈ s then s else s ++ [x]

/-- Modelled from the spec: the record of raw close times is declared outside
the sources at hand; it holds the local close time and, for each close time
seen from peers, the number of peers that voted for it (an `int`). -/
structure ConsensusCloseTimes where
  self : Nat
  peers : List (Nat × Int)
deriving DecidableEq, Repr

/-- A pending replay: the parent it applies to and the ledger it rebuilds. -/
structure LedgerReplay where
  parent : LedgerHash
  replay : RCLCxLedger
deriving DecidableEq, Repr

/-- What `doAccept` and `buildLCL` read from the application. `effCloseTime`,
the deserializer, the two ledger builders (the second returns the built ledger,
what is left of the retriable set and the grown failed set), the warn interval
of the censorship check, the compatibility test of the ledger master and the
sequence test of the validation store are taken as they are. -/
structure AcceptEnv where
  effCloseTime : Nat → Nat → Nat → Nat
  parseSTTx : Blob → Option STTx
  releaseReplay : Option LedgerReplay
  buildLedgerReplay : LedgerReplay → RCLCxLedger
  buildLedger : RCLCxLedger → Nat → Bool → Nat → CanonicalTXSet → List TxID →
    RCLCxLedger × CanonicalTXSet × List TxID
  notifyEnv : NotifyEnv
  censorshipWarnInternal : Nat
  isCompatible : RCLCxLedger → Bool
  canValidateSeq : LedgerIndex → Bool
  validateEnv : ValidateEnv

/-- The member function `Adaptor::buildLCL`: the built ledger, the retriable and
failed sets as the builder leaves them, and the events. -/
def buildLCL (env : AcceptEnv) (previousLedger : RCLCxLedger)
    (retriableTxs : CanonicalTXSet) (closeTime : Nat) (closeTimeCorrect : Bool)
    (closeResolution : Nat) (roundTime : Nat) (failedTxs : List TxID) :
    (RCLCxLedger × CanonicalTXSet × List TxID) × List Event :=
  let r : (RCLCxLedger × CanonicalTXSet × List TxID) × List Event :=
    match env.releaseReplay with
    | some replayData =>
      ((env.buildLedgerReplay replayData, retriableTxs, failedTxs),
       [Event.buildLedgerReplay replayData.parent])
    | none =>
      (env.buildLedger previousLedger closeTime closeTimeCorrect closeResolution
         retriableTxs failedTxs,
       [Event.buildLedger previousLedger.id closeTime closeTimeCorrect closeResolution])
  (r.1,
   r.2 ++ [Event.processClosedLedger r.1.1.id (decide (roundTime > 5000)),
           Event.storeLedger r.1.1.id])

/-- The close time and the close-time-correct flag `doAccept` decides on. -/
def acceptCloseTime (env : AcceptEnv) (agreed closeResolution prevCloseTime : Nat) :
    Nat × Bool :=
  if agreed = NetClock.null then (NetClock.addSeconds prevCloseTime 1, false)
  else (env.effCloseTime agreed closeResolution prevCloseTime, true)

/-- The first loop of `doAccept`: every leaf of the agreed set is deserialized
into the canonical set, or its key enters the failed set. -/
def canonicalize (env : AcceptEnv) (txns : RCLTxSet) : CanonicalTXSet × List TxID :=
  txns.items.foldl
    (fun acc item =>
      match env.parseSTTx item.slice with
      | some tx => (acc.1.insert tx, acc.2)
      | none => (acc.1, setInsert acc.2 item.key))
    ({ key := txns.id, txs := [] }, [])

/-- The difference `curr - seq` of two ledger indexes (`std::uint32_t`). -/
def ledgerIndexSub (curr seq : LedgerIndex) : Nat := (curr + 2 ^ 32 - seq % 2 ^ 32) % 2 ^ 32

/-- The predicate `doAccept` hands to the censorship check: the returned flag,
and the warning if one is written. -/
def censorshipPredicate (warnInterval : Nat) (curr : LedgerIndex) (failed : List TxID)
    (id : TxID) (seq : LedgerIndex) : Bool × List Event :=
  if id ∈ failed then (true, [])
  else
    let wait := ledgerIndexSub curr seq
    if wait ≠ 0 ∧ wait % warnInterval = 0 then
      (false, [Event.censorshipWarning id seq curr])
    else (false, [])

/-- Modelled from the spec: the censorship detector is declared outside the
sources at hand; `check` drops a tracked entry if its transaction is among the
accepted ones or if the predicate returns true for it, and keeps it
otherwise. -/
def CensorshipDetector.check (tracker : List (TxID × LedgerIndex)) (accepted : List TxID)
    (pred : TxID → LedgerIndex → Bool × List Event) :
    List (TxID × LedgerIndex) × List Event :=
  tracker.foldl
    (fun acc e =>
      if e.1 ∈ accepted then acc
      else
        let r := pred e.1 e.2
        (if r.1 then acc.1 else acc.1 ++ [e], acc.2 ++ r.2))
    ([], [])

/-- The loop of `doAccept` over the disputes: every disputed transaction the
node voted against that deserializes and is not a pseudo-transaction is
inserted into the retriable set. -/
def retryDisputes (env : AcceptEnv) (disputes : List (TxID × DisputedTx))
    (retriableTxs : CanonicalTXSet) : CanonicalTXSet × Bool :=
  disputes.foldl
    (fun acc it =>
      if !it.2.ourVote then
        match env.parseSTTx it.2.tx.slice with
        | some txn => if txn.pseudo then acc else (acc.1.insert txn, true)
        | none => acc
      else acc)
    (retriableTxs, false)

/-- Conversion of an integer to `std::uint64_t`. -/
def toUInt64 (x : Int) : Nat := (x % 2 ^ 64).toNat

/-- Conversion of an integer to `std::int32_t` (two's complement). -/
def toInt32 (x : Int) : Int := (x + 2 ^ 31) % 2 ^ 32 - 2 ^ 31

/-- The loop of `doAccept` over the peer close times: `closeCount` (an `int`)
and `closeTotal` (64-bit unsigned seconds). -/
def closeTimeTotals (times : ConsensusCloseTimes) : Int × Nat :=
  times.peers.foldl
    (fun acc p => (toInt32 (acc.1 + p.2), (acc.2 + p.1 * toUInt64 p.2) % 2 ^ 64))
    (1, times.self % 2 ^ 64)

/-- The divisor of `closeTotal /= closeCount` in `doAccept`: `closeCount`
converted to the 64-bit unsigned representation of `closeTotal`. -/
def closeTimeDivisor (times : ConsensusCloseTimes) : Nat :=
  toUInt64 (closeTimeTotals times).1

/-- The rounded mean close time `doAccept` computes in `closeTotal`, for a
divisor that is not 0 (a division by 0 does not return, see `acceptOffset`). -/
def closeTimeMean (times : ConsensusCloseTimes) : Nat :=
  let closeCount := (closeTimeTotals times).1
  let closeTotal := (closeTimeTotals times).2
  ((closeTotal + toUInt64 (closeCount.tdiv 2)) % 2 ^ 64) / toUInt64 closeCount

/-- The offset `doAccept` submits to the time keeper (32-bit signed seconds). -/
def closeTimeOffset (times : ConsensusCloseTimes) : Int :=
  toInt32 (toInt32 (closeTimeMean times) - toInt32 times.self)

/-- The offset an event submits to the time keeper, if it is such an event. -/
def Event.adjustedCloseTime : Event → Option Int
  | Event.adjustCloseTime o => some o
  | _ => none

/-- The offsets submitted to the time keeper, in order. -/
def adjustCloseTimeCalls (es : List Event) : List Int :=
  es.filterMap Event.adjustedCloseTime

/-- The arguments of a call of `buildLCL`, if the event is such a call. -/
def Event.buildLCLCall : Event → Option (LedgerHash × Nat × Bool × Nat × Nat)
  | Event.buildLCL p c cc r rt => some (p, c, cc, r, rt)
  | _ => none

/-- The calls of `buildLCL` among the events: previous ledger, close time,
close-time-correct flag, close resolution and round time. -/
def buildLCLCalls (es : List Event) : List (LedgerHash × Nat × Bool × Nat × Nat) :=
  es.filterMap Event.buildLCLCall

/-- The arguments of a call of the ledger builder, if the event is such a
call. -/
def Event.buildLedgerCall : Event → Option (LedgerHash × Nat × Bool × Nat)
  | Event.buildLedger p c cc r => some (p, c, cc, r)
  | _ => none

/-- The calls of the ledger builder (not from replay) among the events: parent,
close time, close-time-correct flag and close resolution. -/
def buildLedgerCalls (es : List Event) : List (LedgerHash × Nat × Bool × Nat) :=
  es.filterMap Event.buildLedgerCall

/-- The censorship block of `doAccept` (`if (haveCorrectLCL && result.state ==
ConsensusState::Yes)`): the tracked entries afterwards and the events. -/
def acceptCensorship (a : Adaptor) (env : AcceptEnv) (result : Result)
    (built : RCLCxLedger) (retriableTxs : CanonicalTXSet) (failed : List TxID)
    (haveCorrectLCL : Bool) : List (TxID × LedgerIndex) × List Event :=
  if haveCorrectLCL && result.state == ConsensusState.Yes then
    let accepted := result.txns.items.map (fun item => item.key)
    let failed1 := retriableTxs.txs.foldl (fun f r => setInsert f r.txid) failed
    let c := CensorshipDetector.check a.censorshipDetector_ accepted
      (censorshipPredicate env.censorshipWarnInternal built.seq failed1)
    (c.1, Event.censorshipCheck accepted built.seq :: c.2)
  else (a.censorshipDetector_, [])

/-- The validation block of `doAccept` (`if (validating_) validating_ = ...` and
the conditional call of `validate`): new state and events. -/
def acceptValidate (a : Adaptor) (env : AcceptEnv) (result : Result)
    (built : RCLCxLedger) (consensusFail proposing : Bool) : Adaptor × List Event :=
  let a1 := if a.validating_ then { a with validating_ := env.isCompatible built } else a
  if a1.validating_ && !consensusFail && env.canValidateSeq built.seq then
    a1.validate env.validateEnv built result.txns proposing
  else (a1, [])

/-- The close-time block at the end of `doAccept`. The integer division
`closeTotal /= closeCount` by 0 does not return: `doAccept` stops there, before
the call of `adjustCloseTime`. -/
def acceptOffset (rawCloseTimes : ConsensusCloseTimes) (mode : ConsensusMode)
    (consensusFail : Bool) : List Event :=
  if (mode == ConsensusMode.proposing || mode == ConsensusMode.observing) &&
      !consensusFail then
    if closeTimeDivisor rawCloseTimes = 0 then []
    else [Event.adjustCloseTime (closeTimeOffset rawCloseTimes)]
  else []

/-- The first part of `doAccept`, up to and including the call of `buildLCL`:
what `buildLCL` returns (the built ledger first), and the events. -/
def acceptBuilt (env : AcceptEnv) (result : Result) (prevLedger : RCLCxLedger)
    (closeResolution : Nat) : (RCLCxLedger × CanonicalTXSet × List TxID) × List Event :=
  let ct := acceptCloseTime env result.position.closeTime closeResolution prevLedger.closeTime
  let canon := canonicalize env result.txns
  let b := buildLCL env prevLedger canon.1 ct.1 ct.2 closeResolution result.roundTime canon.2
  (b.1, Event.buildLCL prevLedger.id ct.1 ct.2 closeResolution result.roundTime :: b.2)

/-- The member function `Adaptor::doAccept`: new state and events. -/
def Adaptor.doAccept (a : Adaptor) (env : AcceptEnv) (result : Result)
    (prevLedger : RCLCxLedger) (closeResolution : Nat)
    (rawCloseTimes : ConsensusCloseTimes) (mode : ConsensusMode) :
    Adaptor × List Event :=
  let a1 := { a with prevProposers_ := result.proposers, prevRoundTime_ := result.roundTime }
  let proposing : Bool := mode == ConsensusMode.proposing
  let haveCorrectLCL : Bool := mode != ConsensusMode.wrongLedger
  let consensusFail : Bool := result.state == ConsensusState.MovedOn
  let b := acceptBuilt env result prevLedger closeResolution
  let built := b.1.1
  let retriableTxs := b.1.2.1
  let failed := b.1.2.2
  let evNotify := notify env.notifyEnv NodeEvent.neACCEPTED_LEDGER built haveCorrectLCL
  let censor := acceptCensorship a1 env result built retriableTxs failed haveCorrectLCL
  let a2 := { a1 with censorshipDetector_ := censor.1 }
  let val := acceptValidate a2 env result built consensusFail proposing
  let retry := retryDisputes env result.disputes retriableTxs
  let evOpen :=
    [Event.consensusBuilt built.id result.txns.id,
     Event.openLedgerAccept built.id retry.2 (retry.1.txs.map (fun t => t.txid)),
     Event.reportFeeChange,
     Event.switchLCL built.id]
  (val.1,
   b.2 ++ evNotify ++ censor.2 ++ val.2 ++ evOpen ++
     acceptOffset rawCloseTimes mode consensusFail)

/-- The sum of the peer vote counts. -/
def countSum (peers : List (Nat × Int)) : Int := (peers.map (fun p => p.2)).sum

/-- The sum of the peer close times, each weighted by its vote count. -/
def weightSum (peers : List (Nat × Int)) : Int :=
  (peers.map (fun p => (p.1 : Int) * p.2)).sum

/-- The number of votes as the specification words it: the local vote and the
peer votes, `n = 1 + sum c_i`. -/
def specVoteCount (peers : List (Nat × Int)) : Int := 1 + countSum peers

/-- The rounded weighted mean as the specification words it, over the
integers: `floor((s + sum t_i*c_i + floor(n/2)) / n)`. -/
def specRoundedMean (s : Nat) (peers : List (Nat × Int)) : Int :=
  ((s : Int) + weightSum peers + specVoteCount peers / 2) / specVoteCount peers

/-- Whether an event is a call of the censorship check or one of its
warnings. -/
def Event.isCensorship : Event → Bool
  | Event.censorshipCheck _ _ => true
  | Event.censorshipWarning _ _ _ => true
  | _ => false

/-- Whether an event is one of the calls `validate` makes before it registers
and sends the validation. -/
def Event.isValidatePrelude : Event → Bool
  | Event.feeVoteDoValidation _ => true
  | Event.amendmentDoValidation _ => true
  | Event.addSuppression _ => true
  | _ => false

/-- Whether an event registers or sends a validation. -/
def Event.isValidation : Event → Bool
  | Event.handleNewValidation _ => true
  | Event.sendValidation _ => true
  | _ => false

/-- Whether the fee-voting module is invoked among the events. -/
def feeVoteInvoked (es : List Event) : Bool :=
  es.any (fun e => match e with
    | Event.feeVoteDoVoting _ => true
    | _ => false)

/-- Whether the amendment-voting module is invoked among the events. -/
def amendmentVoteInvoked (es : List Event) : Bool :=
  es.any (fun e => match e with
    | Event.amendmentDoVoting _ => true
    | _ => false)

/-- The calls of the two voting modules and the snapshot of the initial set
among the events, in order. -/
def votingTrace (es : List Event) : List Event :=
  es.filter (fun e => match e with
    | Event.feeVoteDoVoting _ => true
    | Event.amendmentDoVoting _ => true
    | Event.snapShot _ => true
    | _ => false)

/-- The hashes of a sequence of requests that differ from the hash requested
just before (at first: from `prev`). -/
def changedHashes (prev : LedgerHash) : List LedgerHash → List LedgerHash
  | [] => []
  | h :: hs => if prev ≠ h then h :: changedHashes h hs else changedHashes h hs

/-! ## `Adaptor::onModeChange` -/

/-- Modelled from the spec: the censorship detector is declared outside the
sources at hand; `reset` forgets every tracked entry. -/
def CensorshipDetector.reset (_tracker : List (TxID × LedgerIndex)) :
    List (TxID × LedgerIndex) := []

/-- The member function `Adaptor::onModeChange`: new state and events. -/
def Adaptor.onModeChange (a : Adaptor) (before after : ConsensusMode) :
    Adaptor × List Event :=
  if (before == ConsensusMode.proposing || before == ConsensusMode.observing) &&
      before != after then
    ({ a with
        censorshipDetector_ := CensorshipDetector.reset a.censorshipDetector_
        mode_ := after },
     [Event.censorshipReset])
  else ({ a with mode_ := after }, [])

/-- The number of resets of the censorship detector among the events. -/
def censorshipResets (es : List Event) : Nat :=
  es.count Event.censorshipReset

/-! ## The censorship predicate at consecutive ledgers -/

/-- The warnings the predicate of `doAccept` writes for the entry `(id, since)`
when it is called once for each of the `n` ledgers `since + 1`, ...,
`since + n`; `failed k` is the failed set at the ledger `since + k`. -/
def warningsOver (warnInterval : Nat) (failed : Nat → List TxID) (id : TxID)
    (since : LedgerIndex) : Nat → List Event
  | 0 => []
  | n + 1 =>
    warningsOver warnInterval failed id since n ++
      (censorshipPredicate warnInterval (since + (n + 1)) (failed (n + 1)) id since).2

/-! ## `Book` (`src/ripple/protocol/impl/Book.cpp`) -/

/-- An order book: the issue taken in and the issue paid out. The type of an
issue is declared outside the sources at hand and is a parameter. -/
structure Book (Issue : Type) where
  «in» : Issue
  out : Issue
deriving DecidableEq, Repr

/-- The function `reversed`. -/
def reversed {Issue : Type} (book : Book Issue) : Book Issue :=
  { «in» := book.out, out := book.«in» }

/-- The `operator==` of `Book`; `issueEq` is the `operator==` of the issue
type. -/
def Book.eq {Issue : Type} (issueEq : Issue → Issue → Bool) (lhs rhs : Book Issue) : Bool :=
  issueEq lhs.«in» rhs.«in» && issueEq lhs.out rhs.out

/-- The `operator!=` of `Book`; `issueNe` is the `operator!=` of the issue
type. -/
def Book.ne {Issue : Type} (issueNe : Issue → Issue → Bool) (lhs rhs : Book Issue) : Bool :=
  issueNe lhs.«in» rhs.«in» || issueNe lhs.out rhs.out

end ripple

/-! ## The lexical cast (`src/ripple/beast/core/LexicalCast.h`) -/

namespace beast

/-- An integral type of C++, as far as the lexical cast depends on it: whether
it is signed, and its width in bits (8, 16, 32 or 64). -/
structure IntType where
  isSigned : Bool
  bits : Nat
deriving DecidableEq, Repr

/-- The value `std::numeric_limits<Int>::max()`. -/
def IntType.max (T : IntType) : Int :=
  if T.isSigned then 2 ^ (T.bits - 1) - 1 else 2 ^ T.bits - 1

/-- The value `std::numeric_limits<Int>::min()`. -/
def IntType.min (T : IntType) : Int :=
  if T.isSigned then -(2 ^ (T.bits - 1)) else 0

/-- The value an integer has once it is stored in the type: reduced modulo
`2 ^ bits`, into the two's complement range if the type is signed. -/
def IntType.wrap (T : IntType) (x : Int) : Int :=
  if T.isSigned then (x + 2 ^ (T.bits - 1)) % 2 ^ T.bits - 2 ^ (T.bits - 1)
  else x % 2 ^ T.bits

/-- The unsigned integral type of width `w`. -/
def IntType.unsigned (w : Nat) : IntType := { isSigned := false, bits := w }

/-- The signed integral type of width `w`. -/
def IntType.signed (w : Nat) : IntType := { isSigned := true, bits := w }

/-- The type `std::uint32_t`. -/
def uint32_t : IntType := IntType.unsigned 32

/-- The type `std::int32_t`. -/
def int32_t : IntType := IntType.signed 32

/-- The type `std::int8_t`. -/
def int8_t : IntType := IntType.signed 8

namespace detail

/-- The loop of `parse_integral`: the returned flag and the value left in
`num`. The accumulator returns its flag and the value it leaves in `value`. -/
def parse_integral_loop (accumulator : Int → Int → Bool × Int) :
    Int → List Char → Bool × Int
  | num, [] => (true, num)
  | num, c :: cs =>
    if c < '0' ∨ c > '9' then (false, num)
    else
      let r := accumulator num ((c.toNat - '0'.toNat : Nat) : Int)
      if !r.1 then (false, r.2) else parse_integral_loop accumulator r.2 cs

/-- The function template `parse_integral`: the returned flag and the value
left in `num`. -/
def parse_integral (accumulator : Int → Int → Bool × Int) (s : List Char) : Bool × Int :=
  if s = [] then (false, 0) else parse_integral_loop accumulator 0 s

/-- The accumulator of `parse_negative_integral`. -/
def accumulate_negative (T : IntType) (value digit : Int) : Bool × Int :=
  let limit_value := Int.tdiv T.min 10
  let limit_digit0 := Int.tmod T.min 10
  let limit_digit := if limit_digit0 < 0 then -limit_digit0 else limit_digit0
  if value < limit_value ∨ (value = limit_value ∧ digit > limit_digit) then (false, value)
  else (true, T.wrap (T.wrap (value * 10) - digit))

/-- The accumulator of `parse_positive_integral`. -/
def accumulate_positive (T : IntType) (value digit : Int) : Bool × Int :=
  let limit_value := Int.tdiv T.max 10
  let limit_digit := Int.tmod T.max 10
  if value > limit_value ∨ (value = limit_value ∧ digit > limit_digit) then (false, value)
  else (true, T.wrap (T.wrap (value * 10) + digit))

/-- The function template `parse_negative_integral`. -/
def parse_negative_integral (T : IntType) (s : List Char) : Bool × Int :=
  parse_integral (accumulate_negative T) s

/-- The function template `parse_positive_integral`. -/
def parse_positive_integral (T : IntType) (s : List Char) : Bool × Int :=
  parse_integral (accumulate_positive T) s

/-- The function template `parseSigned` (instantiated with signed types
only). -/
def parseSigned (T : IntType) (s : List Char) : Bool × Int :=
  match s with
  | '-' :: rest => parse_negative_integral T rest
  | '+' :: rest => parse_positive_integral T rest
  | _ => parse_positive_integral T s

/-- The function template `parseUnsigned` (instantiated with unsigned types
only). -/
def parseUnsigned (T : IntType) (s : List Char) : Bool × Int :=
  match s with
  | '+' :: rest => parse_positive_integral T rest
  | _ => parse_positive_integral T s

/-- The decimal digits of a natural number, most significant first, put in
front of `acc`; `fuel` bounds the number of digits. -/
def decimalDigits : Nat → Nat → List Char → List Char
  | 0, _, acc => acc
  | fuel + 1, n, acc =>
    let acc1 := Char.ofNat ('0'.toNat + n % 10) :: acc
    if n / 10 = 0 then acc1 else decimalDigits fuel (n / 10) acc1

/-- The standard library function `std::to_string` on an integer: the decimal
digits without leading zeros, after a minus sign if the value is negative. -/
def to_string (n : Int) : List Char :=
  if n < 0 then '-' :: decimalDigits (n.natAbs + 1) n.natAbs []
  else decimalDigits (n.toNat + 1) n.toNat []

/-- The cast `LexicalCast<std::string, In>` for an arithmetic `In`: the flag
and the string left in `out`. -/
def LexicalCast_to_string (n : Int) : Bool × List Char := (true, to_string n)

/-- The cast `LexicalCast<Out, std::string>` for an integral `Out` other than
`bool`: the flag and the value left in `out`. -/
def LexicalCast_from_string (T : IntType) (s : List Char) : Bool × Int :=
  if T.isSigned then parseSigned T s else parseUnsigned T s

end detail

/-- The function template `lexicalCastChecked` from a string to an integral
type: the flag and the value left in `out`. -/
def lexicalCastChecked (T : IntType) (s : List Char) : Bool × Int :=
  detail.LexicalCast_from_string T s

/-- The function template `lexicalCast` from a string to an integral type. -/
def lexicalCast (T : IntType) (s : List Char) (defaultValue : Int) : Int :=
  if (lexicalCastChecked T s).1 then (lexicalCastChecked T s).2 else defaultValue

/-- The value of a digit character. -/
def digitValue (c : Char) : Nat := c.toNat - '0'.toNat

/-- The decimal value of a string of digits, read on top of the value `acc` of
the digits before it. -/
def decimalValueFrom (acc : Nat) (s : List Char) : Nat :=
  s.foldl (fun a c => a * 10 + digitValue c) acc

/-- The decimal value a string of digits denotes. -/
def decimalValue (s : List Char) : Nat := decimalValueFrom 0 s

/-- Whether a character is one of the ASCII digits `0` to `9`. -/
def isDigit (c : Char) : Bool := decide ('0' ≤ c) && decide (c ≤ '9')

end beast

namespace ripple

/-! ## `doCanDelete` (`src/ripple/rpc/handlers/CanDelete.cpp`) -/

/-- The error codes `doCanDelete` returns. -/
inductive error_code_i where
  | rpcNOT_ENABLED
  | rpcNOT_READY
  | rpcLGR_NOT_FOUND
  | rpcINVALID_PARAMS
deriving DecidableEq, Repr

/-- The `can_delete` member of the request parameters: absent, an unsigned
number, or a string. -/
inductive CanDeleteParam where
  | absent
  | uint (n : Nat)
  | string (s : List Char)
deriving DecidableEq, Repr

/-- What `doCanDelete` returns: an error, or an object whose `can_delete` member
is the given sequence. -/
inductive CanDeleteReply where
  | error (e : error_code_i)
  | can_delete (seq : Nat)
deriving DecidableEq, Repr

/-- What `doCanDelete` reads from the application: the store (advisory delete
enabled, last rotated sequence, stored sequence, and the value `setCanDelete`
returns), the ledger master's lookup by hash, and the conversion of hex text to
a hash. -/
structure CanDeleteEnv where
  advisoryDelete : Bool
  getLastRotated : Nat
  getCanDelete : Nat
  setCanDelete : Nat → Nat
  getLedgerByHash : uint256 → Option RCLCxLedger
  from_hex_text : List Char → uint256

/-- The test `s.find_first_not_of(chars) == std::string::npos`. -/
def allCharsIn (chars : List Char) (s : List Char) : Bool :=
  s.all (fun c => chars.contains c)

/-- The function `boost::to_lower` on a string. -/
def to_lower (s : List Char) : List Char := s.map Char.toLower

/-- The sequence `doCanDelete` reads from a string parameter, or the error it
returns. -/
def canDeleteSeqOfString (env : CanDeleteEnv) (s : List Char) :
    Except error_code_i Nat :=
  let canDeleteStr := to_lower s
  if allCharsIn "0123456789".toList canDeleteStr then
    Except.ok (beast.lexicalCast beast.uint32_t canDeleteStr 0).toNat
  else if canDeleteStr = "never".toList then Except.ok 0
  else if canDeleteStr = "always".toList then Except.ok (2 ^ 32 - 1)
  else if canDeleteStr = "now".toList then
    if env.getLastRotated = 0 then Except.error error_code_i.rpcNOT_READY
    else Except.ok env.getLastRotated
  else if canDeleteStr.length = 64 ∧ allCharsIn "0123456789abcdef".toList canDeleteStr then
    match env.getLedgerByHash (env.from_hex_text canDeleteStr) with
    | none => Except.error error_code_i.rpcLGR_NOT_FOUND
    | some ledger => Except.ok ledger.seq
  else Except.error error_code_i.rpcINVALID_PARAMS

/-- The handler `doCanDelete`: the reply, and the arguments of the calls of
`setCanDelete` in order. -/
def doCanDelete (env : CanDeleteEnv) (param : CanDeleteParam) :
    CanDeleteReply × List Nat :=
  if !env.advisoryDelete then (CanDeleteReply.error error_code_i.rpcNOT_ENABLED, [])
  else
    match param with
    | CanDeleteParam.absent => (CanDeleteReply.can_delete env.getCanDelete, [])
    | CanDeleteParam.uint n => (CanDeleteReply.can_delete (env.setCanDelete n), [n])
    | CanDeleteParam.string s =>
      match canDeleteSeqOfString env s with
      | Except.error e => (CanDeleteReply.error e, [])
      | Except.ok seq => (CanDeleteReply.can_delete (env.setCanDelete seq), [seq])

/-! ## Projections of events used by the theorems on `validate` and `doAccept` -/

/-- Whether the fee-vote module or the amendment table is consulted for a
validation among the events. -/
def validationVotesAttached (es : List Event) : Bool :=
  es.any (fun e => match e with
    | Event.feeVoteDoValidation _ => true
    | Event.amendmentDoValidation _ => true
    | _ => false)

/-- The fee settings `validate` starts from: the load fee if the larger of the
local and the cluster fee exceeds the load base, nothing else. -/
def loadFeeOnly (env : ValidateEnv) : FeeSettings :=
  { loadFee :=
      if max env.localFee env.clusterFee > env.loadBase then
        some (max env.localFee env.clusterFee)
      else none
    baseFee := none
    reserveBase := none
    reserveIncrement := none }

/-- The arguments of a rebuild of the open ledger, if the event is one: the
built ledger, the flag `anyDisputes` and the ids of the retriable set. -/
def Event.openLedgerAcceptCall : Event → Option (LedgerHash × Bool × List TxID)
  | Event.openLedgerAccept l d r => some (l, d, r)
  | _ => none

/-- The rebuilds of the open ledger among the events, in order. -/
def openLedgerAcceptCalls (es : List Event) : List (LedgerHash × Bool × List TxID) :=
  es.filterMap Event.openLedgerAcceptCall

/-! ## The spread of the close times -/

/-- The least of the local close time `s` and the peer close times. -/
def closeTimeMin (s : Nat) : List (Nat × Int) → Nat
  | [] => s
  | p :: ps => min p.1 (closeTimeMin s ps)

/-- The greatest of the local close time `s` and the peer close times. -/
def closeTimeMax (s : Nat) : List (Nat × Int) → Nat
  | [] => s
  | p :: ps => max p.1 (closeTimeMax s ps)

/-! ## Concrete inputs -/

/-- An adaptor with a validator key, validating, whose last validation was
signed at time 7. -/
def sampleAdaptor : Adaptor :=
  { nodeID_ := 1
    valPublic_ := [2, 3]
    validating_ := true
    lastValidationTime_ := 7
    acquiringLedger_ := 0
    mode_ := ConsensusMode.proposing
    prevProposers_ := 0
    prevRoundTime_ := 0
    useRoundedCloseTime := false
    censorshipDetector_ := [] }

/-- Collaborators of `validate` whose clock reads `now`; the voting modules
leave the fee settings as they are and report no amendments. -/
def sampleValidateEnv (now : Nat) : ValidateEnv :=
  { closeTime := now
    localFee := 256
    clusterFee := 256
    loadBase := 256
    feeVoteDoValidation := fun _ f => f
    amendmentDoValidation := fun _ => []
    digest := fun v => v.signTime }

/-- A closed ledger with sequence `seq` and identity `1000 + seq`. -/
def sampleLedger (seq : LedgerIndex) : RCLCxLedger :=
  { id := 1000 + seq
    seq := seq
    parentID := 999 + seq
    closeTime := 500
    enabledAmendments := []
    fix1528 := true }

/-- The empty transaction set. -/
def sampleTxSet : RCLTxSet := { id := 0, items := [] }

/-- A call of `validate` for the ledger with sequence 101 at clock reading
`now`. -/
def sampleValidateCall (now : Nat) : ValidateCall :=
  { env := sampleValidateEnv now
    ledger := sampleLedger 101
    txns := sampleTxSet
    proposing := true }

/-- Three calls of `validate` with clock readings 10, 5 and 5. -/
def sampleValidateCalls : List ValidateCall :=
  [sampleValidateCall 10, sampleValidateCall 5, sampleValidateCall 5]

/-- The close times of scenario 6 of the specification: local close 1001, three
peers at 1000 and one at 1002. -/
def sampleCloseTimes : ConsensusCloseTimes :=
  { self := 1001, peers := [(1000, 3), (1002, 1)] }

/-- Collaborators of `doAccept`: no replay is pending, the builder produces the
child of the previous ledger with the close time it is given and leaves nothing
to retry, a serialized transaction is its id followed by a pseudo-transaction
marker, every built ledger is compatible and may be validated. -/
def sampleAcceptEnv : AcceptEnv :=
  { effCloseTime := fun t res _ => (t / res) * res
    parseSTTx := fun b =>
      match b with
      | [id, marker] => some { txid := id, pseudo := decide (marker = 1) }
      | _ => none
    releaseReplay := none
    buildLedgerReplay := fun r => r.replay
    buildLedger := fun prev ct _ _ retriable failed =>
      ({ id := prev.id + 1
         seq := prev.seq + 1
         parentID := prev.id
         closeTime := ct
         enabledAmendments := prev.enabledAmendments
         fix1528 := prev.fix1528 },
       { retriable with txs := [] }, failed)
    notifyEnv := { networkTime := 600, fullValidatedRange := none, earliestFetch := 0 }
    censorshipWarnInternal := 15
    isCompatible := fun _ => true
    canValidateSeq := fun _ => true
    validateEnv := sampleValidateEnv 600 }

/-- The collaborators of `sampleAcceptEnv`, except that no built ledger is
compatible with the validated line. -/
def sampleIncompatibleEnv : AcceptEnv :=
  { sampleAcceptEnv with isCompatible := fun _ => false }

/-- A round result: the empty set agreed with close time 590, state `Yes`. -/
def sampleResult : Result :=
  { txns := sampleTxSet
    position :=
      { prevLedger := 1100, proposeSeq := 3, position := 0, closeTime := 590, time := 595,
        nodeID := 1 }
    disputes := []
    state := ConsensusState.Yes
    proposers := 4
    roundTime := 3000 }

/-- Collaborators of `onClose`: not stand-alone, an empty open ledger, three
trusted validations for every ledger and a quorum of two; the voting modules
insert the pseudo-transactions 71 and 72. -/
def sampleOnCloseEnv : OnCloseEnv :=
  { notifyEnv := { networkTime := 600, fullValidatedRange := none, earliestFetch := 0 }
    standalone := false
    openLedgerParentHash := 1256
    openLedgerTxs := []
    trustedForLedger := fun h =>
      List.replicate 3
        { ledgerHash := h, ledgerSeq := 255, consensusHash := 0, signTime := 590,
          publicKey := [9], nodeID := 9, full := true,
          fees := { loadFee := none, baseFee := none, reserveBase := none,
                    reserveIncrement := none },
          amendments := [] }
    quorum := 2
    feeVoteDoVoting := fun _ _ m => SHAMap.addItem m { key := 71, slice := [71, 1] }
    amendmentDoVoting := fun _ _ m => SHAMap.addItem m { key := 72, slice := [72, 1] }
    getHash := fun m => (m.map (fun i => i.key)).sum
    timeKeeperCloseTime := 600 }

/-- Collaborators of `preStartRound`: not stand-alone, no validator list
configured (so no expiration is known), not amendment-blocked. -/
def samplePreStartEnv : PreStartEnv :=
  { maxDisallowedLedger := 0
    amendmentBlocked := false
    standalone := false
    validatorsCount := 0
    expires := none
    now := 600
    operatingModeFull := true }

/-- A ledger master that holds no ledger. -/
def sampleAcquireEnv : AcquireEnv := { getLedgerByHash := fun _ => none }

/-- Three calls of `acquireLedger`, for the hashes 5, 6 and 5 again, none of
them present locally. -/
def sampleAcquireCalls : List (AcquireEnv × LedgerHash) :=
  [(sampleAcquireEnv, 5), (sampleAcquireEnv, 6), (sampleAcquireEnv, 5)]

/-- Collaborators of `getPrevLedger`: the validation store prefers ledger
2000. -/
def samplePrevLedgerEnv : PrevLedgerEnv :=
  { getPreferred := fun _ _ => 2000, validLedgerIndex := 99 }

/-- Collaborators of `validate` whose fee vote sets a base fee of 10 and whose
amendment table votes for the amendment 77. -/
def sampleVotingValidateEnv : ValidateEnv :=
  { sampleValidateEnv 600 with
    feeVoteDoValidation := fun _ f => { f with baseFee := some 10 }
    amendmentDoValidation := fun _ => [77] }

/-- A round result with four disputes: transaction 5 (voted NO), the
pseudo-transaction 6 (voted NO), transaction 7 (voted YES) and the bytes 8 that
do not deserialize (voted NO). -/
def sampleDisputedResult : Result :=
  { sampleResult with
    disputes :=
      [(5, { tx := { key := 5, slice := [5, 0] }, ourVote := false }),
       (6, { tx := { key := 6, slice := [6, 1] }, ourVote := false }),
       (7, { tx := { key := 7, slice := [7, 0] }, ourVote := true }),
       (8, { tx := { key := 8, slice := [8] }, ourVote := false })] }

/-- An order book over issues given as pairs of currency and account. -/
def sampleBook : Book (Nat × Nat) := { «in» := (1, 10), out := (2, 20) }

/-- A store with advisory delete enabled, last rotated at 7, that returns the
sequence it is given; the ledger master holds no ledger. -/
def sampleCanDeleteEnv : CanDeleteEnv :=
  { advisoryDelete := true
    getLastRotated := 7
    getCanDelete := 3
    setCanDelete := fun n => n
    getLedgerByHash := fun _ => none
    from_hex_text := fun _ => 0 }

/-! ## Theorems -/

/-! ### `Adaptor::validate` -/

theorem validationTime_gt (now last : Nat)
    (h : now ≤ last → last + 1 < NetClock.repMod) : last < validationTime now last := by
  unfold validationTime NetClock.addSeconds
  split
  · next hle =>
    rw [Nat.mod_eq_of_lt (h hle)]
    exact Nat.lt_succ_self last
  · next hgt => exact Nat.lt_of_not_le hgt

theorem sentValidations_append (l₁ l₂ : List Event) :
    sentValidations (l₁ ++ l₂) = sentValidations l₁ ++ sentValidations l₂ :=
  List.filterMap_append l₁ l₂ Event.sentValidation

theorem sentValidations_validate (a : Adaptor) (env : ValidateEnv) (ledger : RCLCxLedger)
    (txns : RCLTxSet) (proposing : Bool) :
    sentValidations (a.validate env ledger txns proposing).2 =
      [buildValidation a env ledger txns proposing] := by
  unfold Adaptor.validate
  by_cases hf : ((ledger.seq + 1) % 256 == 0) = true <;>
    simp [hf, sentValidations, Event.sentValidation]

theorem validate_lastValidationTime (a : Adaptor) (env : ValidateEnv) (ledger : RCLCxLedger)
    (txns : RCLTxSet) (proposing : Bool) :
    (a.validate env ledger txns proposing).1.lastValidationTime_ =
      validationTime env.closeTime a.lastValidationTime_ := rfl

theorem buildValidation_signTime (a : Adaptor) (env : ValidateEnv) (ledger : RCLCxLedger)
    (txns : RCLTxSet) (proposing : Bool) :
    (buildValidation a env ledger txns proposing).signTime =
      validationTime env.closeTime a.lastValidationTime_ := rfl

theorem signTimes_validateCalls (calls : List ValidateCall) :
    ∀ a : Adaptor, validateNoOverflow a calls →
      List.Chain (fun s t => s < t) a.lastValidationTime_
        ((sentValidations (validateCalls a calls).2).map STValidation.signTime) ∧
      (sentValidations (validateCalls a calls).2).length = calls.length := by
  induction calls with
  | nil => intro a _; simp [validateCalls, sentValidations]
  | cons c cs ih =>
    intro a h
    obtain ⟨h1, h2⟩ := h
    have ih2 := ih (a.validate c.env c.ledger c.txns c.proposing).1 h2
    rw [validate_lastValidationTime] at ih2
    simp only [validateCalls, sentValidations_append, sentValidations_validate,
      List.singleton_append, List.map_cons, List.chain_cons, buildValidation_signTime,
      List.length_cons]
    exact ⟨⟨validationTime_gt _ _ h1, ih2.1⟩, by rw [ih2.2]⟩

/-- C1: over any sequence of calls of `Adaptor::validate` on one adaptor, with
any clock readings and any starting `lastValidationTime_`, as long as no call
steps past the largest representable time: every call sends exactly one
validation, the first signing time is greater than the starting
`lastValidationTime_`, each later signing time is greater than that of the
previous call, and hence the signing times are strictly increasing. -/
theorem validate_signing_times_strictly_increasing (a : Adaptor)
    (calls : List ValidateCall) (h : validateNoOverflow a calls) :
    (sentValidations (validateCalls a calls).2).length = calls.length ∧
    List.Chain (fun s t => s < t) a.lastValidationTime_
      ((sentValidations (validateCalls a calls).2).map STValidation.signTime) ∧
    List.Pairwise (fun s t => s < t)
      ((sentValidations (validateCalls a calls).2).map STValidation.signTime) := by
  have hc := signTimes_validateCalls calls a h
  refine ⟨hc.2, hc.1, ?_⟩
  have hp := List.chain_iff_pairwise.mp hc.1
  exact (List.pairwise_cons.mp hp).2

/-- Witness for C1: starting from time 7, the clock readings 10, 5, 5 give the
signing times 10, 11, 12. -/
theorem validate_signing_times_strictly_increasing_witness :
    validateNoOverflow sampleAdaptor sampleValidateCalls ∧
    (sentValidations (validateCalls sampleAdaptor sampleValidateCalls).2).map
      STValidation.signTime = [10, 11, 12] ∧
    List.Pairwise (fun s t => s < t)
      ((sentValidations (validateCalls sampleAdaptor sampleValidateCalls).2).map
        STValidation.signTime) :=
  have h : validateNoOverflow sampleAdaptor sampleValidateCalls := by
    simp [validateNoOverflow, sampleValidateCalls, sampleValidateCall, sampleValidateEnv,
      sampleAdaptor, Adaptor.validate, buildValidation, validationTime,
      NetClock.addSeconds, NetClock.repMod]
  ⟨h, by decide,
    (validate_signing_times_strictly_increasing sampleAdaptor sampleValidateCalls h).2.2⟩

/-- C2: one call of `Adaptor::validate` with clock reading `now` (a
representable time) and stored `lastValidationTime_ = L` sends exactly one
validation; its signing time is `max(now, L + 1s)` as stored in the time
representation, which is `max(now, L + 1s)` itself whenever `L + 1s` is
representable; afterwards `lastValidationTime_` equals that signing time. -/
theorem validate_signing_time_is_max (a : Adaptor) (env : ValidateEnv)
    (ledger : RCLCxLedger) (txns : RCLTxSet) (proposing : Bool)
    (hnow : env.closeTime < NetClock.repMod) :
    sentValidations (a.validate env ledger txns proposing).2 =
      [buildValidation a env ledger txns proposing] ∧
    (buildValidation a env ledger txns proposing).signTime =
      max env.closeTime (a.lastValidationTime_ + 1) % NetClock.repMod ∧
    (a.lastValidationTime_ + 1 < NetClock.repMod →
      (buildValidation a env ledger txns proposing).signTime =
        max env.closeTime (a.lastValidationTime_ + 1)) ∧
    (a.validate env ledger txns proposing).1.lastValidationTime_ =
      (buildValidation a env ledger txns proposing).signTime := by
  have hmod : (buildValidation a env ledger txns proposing).signTime =
      max env.closeTime (a.lastValidationTime_ + 1) % NetClock.repMod := by
    rw [buildValidation_signTime]
    unfold validationTime NetClock.addSeconds
    split
    · next hle => rw [Nat.max_eq_right (Nat.le_succ_of_le hle)]
    · next hgt =>
      rw [Nat.max_eq_left (Nat.succ_le_of_lt (Nat.lt_of_not_le hgt)),
        Nat.mod_eq_of_lt hnow]
  refine ⟨sentValidations_validate a env ledger txns proposing, hmod, ?_, rfl⟩
  intro hL
  rw [hmod]
  apply Nat.mod_eq_of_lt
  exact max_lt hnow hL

/-- Witness for C2: with clock reading 5 and stored time 7 the validation is
signed at 8, and 8 is stored. -/
theorem validate_signing_time_is_max_witness :
    (sampleValidateEnv 5).closeTime < NetClock.repMod ∧
    (buildValidation sampleAdaptor (sampleValidateEnv 5) (sampleLedger 101) sampleTxSet
      true).signTime = 8 ∧
    (sampleAdaptor.validate (sampleValidateEnv 5) (sampleLedger 101) sampleTxSet
      true).1.lastValidationTime_ = 8 :=
  have hnow : (sampleValidateEnv 5).closeTime < NetClock.repMod := by
    simp [sampleValidateEnv, NetClock.repMod]
  have h := validate_signing_time_is_max sampleAdaptor (sampleValidateEnv 5)
    (sampleLedger 101) sampleTxSet true hnow
  ⟨hnow, by rw [h.2.1]; decide, by rw [h.2.2.2, h.2.1]; decide⟩

/-! ### Events of `Adaptor::doAccept` -/

theorem censorshipPredicate_events (w : Nat) (curr : LedgerIndex) (failed : List TxID)
    (id : TxID) (seq : LedgerIndex) :
    ∀ e ∈ (censorshipPredicate w curr failed id seq).2, e.isCensorship = true := by
  unfold censorshipPredicate
  intro e he
  split at he
  · simp at he
  · simp only at he
    split at he
    · simp at he
      subst he
      rfl
    · simp at he

theorem check_foldl_events (pred : TxID → LedgerIndex → Bool × List Event)
    (hp : ∀ id seq, ∀ e ∈ (pred id seq).2, e.isCensorship = true)
    (accepted : List TxID) (tracker : List (TxID × LedgerIndex)) :
    ∀ acc : List (TxID × LedgerIndex) × List Event,
      (∀ e ∈ acc.2, e.isCensorship = true) →
      ∀ e ∈ (tracker.foldl
        (fun acc e =>
          if e.1 ∈ accepted then acc
          else
            let r := pred e.1 e.2
            (if r.1 then acc.1 else acc.1 ++ [e], acc.2 ++ r.2)) acc).2,
        e.isCensorship = true := by
  induction tracker with
  | nil => intro acc h; simpa using h
  | cons t ts ih =>
    intro acc h
    rw [List.foldl_cons]
    apply ih
    split
    · exact h
    · intro e he
      rcases List.mem_append.mp he with h1 | h2
      · exact h e h1
      · exact hp _ _ e h2

theorem acceptCensorship_events (a : Adaptor) (env : AcceptEnv) (result : Result)
    (built : RCLCxLedger) (retriableTxs : CanonicalTXSet) (failed : List TxID)
    (haveCorrectLCL : Bool) :
    ∀ e ∈ (acceptCensorship a env result built retriableTxs failed haveCorrectLCL).2,
      e.isCensorship = true := by
  unfold acceptCensorship
  split
  · intro e he
    rcases List.mem_cons.mp he with h1 | h2
    · subst h1; rfl
    · exact check_foldl_events _ (censorshipPredicate_events _ _ _) _ _ ([], [])
        (by simp) e h2
  · simp

theorem filterMap_censorship {β : Type} (f : Event → Option β)
    (hf : ∀ e, e.isCensorship = true → f e = none) (l : List Event)
    (hl : ∀ e ∈ l, e.isCensorship = true) : l.filterMap f = [] :=
  List.filterMap_eq_nil_iff.mpr (fun e he => hf e (hl e he))

theorem filterMap_doAccept {β : Type} (f : Event → Option β)
    (hf : ∀ e, e.isCensorship = true → f e = none)
    (a : Adaptor) (env : AcceptEnv) (result : Result) (prevLedger : RCLCxLedger)
    (closeResolution : Nat) (rawCloseTimes : ConsensusCloseTimes) (mode : ConsensusMode) :
    (a.doAccept env result prevLedger closeResolution rawCloseTimes mode).2.filterMap f =
      (acceptBuilt env result prevLedger closeResolution).2.filterMap f ++
      (notify env.notifyEnv NodeEvent.neACCEPTED_LEDGER
        (acceptBuilt env result prevLedger closeResolution).1.1
        (mode != ConsensusMode.wrongLedger)).filterMap f ++
      (acceptValidate
        { a with
          prevProposers_ := result.proposers
          prevRoundTime_ := result.roundTime
          censorshipDetector_ :=
            (acceptCensorship
              { a with prevProposers_ := result.proposers, prevRoundTime_ := result.roundTime }
              env result (acceptBuilt env result prevLedger closeResolution).1.1
              (acceptBuilt env result prevLedger closeResolution).1.2.1
              (acceptBuilt env result prevLedger closeResolution).1.2.2
              (mode != ConsensusMode.wrongLedger)).1 }
        env result (acceptBuilt env result prevLedger closeResolution).1.1
        (result.state == ConsensusState.MovedOn)
        (mode == ConsensusMode.proposing)).2.filterMap f ++
      [Event.consensusBuilt (acceptBuilt env result prevLedger closeResolution).1.1.id
         result.txns.id,
       Event.openLedgerAccept (acceptBuilt env result prevLedger closeResolution).1.1.id
         (retryDisputes env result.disputes
           (acceptBuilt env result prevLedger closeResolution).1.2.1).2
         ((retryDisputes env result.disputes
           (acceptBuilt env result prevLedger closeResolution).1.2.1).1.txs.map
            (fun t => t.txid)),
       Event.reportFeeChange,
       Event.switchLCL (acceptBuilt env result prevLedger closeResolution).1.1.id].filterMap f ++
      (acceptOffset rawCloseTimes mode (result.state == ConsensusState.MovedOn)).filterMap f := by
  unfold Adaptor.doAccept
  simp only [List.filterMap_append]
  rw [filterMap_censorship f hf _ (acceptCensorship_events _ _ _ _ _ _ _)]
  simp

theorem filterMap_acceptValidate {β : Type} (f : Event → Option β)
    (hf : ∀ e, e.isValidatePrelude = true → f e = none)
    (a : Adaptor) (env : AcceptEnv) (result : Result) (built : RCLCxLedger)
    (consensusFail proposing : Bool) :
    (acceptValidate a env result built consensusFail proposing).2.filterMap f =
      (if (if a.validating_ then env.isCompatible built else false) && !consensusFail &&
          env.canValidateSeq built.seq then
        [Event.handleNewValidation
           (buildValidation a env.validateEnv built result.txns proposing),
         Event.sendValidation
           (buildValidation a env.validateEnv built result.txns proposing)]
       else []).filterMap f := by
  have h1 : ∀ x, f (Event.feeVoteDoValidation x) = none := fun x => hf _ rfl
  have h2 : ∀ x, f (Event.amendmentDoValidation x) = none := fun x => hf _ rfl
  have h3 : ∀ x, f (Event.addSuppression x) = none := fun x => hf _ rfl
  unfold acceptValidate Adaptor.validate
  cases hv : a.validating_ <;> cases hc : env.isCompatible built <;>
    cases hf : consensusFail <;> cases hs : env.canValidateSeq built.seq <;>
    by_cases hflag : ((built.seq + 1) % 256 == 0) = true <;>
    simp [hv, hc, hs, hflag, h1, h2, h3, buildValidation]

/-- C3: `doAccept` calls `buildLCL` exactly once; if the agreed close time is the
null time point, the call carries the close time `prevLedger.closeTime + 1s` and
`closeTimeCorrect = false`, otherwise it carries
`effCloseTime(agreed, closeResolution, prevLedger.closeTime)` and
`closeTimeCorrect = true`. Unless a replay is pending, `buildLCL` hands exactly
this close time and this flag to the ledger builder; with a pending replay it
builds from the replay and does not call that builder. -/
theorem doAccept_close_time_decision (a : Adaptor) (env : AcceptEnv) (result : Result)
    (prevLedger : RCLCxLedger) (closeResolution : Nat)
    (rawCloseTimes : ConsensusCloseTimes) (mode : ConsensusMode) :
    (if result.position.closeTime = NetClock.null then
      buildLCLCalls (a.doAccept env result prevLedger closeResolution rawCloseTimes mode).2 =
        [(prevLedger.id, NetClock.addSeconds prevLedger.closeTime 1, false,
          closeResolution, result.roundTime)]
     else
      buildLCLCalls (a.doAccept env result prevLedger closeResolution rawCloseTimes mode).2 =
        [(prevLedger.id,
          env.effCloseTime result.position.closeTime closeResolution prevLedger.closeTime,
          true, closeResolution, result.roundTime)]) ∧
    buildLedgerCalls (a.doAccept env result prevLedger closeResolution rawCloseTimes mode).2 =
      (match env.releaseReplay with
       | none =>
         (buildLCLCalls
            (a.doAccept env result prevLedger closeResolution rawCloseTimes mode).2).map
           (fun c => (c.1, c.2.1, c.2.2.1, c.2.2.2.1))
       | some _ => []) := by
  unfold buildLCLCalls buildLedgerCalls
  rw [filterMap_doAccept Event.buildLCLCall
      (by intro e he; cases e <;> simp_all [Event.isCensorship, Event.buildLCLCall]),
    filterMap_doAccept Event.buildLedgerCall
      (by intro e he; cases e <;> simp_all [Event.isCensorship, Event.buildLedgerCall]),
    filterMap_acceptValidate Event.buildLCLCall
      (by intro e he; cases e <;> simp_all [Event.isValidatePrelude, Event.buildLCLCall]),
    filterMap_acceptValidate Event.buildLedgerCall
      (by intro e he; cases e <;> simp_all [Event.isValidatePrelude, Event.buildLedgerCall])]
  cases hr : env.releaseReplay <;>
    by_cases hnull : result.position.closeTime = NetClock.null <;>
    simp [acceptBuilt, buildLCL, notify, acceptOffset, acceptCloseTime, hr, hnull,
      apply_ite, Event.buildLCLCall, Event.buildLedgerCall]

/-! ### The close-time offset -/

theorem toInt32_sub_toInt32 (x y : Int) :
    toInt32 (toInt32 x - toInt32 y) = toInt32 (x - y) := by
  unfold toInt32
  omega

theorem toInt32_of_range (x : Int) (h1 : -(2 ^ 31) ≤ x) (h2 : x < 2 ^ 31) :
    toInt32 x = x := by
  unfold toInt32
  omega

theorem countSum_nonneg (peers : List (Nat × Int)) (hc : ∀ p ∈ peers, 0 ≤ p.2) :
    0 ≤ countSum peers := by
  induction peers with
  | nil => simp [countSum]
  | cons p ps ih =>
    have h1 := hc p (List.mem_cons_self p ps)
    have h2 := ih (fun q hq => hc q (List.mem_cons_of_mem p hq))
    simp only [countSum, List.map_cons, List.sum_cons] at h2 ⊢
    omega

theorem closeTimeTotals_foldl (peers : List (Nat × Int)) :
    ∀ (cnt : Int) (tot : Nat), 1 ≤ cnt → (tot : Int) ≤ 2 ^ 32 * cnt →
      cnt + countSum peers < 2 ^ 31 →
      (∀ p ∈ peers, p.1 < 2 ^ 32) → (∀ p ∈ peers, 0 ≤ p.2) →
      (peers.foldl
        (fun acc p => (toInt32 (acc.1 + p.2), (acc.2 + p.1 * toUInt64 p.2) % 2 ^ 64))
        (cnt, tot)).1 = cnt + countSum peers ∧
      (((peers.foldl
        (fun acc p => (toInt32 (acc.1 + p.2), (acc.2 + p.1 * toUInt64 p.2) % 2 ^ 64))
        (cnt, tot)).2 : Nat) : Int) = tot + weightSum peers ∧
      (tot : Int) + weightSum peers ≤ 2 ^ 32 * (cnt + countSum peers) := by
  induction peers with
  | nil => intro cnt tot _ h2 _ _ _; simpa [countSum, weightSum] using h2
  | cons p ps ih =>
    intro cnt tot h1 h2 h3 ht hc
    have hp0 := hc p (List.mem_cons_self p ps)
    have hpt := ht p (List.mem_cons_self p ps)
    have hps := countSum_nonneg ps (fun q hq => hc q (List.mem_cons_of_mem p hq))
    have hsum : countSum (p :: ps) = p.2 + countSum ps := by
      simp [countSum]
    have hw : weightSum (p :: ps) = (p.1 : Int) * p.2 + weightSum ps := by
      simp [weightSum]
    rw [hsum] at h3
    have e1 : toInt32 (cnt + p.2) = cnt + p.2 := toInt32_of_range _ (by omega) (by omega)
    have e2 : toUInt64 p.2 = p.2.toNat := by
      unfold toUInt64
      congr 1
      omega
    have hmul : p.1 * p.2.toNat ≤ 2 ^ 32 * p.2.toNat :=
      Nat.mul_le_mul_right _ (Nat.le_of_lt hpt)
    have e3 : (tot + p.1 * p.2.toNat) % 2 ^ 64 = tot + p.1 * p.2.toNat := by
      apply Nat.mod_eq_of_lt
      omega
    have hcast : ((p.1 * p.2.toNat : Nat) : Int) = (p.1 : Int) * p.2 := by
      rw [Nat.cast_mul, Int.toNat_of_nonneg hp0]
    rw [List.foldl_cons]
    simp only [e1, e2, e3]
    have := ih (cnt + p.2) (tot + p.1 * p.2.toNat) (by omega)
      (by rw [Nat.cast_add, hcast]; nlinarith) (by omega)
      (fun q hq => ht q (List.mem_cons_of_mem p hq))
      (fun q hq => hc q (List.mem_cons_of_mem p hq))
    rw [this.1, this.2.1, hsum, hw]
    have h4 := this.2.2
    rw [Nat.cast_add, hcast] at h4 ⊢
    refine ⟨by ring, by ring, ?_⟩
    calc (tot : Int) + ((p.1 : Int) * p.2 + weightSum ps)
        = (tot : Int) + (p.1 : Int) * p.2 + weightSum ps := by ring
      _ ≤ 2 ^ 32 * (cnt + p.2 + countSum ps) := h4
      _ = 2 ^ 32 * (cnt + (p.2 + countSum ps)) := by ring

theorem closeTimeMean_eq_spec (times : ConsensusCloseTimes)
    (hs : times.self < 2 ^ 32) (ht : ∀ p ∈ times.peers, p.1 < 2 ^ 32)
    (hc : ∀ p ∈ times.peers, 0 ≤ p.2) (hn : specVoteCount times.peers < 2 ^ 31) :
    ((closeTimeMean times : Nat) : Int) = specRoundedMean times.self times.peers := by
  have hself : times.self % 2 ^ 64 = times.self := Nat.mod_eq_of_lt (by omega)
  have hps := countSum_nonneg times.peers hc
  unfold specVoteCount at hn
  obtain ⟨h1, h2, h3⟩ := closeTimeTotals_foldl times.peers 1 times.self (by omega)
    (by omega) hn ht hc
  unfold closeTimeMean closeTimeTotals specRoundedMean specVoteCount
  rw [hself]
  simp only [h1]
  generalize hT : (times.peers.foldl
    (fun acc p => (toInt32 (acc.1 + p.2), (acc.2 + p.1 * toUInt64 p.2) % 2 ^ 64))
    ((1 : Int), times.self)).2 = T at h2 ⊢
  generalize hN : (1 : Int) + countSum times.peers = n at h3 hn ⊢
  have hn1 : 1 ≤ n := by omega
  have e1 : n.tdiv 2 = n / 2 := Int.tdiv_eq_ediv (by omega) (by omega)
  have e2 : toUInt64 (n / 2) = (n / 2).toNat := by
    unfold toUInt64
    congr 1
    omega
  have e3 : toUInt64 n = n.toNat := by
    unfold toUInt64
    congr 1
    omega
  have e4 : (T + (n / 2).toNat) % 2 ^ 64 = T + (n / 2).toNat := by
    apply Nat.mod_eq_of_lt
    omega
  rw [e1, e2, e3, e4, Int.natCast_div, Nat.cast_add, h2,
    Int.toNat_of_nonneg (by omega : (0 : Int) ≤ n / 2),
    Int.toNat_of_nonneg (by omega : (0 : Int) ≤ n)]

theorem closeCount_foldl (peers : List (Nat × Int)) :
    ∀ (cnt : Int) (tot : Nat), 1 ≤ cnt → cnt + countSum peers < 2 ^ 31 →
      (∀ p ∈ peers, 0 ≤ p.2) →
      (peers.foldl
        (fun acc p => (toInt32 (acc.1 + p.2), (acc.2 + p.1 * toUInt64 p.2) % 2 ^ 64))
        (cnt, tot)).1 = cnt + countSum peers := by
  induction peers with
  | nil => intro cnt tot _ _ _; simp [countSum]
  | cons p ps ih =>
    intro cnt tot h1 h3 hc
    have hp0 := hc p (List.mem_cons_self p ps)
    have hps := countSum_nonneg ps (fun q hq => hc q (List.mem_cons_of_mem p hq))
    have hsum : countSum (p :: ps) = p.2 + countSum ps := by
      simp [countSum]
    rw [hsum] at h3
    have e1 : toInt32 (cnt + p.2) = cnt + p.2 := toInt32_of_range _ (by omega) (by omega)
    rw [List.foldl_cons]
    simp only [e1]
    rw [ih (cnt + p.2) _ (by omega) (by omega)
      (fun q hq => hc q (List.mem_cons_of_mem p hq)), hsum]
    ring

theorem closeTimeDivisor_ne_zero (times : ConsensusCloseTimes)
    (hc : ∀ p ∈ times.peers, 0 ≤ p.2) (hn : specVoteCount times.peers < 2 ^ 31) :
    closeTimeDivisor times ≠ 0 := by
  have hps := countSum_nonneg times.peers hc
  unfold specVoteCount at hn
  unfold closeTimeDivisor closeTimeTotals
  rw [closeCount_foldl times.peers 1 _ (by omega) hn hc]
  unfold toUInt64
  generalize countSum times.peers = k at hps hn ⊢
  omega

theorem adjustCloseTimeCalls_doAccept (a : Adaptor) (env : AcceptEnv) (result : Result)
    (prevLedger : RCLCxLedger) (closeResolution : Nat)
    (rawCloseTimes : ConsensusCloseTimes) (mode : ConsensusMode) :
    adjustCloseTimeCalls
        (a.doAccept env result prevLedger closeResolution rawCloseTimes mode).2 =
      (acceptOffset rawCloseTimes mode (result.state == ConsensusState.MovedOn)).filterMap
        Event.adjustedCloseTime := by
  unfold adjustCloseTimeCalls
  rw [filterMap_doAccept Event.adjustedCloseTime
      (by intro e he; cases e <;> simp_all [Event.isCensorship, Event.adjustedCloseTime]),
    filterMap_acceptValidate Event.adjustedCloseTime
      (by intro e he; cases e <;>
        simp_all [Event.isValidatePrelude, Event.adjustedCloseTime])]
  have hb : (acceptBuilt env result prevLedger closeResolution).2.filterMap
      Event.adjustedCloseTime = [] := by
    unfold acceptBuilt buildLCL
    cases hr : env.releaseReplay <;> simp [Event.adjustedCloseTime]
  have hv : ∀ (c : Prop) [Decidable c] (v : STValidation),
      (if c then [Event.handleNewValidation v, Event.sendValidation v]
        else []).filterMap Event.adjustedCloseTime = [] := by
    intro c _ v
    split <;> rfl
  rw [hb, hv]
  rfl

/-- With the single peer vote {1000: -1} the count `closeCount` is 0: the
division does not return and no offset is submitted, also when proposing. -/
theorem doAccept_zero_count_no_offset :
    closeTimeDivisor { self := 1001, peers := [(1000, -1)] } = 0 ∧
    adjustCloseTimeCalls
        (sampleAdaptor.doAccept sampleAcceptEnv sampleResult (sampleLedger 100) 10
          { self := 1001, peers := [(1000, -1)] } ConsensusMode.proposing).2 = [] := by
  rw [adjustCloseTimeCalls_doAccept]
  exact ⟨by decide, by decide⟩

/-- C4: for vote counts that are not negative and a vote total `n = 1 + sum c_i`
that fits an `int`, `doAccept` submits a close-time offset to the time keeper
exactly when the mode is proposing or observing and the state is not `MovedOn`,
and then exactly once. For every input it submits the offset exactly when, in
addition, the divisor `closeCount` is not 0 as a 64-bit unsigned number. For
representable close times, and counts as above, the submitted offset is
`floor((s + sum t_i*c_i + floor(n/2)) / n) - s` as stored in 32-bit signed
seconds, which is that number itself whenever it fits 32 bits. For the votes
{1000: 3, 1002: 1} and `s = 1001` the mean is 1001 and the offset is 0. -/
theorem doAccept_close_time_offset (a : Adaptor) (env : AcceptEnv) (result : Result)
    (prevLedger : RCLCxLedger) (closeResolution : Nat)
    (rawCloseTimes : ConsensusCloseTimes) (mode : ConsensusMode) :
    ((∀ p ∈ rawCloseTimes.peers, 0 ≤ p.2) → specVoteCount rawCloseTimes.peers < 2 ^ 31 →
      adjustCloseTimeCalls
          (a.doAccept env result prevLedger closeResolution rawCloseTimes mode).2 =
        (if (mode = ConsensusMode.proposing ∨ mode = ConsensusMode.observing) ∧
            result.state ≠ ConsensusState.MovedOn then
          [closeTimeOffset rawCloseTimes]
         else [])) ∧
    adjustCloseTimeCalls
        (a.doAccept env result prevLedger closeResolution rawCloseTimes mode).2 =
      (if (mode = ConsensusMode.proposing ∨ mode = ConsensusMode.observing) ∧
          result.state ≠ ConsensusState.MovedOn ∧ closeTimeDivisor rawCloseTimes ≠ 0 then
        [closeTimeOffset rawCloseTimes]
       else []) ∧
    (rawCloseTimes.self < 2 ^ 32 → (∀ p ∈ rawCloseTimes.peers, p.1 < 2 ^ 32) →
      (∀ p ∈ rawCloseTimes.peers, 0 ≤ p.2) → specVoteCount rawCloseTimes.peers < 2 ^ 31 →
      closeTimeOffset rawCloseTimes =
        toInt32 (specRoundedMean rawCloseTimes.self rawCloseTimes.peers -
          rawCloseTimes.self) ∧
      (-(2 ^ 31) ≤ specRoundedMean rawCloseTimes.self rawCloseTimes.peers -
          rawCloseTimes.self →
        specRoundedMean rawCloseTimes.self rawCloseTimes.peers - rawCloseTimes.self <
          2 ^ 31 →
        closeTimeOffset rawCloseTimes =
          specRoundedMean rawCloseTimes.self rawCloseTimes.peers - rawCloseTimes.self)) ∧
    specRoundedMean 1001 [(1000, 3), (1002, 1)] = 1001 ∧
    closeTimeMean sampleCloseTimes = 1001 ∧
    closeTimeOffset sampleCloseTimes = 0 := by
  refine ⟨?_, ?_, ?_, by decide, by decide, by decide⟩
  · intro hc hn
    have hd := closeTimeDivisor_ne_zero rawCloseTimes hc hn
    rw [adjustCloseTimeCalls_doAccept]
    unfold acceptOffset
    cases mode <;> cases hst : result.state <;> simp [hd, Event.adjustedCloseTime]
  · rw [adjustCloseTimeCalls_doAccept]
    unfold acceptOffset
    by_cases hd : closeTimeDivisor rawCloseTimes = 0 <;> cases mode <;>
      cases hst : result.state <;> simp [hd, Event.adjustedCloseTime]
  · intro hs ht hc hn
    have hmean := closeTimeMean_eq_spec rawCloseTimes hs ht hc hn
    have hoff : closeTimeOffset rawCloseTimes =
        toInt32 (specRoundedMean rawCloseTimes.self rawCloseTimes.peers -
          rawCloseTimes.self) := by
      unfold closeTimeOffset
      rw [toInt32_sub_toInt32, hmean]
    refine ⟨hoff, fun h1 h2 => ?_⟩
    rw [hoff]
    exact toInt32_of_range _ h1 h2

/-- Witness for C4: in scenario 6 the counts are positive, the node is proposing
and the round did not move on, so exactly the offset 0 is submitted, and 0 is
the rounded mean less the local close time. -/
theorem doAccept_close_time_offset_witness :
    adjustCloseTimeCalls
        (sampleAdaptor.doAccept sampleAcceptEnv sampleResult (sampleLedger 100) 10
          sampleCloseTimes ConsensusMode.proposing).2 = [0] ∧
    closeTimeOffset sampleCloseTimes =
      specRoundedMean sampleCloseTimes.self sampleCloseTimes.peers -
        sampleCloseTimes.self :=
  have h := doAccept_close_time_offset sampleAdaptor sampleAcceptEnv sampleResult
    (sampleLedger 100) 10 sampleCloseTimes ConsensusMode.proposing
  have hg := h.1 (by decide) (by decide)
  have hb := h.2.2.1 (by decide) (by decide) (by decide) (by decide)
  ⟨by rw [hg, h.2.2.2.2.2]; decide, hb.2 (by decide) (by decide)⟩

/-! ### The validation `doAccept` emits -/

theorem validate_validating (a : Adaptor) (env : ValidateEnv) (ledger : RCLCxLedger)
    (txns : RCLTxSet) (proposing : Bool) :
    (a.validate env ledger txns proposing).1.validating_ = a.validating_ := rfl

theorem acceptValidate_validating (a : Adaptor) (env : AcceptEnv) (result : Result)
    (built : RCLCxLedger) (consensusFail proposing : Bool) :
    (acceptValidate a env result built consensusFail proposing).1.validating_ =
      (a.validating_ && env.isCompatible built) := by
  unfold acceptValidate
  cases hv : a.validating_ <;> cases hc : env.isCompatible built <;>
    cases hf : consensusFail <;> cases hs : env.canValidateSeq built.seq <;>
    simp [hv, hc, hs, validate_validating]

theorem filterMap_doAccept_validation (a : Adaptor) (env : AcceptEnv) (result : Result)
    (prevLedger : RCLCxLedger) (closeResolution : Nat)
    (rawCloseTimes : ConsensusCloseTimes) (mode : ConsensusMode)
    {β : Type} (f : Event → Option β) (hf : ∀ e, e.isValidation = false → f e = none) :
    (a.doAccept env result prevLedger closeResolution rawCloseTimes mode).2.filterMap f =
      (if a.validating_ = true ∧
          env.isCompatible (acceptBuilt env result prevLedger closeResolution).1.1 = true ∧
          result.state ≠ ConsensusState.MovedOn ∧
          env.canValidateSeq (acceptBuilt env result prevLedger closeResolution).1.1.seq = true
       then
        [Event.handleNewValidation
           (buildValidation a env.validateEnv
             (acceptBuilt env result prevLedger closeResolution).1.1 result.txns
             (mode == ConsensusMode.proposing)),
         Event.sendValidation
           (buildValidation a env.validateEnv
             (acceptBuilt env result prevLedger closeResolution).1.1 result.txns
             (mode == ConsensusMode.proposing))]
       else []).filterMap f := by
  have hfc : ∀ e, e.isCensorship = true → f e = none := by
    intro e he
    apply hf
    cases e <;> simp_all [Event.isCensorship, Event.isValidation]
  have hfp : ∀ e, e.isValidatePrelude = true → f e = none := by
    intro e he
    apply hf
    cases e <;> simp_all [Event.isValidatePrelude, Event.isValidation]
  have hb : (acceptBuilt env result prevLedger closeResolution).2.filterMap f = [] := by
    unfold acceptBuilt buildLCL
    cases hr : env.releaseReplay <;>
      simp [hf (Event.buildLCL _ _ _ _ _) rfl, hf (Event.buildLedgerReplay _) rfl,
        hf (Event.buildLedger _ _ _ _) rfl, hf (Event.processClosedLedger _ _) rfl,
        hf (Event.storeLedger _) rfl]
  have hn : ∀ ne l c, (notify env.notifyEnv ne l c).filterMap f = [] := by
    intro ne l c
    simp [notify, hf (Event.statusChange _) rfl]
  have ho : (acceptOffset rawCloseTimes mode
      (result.state == ConsensusState.MovedOn)).filterMap f = [] := by
    unfold acceptOffset
    split <;> simp [hf (Event.adjustCloseTime _) rfl]
  rw [filterMap_doAccept f hfc, filterMap_acceptValidate f hfp, hb, hn, ho]
  simp only [List.nil_append, List.append_nil, List.filterMap_cons, List.filterMap_nil,
    hf (Event.consensusBuilt _ _) rfl, hf (Event.openLedgerAccept _ _ _) rfl,
    hf Event.reportFeeChange rfl, hf (Event.switchLCL _) rfl]
  generalize (acceptBuilt env result prevLedger closeResolution).1.1 = built
  cases hv : a.validating_ <;> cases hc : env.isCompatible built <;>
    cases hs : env.canValidateSeq built.seq <;>
    by_cases hst : result.state = ConsensusState.MovedOn <;>
    simp [hv, hc, hs, hst, buildValidation]

theorem sentValidation_none (e : Event) (he : e.isValidation = false) :
    e.sentValidation = none := by
  cases e <;> simp_all [Event.isValidation, Event.sentValidation]

theorem registeredValidation_none (e : Event) (he : e.isValidation = false) :
    e.registeredValidation = none := by
  cases e <;> simp_all [Event.isValidation, Event.registeredValidation]

/-- C5: with `built` the ledger `doAccept` builds, `doAccept` registers and
broadcasts a validation for `built` if and only if `validating_` was true on
entry, `built` is compatible with the validated line, the state is not
`MovedOn` and the validation store allows the sequence of `built`; it is then
one validation, registered and broadcast once each, after its digest was added
to the suppression set; afterwards `validating_` holds exactly if it held on
entry and `built` is compatible, so with an incompatible `built` it is false
and nothing is emitted. -/
theorem doAccept_validation_iff (a : Adaptor) (env : AcceptEnv) (result : Result)
    (prevLedger : RCLCxLedger) (closeResolution : Nat)
    (rawCloseTimes : ConsensusCloseTimes) (mode : ConsensusMode) :
    sentValidations (a.doAccept env result prevLedger closeResolution rawCloseTimes mode).2 =
      (if a.validating_ = true ∧
          env.isCompatible (acceptBuilt env result prevLedger closeResolution).1.1 = true ∧
          result.state ≠ ConsensusState.MovedOn ∧
          env.canValidateSeq (acceptBuilt env result prevLedger closeResolution).1.1.seq = true
       then
        [buildValidation a env.validateEnv
          (acceptBuilt env result prevLedger closeResolution).1.1 result.txns
          (mode == ConsensusMode.proposing)]
       else []) ∧
    registeredValidations
        (a.doAccept env result prevLedger closeResolution rawCloseTimes mode).2 =
      sentValidations (a.doAccept env result prevLedger closeResolution rawCloseTimes mode).2 ∧
    (sentValidations
      (a.doAccept env result prevLedger closeResolution rawCloseTimes mode).2).length ≤ 1 ∧
    (a.doAccept env result prevLedger closeResolution rawCloseTimes mode).1.validating_ =
      (a.validating_ &&
        env.isCompatible (acceptBuilt env result prevLedger closeResolution).1.1) ∧
    (env.isCompatible (acceptBuilt env result prevLedger closeResolution).1.1 = false →
      (a.doAccept env result prevLedger closeResolution rawCloseTimes mode).1.validating_ =
        false ∧
      sentValidations
        (a.doAccept env result prevLedger closeResolution rawCloseTimes mode).2 = []) := by
  have hev := @filterMap_doAccept_validation a env result prevLedger closeResolution
    rawCloseTimes mode STValidation
  have hsent : sentValidations
      (a.doAccept env result prevLedger closeResolution rawCloseTimes mode).2 =
      (if a.validating_ = true ∧
          env.isCompatible (acceptBuilt env result prevLedger closeResolution).1.1 = true ∧
          result.state ≠ ConsensusState.MovedOn ∧
          env.canValidateSeq (acceptBuilt env result prevLedger closeResolution).1.1.seq = true
       then
        [buildValidation a env.validateEnv
          (acceptBuilt env result prevLedger closeResolution).1.1 result.txns
          (mode == ConsensusMode.proposing)]
       else []) := by
    unfold sentValidations
    rw [hev Event.sentValidation sentValidation_none]
    split <;> simp [Event.sentValidation]
  have hreg : registeredValidations
      (a.doAccept env result prevLedger closeResolution rawCloseTimes mode).2 =
      sentValidations
        (a.doAccept env result prevLedger closeResolution rawCloseTimes mode).2 := by
    unfold sentValidations registeredValidations
    rw [hev Event.sentValidation sentValidation_none,
      hev Event.registeredValidation registeredValidation_none]
    split <;> simp [Event.sentValidation, Event.registeredValidation]
  have hval : (a.doAccept env result prevLedger closeResolution rawCloseTimes mode).1.validating_ =
      (a.validating_ &&
        env.isCompatible (acceptBuilt env result prevLedger closeResolution).1.1) := by
    unfold Adaptor.doAccept
    simp only [acceptValidate_validating]
  refine ⟨hsent, hreg, ?_, hval, ?_⟩
  · rw [hsent]
    split <;> simp
  · intro hinc
    refine ⟨by rw [hval, hinc]; simp, ?_⟩
    rw [hsent, hinc]
    simp

/-- Witness for C5: a validating node whose built ledger is incompatible with
the validated line stops validating and emits nothing; with a compatible built
ledger the same round emits exactly one validation. -/
theorem doAccept_validation_iff_witness :
    sampleIncompatibleEnv.isCompatible
      (acceptBuilt sampleIncompatibleEnv sampleResult (sampleLedger 100) 10).1.1 = false ∧
    ((sampleAdaptor.doAccept sampleIncompatibleEnv sampleResult (sampleLedger 100) 10
        sampleCloseTimes ConsensusMode.proposing).1.validating_ = false ∧
      sentValidations
        (sampleAdaptor.doAccept sampleIncompatibleEnv sampleResult (sampleLedger 100) 10
          sampleCloseTimes ConsensusMode.proposing).2 = []) ∧
    (sentValidations
      (sampleAdaptor.doAccept sampleAcceptEnv sampleResult (sampleLedger 100) 10
        sampleCloseTimes ConsensusMode.proposing).2).length = 1 :=
  ⟨rfl,
   (doAccept_validation_iff sampleAdaptor sampleIncompatibleEnv sampleResult
      (sampleLedger 100) 10 sampleCloseTimes ConsensusMode.proposing).2.2.2.2 rfl,
   by decide⟩

/-! ### `Adaptor::onClose` -/

theorem onCloseVotes_iff (env : OnCloseEnv) (ledger : RCLCxLedger) (mode : ConsensusMode) :
    onCloseVotes env ledger mode = true ↔
      (ledger.seq % 256 = 0 ∧
        (env.standalone = true ∨ mode = ConsensusMode.proposing) ∧
        env.quorum ≤ (env.trustedForLedger ledger.parentID).length) := by
  unfold onCloseVotes
  cases mode <;> cases hs : env.standalone <;>
    by_cases hq : ledger.seq % 256 = 0 <;> simp [hs, hq]

/-- C6 fails as stated: an observing node that is not stand-alone closes on
ledger 256 with three trusted validations against a quorum of two, and neither
voting module is invoked. -/
theorem onClose_flag_rule_counterexample :
    ¬ ((feeVoteInvoked
          (sampleAdaptor.onClose sampleOnCloseEnv (sampleLedger 256) 600
            ConsensusMode.observing).2.1 = true ∧
        amendmentVoteInvoked
          (sampleAdaptor.onClose sampleOnCloseEnv (sampleLedger 256) 600
            ConsensusMode.observing).2.1 = true) ↔
      ((sampleLedger 256).seq % 256 = 0 ∧
        sampleOnCloseEnv.quorum ≤
          (sampleOnCloseEnv.trustedForLedger (sampleLedger 256).parentID).length)) := by
  decide

/-- C6 as amended: in every call of `onClose` each of the two voting modules is
invoked if and only if `prev.seq mod 256 == 0`, the node is stand-alone or its
mode is proposing, and the number of trusted validations for `prev.parentHash`
is at least the quorum. -/
theorem onClose_flag_rule (a : Adaptor) (env : OnCloseEnv) (ledger : RCLCxLedger)
    (closeTime : Nat) (mode : ConsensusMode) :
    (feeVoteInvoked (a.onClose env ledger closeTime mode).2.1 = true ↔
      (ledger.seq % 256 = 0 ∧
        (env.standalone = true ∨ mode = ConsensusMode.proposing) ∧
        env.quorum ≤ (env.trustedForLedger ledger.parentID).length)) ∧
    (amendmentVoteInvoked (a.onClose env ledger closeTime mode).2.1 = true ↔
      (ledger.seq % 256 = 0 ∧
        (env.standalone = true ∨ mode = ConsensusMode.proposing) ∧
        env.quorum ≤ (env.trustedForLedger ledger.parentID).length)) := by
  rw [← onCloseVotes_iff]
  unfold Adaptor.onClose feeVoteInvoked amendmentVoteInvoked notify
  cases hv : onCloseVotes env ledger mode <;> cases mode <;> simp [hv]

/-- C7: in `onClose`, when `parent.seq mod 256 == 0`, the node is stand-alone or
its mode is proposing, and the trusted validations for `parent.parentHash`
number at least the quorum, the calls of the voting modules and the snapshot
are, in this order, one call of the fee vote, one call of the amendment vote,
and the snapshot, and the snapshotted set is the open ledger's set after both
modules; in every other case the snapshot is the only such call and the set is
the open ledger's set. -/
theorem onClose_votes_once_before_snapshot (a : Adaptor) (env : OnCloseEnv)
    (ledger : RCLCxLedger) (closeTime : Nat) (mode : ConsensusMode) :
    (if ledger.seq % 256 = 0 ∧
        (env.standalone = true ∨ mode = ConsensusMode.proposing) ∧
        env.quorum ≤ (env.trustedForLedger ledger.parentID).length then
      votingTrace (a.onClose env ledger closeTime mode).2.1 =
        [Event.feeVoteDoVoting ledger.id, Event.amendmentDoVoting ledger.id,
         Event.snapShot (a.onClose env ledger closeTime mode).2.2.txns.id] ∧
      (a.onClose env ledger closeTime mode).2.2.txns.items =
        env.amendmentDoVoting ledger (env.trustedForLedger ledger.parentID)
          (env.feeVoteDoVoting ledger (env.trustedForLedger ledger.parentID)
            (env.openLedgerTxs.foldl SHAMap.addItem []))
     else
      votingTrace (a.onClose env ledger closeTime mode).2.1 =
        [Event.snapShot (a.onClose env ledger closeTime mode).2.2.txns.id] ∧
      (a.onClose env ledger closeTime mode).2.2.txns.items =
        env.openLedgerTxs.foldl SHAMap.addItem []) := by
  by_cases h : ledger.seq % 256 = 0 ∧
      (env.standalone = true ∨ mode = ConsensusMode.proposing) ∧
      env.quorum ≤ (env.trustedForLedger ledger.parentID).length
  · have hv : onCloseVotes env ledger mode = true := (onCloseVotes_iff env ledger mode).mpr h
    rw [if_pos h]
    unfold Adaptor.onClose votingTrace notify
    cases mode <;> simp [hv]
  · have hv : onCloseVotes env ledger mode = false :=
      Bool.eq_false_iff.mpr (fun hc => h ((onCloseVotes_iff env ledger mode).mp hc))
    rw [if_neg h]
    unfold Adaptor.onClose votingTrace notify
    cases mode <;> simp [hv]

/-! ### `Adaptor::preStartRound` -/

/-- C8 fails as stated: a node with a validator key that is not stand-alone, not
amendment-blocked, past the max-disallowed ledger, and for which no validator
list is configured (so no expiration is known) is validating after
`preStartRound`, although condition (d) of the claim does not hold. -/
theorem preStartRound_validating_counterexample :
    ¬ ((sampleAdaptor.preStartRound samplePreStartEnv (sampleLedger 100)).1.validating_ =
        true ↔
      (sampleAdaptor.valPublic_.length ≠ 0 ∧
        samplePreStartEnv.maxDisallowedLedger ≤ (sampleLedger 100).seq ∧
        samplePreStartEnv.amendmentBlocked = false ∧
        (samplePreStartEnv.standalone = true ∨
          ∃ w, samplePreStartEnv.expires = some w ∧ ¬ w < samplePreStartEnv.now))) := by
  intro h
  have h1 : (sampleAdaptor.preStartRound samplePreStartEnv (sampleLedger 100)).1.validating_ =
      true := by decide
  obtain ⟨_, _, _, h2⟩ := h.mp h1
  rcases h2 with h3 | ⟨w, h4, _⟩
  · exact absurd h3 (by decide)
  · exact absurd h4 (by simp [samplePreStartEnv])

/-- C8 as amended: after `preStartRound(prevLgr)`, `validating_` is true if and
only if (a) the local validator public key is non-empty, (b) `prevLgr.seq` is at
least the max-disallowed ledger, (c) the node is not amendment-blocked, and (d)
the node is stand-alone, or the count of validator lists is zero, or the
expiration of the trusted validator list is known and not earlier than now. -/
theorem preStartRound_validating_iff (a : Adaptor) (env : PreStartEnv)
    (prevLgr : RCLCxLedger) :
    (a.preStartRound env prevLgr).1.validating_ = true ↔
      (a.valPublic_.length ≠ 0 ∧
        env.maxDisallowedLedger ≤ prevLgr.seq ∧
        env.amendmentBlocked = false ∧
        (env.standalone = true ∨ env.validatorsCount = 0 ∨
          ∃ w, env.expires = some w ∧ ¬ w < env.now)) := by
  unfold Adaptor.preStartRound preStartValidating
  cases hb : env.amendmentBlocked <;> cases hs : env.standalone <;>
    cases he : env.expires <;>
    by_cases hk : a.valPublic_.length = 0 <;>
    by_cases hm : env.maxDisallowedLedger ≤ prevLgr.seq <;>
    by_cases hc : env.validatorsCount = 0 <;>
    simp [hb, hs, he, hk, hm, hc]

/-! ### `Adaptor::acquireLedger` -/

theorem scheduledFetches_append (l₁ l₂ : List Event) :
    scheduledFetches (l₁ ++ l₂) = scheduledFetches l₁ ++ scheduledFetches l₂ := by
  induction l₁ with
  | nil => rfl
  | cons e es ih => cases e <;> simp [scheduledFetches, ih]

theorem acquireCalls_absent (calls : List (AcquireEnv × LedgerHash)) :
    ∀ a : Adaptor, (∀ c ∈ calls, c.1.getLedgerByHash c.2 = none) →
      scheduledFetches (acquireCalls a calls).2.1 =
        changedHashes a.acquiringLedger_ (calls.map (fun c => c.2)) ∧
      (acquireCalls a calls).2.2 = List.replicate calls.length none := by
  induction calls with
  | nil => intro a _; simp [acquireCalls, scheduledFetches, changedHashes]
  | cons c cs ih =>
    intro a h
    have hc := h c (List.mem_cons_self c cs)
    have hcs : ∀ d ∈ cs, d.1.getLedgerByHash d.2 = none :=
      fun d hd => h d (List.mem_cons_of_mem c hd)
    by_cases hne : a.acquiringLedger_ = c.2
    · have hstep : a.acquireLedger c.1 c.2 = (a, [], none) := by
        simp [Adaptor.acquireLedger, hc, hne]
      have ih2 := ih a hcs
      rw [hne] at ih2
      simp only [acquireCalls, hstep, List.map_cons, changedHashes, hne, List.nil_append,
        List.length_cons, List.replicate_succ, ne_eq, not_true_eq_false, if_false]
      exact ⟨ih2.1, by rw [ih2.2]⟩
    · have hstep : a.acquireLedger c.1 c.2 =
          ({ a with acquiringLedger_ := c.2 }, [Event.addJobAcquire c.2], none) := by
        simp [Adaptor.acquireLedger, hc, hne]
      have ih2 := ih { a with acquiringLedger_ := c.2 } hcs
      simp only [acquireCalls, hstep, List.map_cons, changedHashes, hne, ne_eq,
        not_false_eq_true, if_true, List.length_cons, List.replicate_succ,
        scheduledFetches_append, scheduledFetches, List.singleton_append]
      exact ⟨by rw [ih2.1], by rw [ih2.2]⟩

theorem changedHashes_chain (hs : List LedgerHash) :
    ∀ prev : LedgerHash, List.Chain (fun x y => x ≠ y) prev (changedHashes prev hs) := by
  induction hs with
  | nil => intro prev; exact List.Chain.nil
  | cons h hs ih =>
    intro prev
    unfold changedHashes
    by_cases hne : prev = h
    · simp only [hne, ne_eq, not_true_eq_false, if_false]
      exact ih h
    · simp only [hne, ne_eq, not_false_eq_true, if_true]
      exact List.Chain.cons hne (ih h)

/-- C9 fails as stated: the requests for the absent hashes 5, 6 and 5 schedule
three fetch jobs, two of them for the hash 5. -/
theorem acquireLedger_once_per_hash_counterexample :
    (∀ c ∈ sampleAcquireCalls, c.1.getLedgerByHash c.2 = none) ∧
    scheduledFetches (acquireCalls sampleAdaptor sampleAcquireCalls).2.1 = [5, 6, 5] ∧
    ¬ (scheduledFetches (acquireCalls sampleAdaptor sampleAcquireCalls).2.1).Nodup := by
  refine ⟨?_, by decide, by decide⟩
  simp [sampleAcquireCalls, sampleAcquireEnv]

/-- C9 as amended: over every sequence of `acquireLedger` calls on one adaptor
for hashes that are not present locally, a fetch job is scheduled exactly for
the calls whose hash differs from the hash of the call before (for the first
call: from the stored `acquiringLedger_`), so a hash is never scheduled twice in
a row, and every such call returns pending (none). -/
theorem acquireLedger_schedules_on_change (a : Adaptor)
    (calls : List (AcquireEnv × LedgerHash))
    (h : ∀ c ∈ calls, c.1.getLedgerByHash c.2 = none) :
    scheduledFetches (acquireCalls a calls).2.1 =
      changedHashes a.acquiringLedger_ (calls.map (fun c => c.2)) ∧
    List.Chain (fun x y => x ≠ y) a.acquiringLedger_
      (scheduledFetches (acquireCalls a calls).2.1) ∧
    (acquireCalls a calls).2.2 = List.replicate calls.length none := by
  have h1 := acquireCalls_absent calls a h
  refine ⟨h1.1, ?_, h1.2⟩
  rw [h1.1]
  exact changedHashes_chain _ _

/-- Witness for C9 as amended: of the requests for the absent hashes 5, 5 and 6
the second schedules nothing, and all three return none. -/
theorem acquireLedger_schedules_on_change_witness :
    (∀ c ∈ [(sampleAcquireEnv, 5), (sampleAcquireEnv, 5), (sampleAcquireEnv, 6)],
      c.1.getLedgerByHash c.2 = none) ∧
    scheduledFetches (acquireCalls sampleAdaptor
      [(sampleAcquireEnv, 5), (sampleAcquireEnv, 5), (sampleAcquireEnv, 6)]).2.1 = [5, 6] ∧
    (acquireCalls sampleAdaptor
      [(sampleAcquireEnv, 5), (sampleAcquireEnv, 5), (sampleAcquireEnv, 6)]).2.2 =
      [none, none, none] :=
  have h : ∀ c ∈ [(sampleAcquireEnv, 5), (sampleAcquireEnv, 5), (sampleAcquireEnv, 6)],
      c.1.getLedgerByHash c.2 = none := by simp [sampleAcquireEnv]
  have t := acquireLedger_schedules_on_change sampleAdaptor
    [(sampleAcquireEnv, 5), (sampleAcquireEnv, 5), (sampleAcquireEnv, 6)] h
  ⟨h, by rw [t.1]; decide, by rw [t.2.2]; decide⟩

/-! ### `Adaptor::getPrevLedger` -/

/-- C10: `getPrevLedger(localId, localLedger, mode)` returns the hash the
validation store reports as preferred, and it signals a view change to
network-operations exactly once if that hash differs from `localId` and the mode
is not `wrongLedger`, and not at all otherwise. -/
theorem getPrevLedger_preferred_and_view_change (a : Adaptor) (env : PrevLedgerEnv)
    (localId : uint256) (localLedger : RCLCxLedger) (mode : ConsensusMode) :
    (a.getPrevLedger env localId localLedger mode).2 =
      env.getPreferred localLedger env.validLedgerIndex ∧
    (a.getPrevLedger env localId localLedger mode).1 =
      (if env.getPreferred localLedger env.validLedgerIndex ≠ localId ∧
          mode ≠ ConsensusMode.wrongLedger then
        [Event.consensusViewChange]
       else []) := by
  unfold Adaptor.getPrevLedger
  refine ⟨rfl, ?_⟩
  by_cases h1 : env.getPreferred localLedger env.validLedgerIndex = localId <;>
    cases mode <;> simp [h1]

/-! ### `Adaptor::onModeChange` -/

/-- C11: `onModeChange(before, after)` resets the censorship detector, once,
whenever `before` is proposing or observing and `after` is a different mode; it
does not reset it in any other case; in every case the mode of the adaptor is
`after` afterwards. -/
theorem onModeChange_resets_when_leaving (a : Adaptor) (before after : ConsensusMode) :
    (a.onModeChange before after).2 =
      (if (before = ConsensusMode.proposing ∨ before = ConsensusMode.observing) ∧
          before ≠ after then
        [Event.censorshipReset]
       else []) ∧
    censorshipResets (a.onModeChange before after).2 =
      (if (before = ConsensusMode.proposing ∨ before = ConsensusMode.observing) ∧
          before ≠ after then 1
       else 0) ∧
    (a.onModeChange before after).1.mode_ = after := by
  cases before <;> cases after <;>
    simp [Adaptor.onModeChange, censorshipResets]

/-! ### The result of `Adaptor::onClose` -/

/-- C13 fails as stated: a proposing node closes on ledger 256 (identity 1256,
parent 1255) with the open ledger built on that ledger; the previous-ledger
field of the proposal is 1256, the parent hash of the open ledger, and not
1255, the parent hash of the ledger passed in. -/
theorem onClose_proposal_counterexample :
    (sampleAdaptor.onClose sampleOnCloseEnv (sampleLedger 256) 600
      ConsensusMode.proposing).2.2.position.prevLedger = 1256 ∧
    (sampleLedger 256).parentID = 1255 ∧
    (sampleAdaptor.onClose sampleOnCloseEnv (sampleLedger 256) 600
      ConsensusMode.proposing).2.2.position.prevLedger ≠ (sampleLedger 256).parentID := by
  decide

/-- C13 as amended: for every parent ledger, close time and mode, the result of
`onClose` holds the snapshotted initial set and a proposal whose previous-ledger
field is the parent hash of the current open ledger, whose propose-sequence is
`seqJoin`, whose position is the hash of that snapshotted set, whose close time
is the `closeTime` argument, and whose node id is the local node id. -/
theorem onClose_result_proposal (a : Adaptor) (env : OnCloseEnv) (ledger : RCLCxLedger)
    (closeTime : Nat) (mode : ConsensusMode) :
    Event.snapShot (a.onClose env ledger closeTime mode).2.2.txns.id ∈
      (a.onClose env ledger closeTime mode).2.1 ∧
    (a.onClose env ledger closeTime mode).2.2.txns.id =
      env.getHash (a.onClose env ledger closeTime mode).2.2.txns.items ∧
    (a.onClose env ledger closeTime mode).2.2.position.prevLedger =
      env.openLedgerParentHash ∧
    (a.onClose env ledger closeTime mode).2.2.position.proposeSeq = seqJoin ∧
    (a.onClose env ledger closeTime mode).2.2.position.position =
      env.getHash (a.onClose env ledger closeTime mode).2.2.txns.items ∧
    (a.onClose env ledger closeTime mode).2.2.position.closeTime = closeTime ∧
    (a.onClose env ledger closeTime mode).2.2.position.nodeID = a.nodeID_ := by
  refine ⟨?_, rfl, rfl, rfl, rfl, rfl, rfl⟩
  unfold Adaptor.onClose
  simp

/-! ### `Book` -/

/-- C14: `reversed` swaps the in and out issues, and for every book `b`,
`reversed(reversed(b)) == b` under the `operator==` of `Book`, given that the
`operator==` of the issue type holds between an issue and itself. -/
theorem reversed_reversed_eq {Issue : Type} (issueEq : Issue → Issue → Bool)
    (hrefl : ∀ i : Issue, issueEq i i = true) (b : Book Issue) :
    (reversed b).«in» = b.out ∧ (reversed b).out = b.«in» ∧
    reversed (reversed b) = b ∧
    Book.eq issueEq (reversed (reversed b)) b = true := by
  refine ⟨rfl, rfl, rfl, ?_⟩
  simp [Book.eq, reversed, hrefl]

/-- Witness for C14: the book (1, 10) -> (2, 20), with issues compared
component by component. -/
theorem reversed_reversed_eq_witness :
    (∀ i : Nat × Nat, (i == i) = true) ∧
    reversed sampleBook = { «in» := (2, 20), out := (1, 10) } ∧
    Book.eq (fun i j => i == j) (reversed (reversed sampleBook)) sampleBook = true :=
  have hrefl : ∀ i : Nat × Nat, (i == i) = true := fun i => by simp
  have h := reversed_reversed_eq (fun i j : Nat × Nat => i == j) hrefl sampleBook
  ⟨hrefl, by decide, h.2.2.2⟩

/-! ### The votes `Adaptor::validate` attaches -/

/-- C18 fails as stated: for the ledger with sequence 256, a multiple of 256,
`validate` consults neither voting module and the validation carries no
amendments and no base fee; for the ledger with sequence 255, not a multiple of
256, it consults them and the validation carries the amendment 77 and the base
fee 10. -/
theorem validate_flag_ledger_counterexample :
    ¬ (validationVotesAttached
        (sampleAdaptor.validate sampleVotingValidateEnv (sampleLedger 256) sampleTxSet
          true).2 = true ↔ (sampleLedger 256).seq % 256 = 0) ∧
    (buildValidation sampleAdaptor sampleVotingValidateEnv (sampleLedger 256) sampleTxSet
      true).amendments = [] ∧
    ¬ (validationVotesAttached
        (sampleAdaptor.validate sampleVotingValidateEnv (sampleLedger 255) sampleTxSet
          true).2 = true ↔ (sampleLedger 255).seq % 256 = 0) ∧
    (buildValidation sampleAdaptor sampleVotingValidateEnv (sampleLedger 255) sampleTxSet
      true).amendments = [77] ∧
    (buildValidation sampleAdaptor sampleVotingValidateEnv (sampleLedger 255) sampleTxSet
      true).fees.baseFee = some 10 := by
  decide

/-- C18 as amended: `validate` consults the fee vote and the amendment table,
and puts their fee settings and amendments into the validation, exactly when the
sequence of the ledger being validated plus one is a multiple of 256; for every
other ledger the amendments vector is empty and of the fee settings only the
load fee is set, and that only when the larger of the local and the cluster fee
exceeds the load base. -/
theorem validate_attaches_votes_iff (a : Adaptor) (env : ValidateEnv)
    (ledger : RCLCxLedger) (txns : RCLTxSet) (proposing : Bool) :
    (validationVotesAttached (a.validate env ledger txns proposing).2 = true ↔
      (ledger.seq + 1) % 256 = 0) ∧
    sentValidations (a.validate env ledger txns proposing).2 =
      [buildValidation a env ledger txns proposing] ∧
    (if (ledger.seq + 1) % 256 = 0 then
      (buildValidation a env ledger txns proposing).fees =
        env.feeVoteDoValidation ledger (loadFeeOnly env) ∧
      (buildValidation a env ledger txns proposing).amendments =
        env.amendmentDoValidation ledger.enabledAmendments
     else
      (buildValidation a env ledger txns proposing).fees = loadFeeOnly env ∧
      (buildValidation a env ledger txns proposing).amendments = []) := by
  refine ⟨?_, sentValidations_validate a env ledger txns proposing, ?_⟩
  · unfold Adaptor.validate validationVotesAttached
    by_cases h : (ledger.seq + 1) % 256 = 0 <;> simp [h]
  · unfold buildValidation loadFeeOnly
    by_cases h : (ledger.seq + 1) % 256 = 0 <;> simp [h]

/-! ### The censorship predicate -/

theorem ledgerIndexSub_eq (curr since : Nat) (hle : since ≤ curr) (hcurr : curr < 2 ^ 32) :
    ledgerIndexSub curr since = curr - since := by
  unfold ledgerIndexSub
  omega

theorem censorshipPredicate_eq (w : Nat) (curr : Nat) (failed : List TxID)
    (id : TxID) (since : Nat) (hle : since ≤ curr) (hcurr : curr < 2 ^ 32) :
    censorshipPredicate w curr failed id since =
      if id ∈ failed then (true, [])
      else (false,
        if 0 < curr - since ∧ (curr - since) % w = 0 then
          [Event.censorshipWarning id since curr]
        else []) := by
  unfold censorshipPredicate
  rw [ledgerIndexSub_eq curr since hle hcurr]
  by_cases hf : id ∈ failed
  · simp [hf]
  · by_cases hw : 0 < curr - since ∧ (curr - since) % w = 0
    · have h1 : curr - since ≠ 0 ∧ (curr - since) % w = 0 := ⟨by omega, hw.2⟩
      simp [hf, hw, h1]
    · have h1 : ¬ (curr - since ≠ 0 ∧ (curr - since) % w = 0) := by
        intro h
        exact hw ⟨by omega, h.2⟩
      simp only [hf, if_false, h1, hw]

theorem warningsOver_eq (w : Nat) (failedAt : Nat → List TxID) (id : TxID) (since : Nat)
    (hfail : ∀ k, id ∉ failedAt k) (n : Nat) (hn : since + n < 2 ^ 32) :
    warningsOver w failedAt id since n =
      ((List.range' 1 n).filter (fun k => decide (k % w = 0))).map
        (fun k => Event.censorshipWarning id since (since + k)) := by
  induction n with
  | zero => rfl
  | succ n ih =>
    rw [warningsOver, ih (by omega), censorshipPredicate_eq w (since + (n + 1)) _ id since
      (by omega) hn, if_neg (hfail _), List.range'_1_concat, List.filter_append,
      List.map_append]
    congr 1
    have hd : since + (n + 1) - since = n + 1 := by omega
    rw [hd]
    by_cases hm : (n + 1) % w = 0
    · have : 1 + n = n + 1 := by omega
      simp [hm, this]
    · have : 1 + n = n + 1 := by omega
      simp [hm, this]

theorem count_multiples (w n : Nat) :
    ((List.range' 1 n).filter (fun k => decide (k % w = 0))).length = if w = 0 then 0 else n / w := by
  induction n with
  | zero => simp
  | succ n ih =>
    rw [List.range'_1_concat, List.filter_append, List.length_append, ih]
    by_cases hw : w = 0
    · subst hw
      simp
    · simp only [hw, if_false]
      rw [Nat.succ_div]
      have : 1 + n = n + 1 := by omega
      by_cases hm : (n + 1) % w = 0
      · have hd : w ∣ n + 1 := Nat.dvd_of_mod_eq_zero hm
        simp [this, hm, hd]
      · have hd : ¬ w ∣ n + 1 := fun h => hm (Nat.mod_eq_zero_of_dvd h)
        simp [this, hm, hd]

/-- C12: for a tracked entry `(id, since)` with `since <= curr`, the predicate
`doAccept` hands to the censorship check returns true if and only if `id` is in
the failed set, and then writes nothing; otherwise it returns false and writes
a warning if and only if `curr - since` is a positive multiple of the warn
interval. Hence, for an id that is never in the failed set, the calls at the
ledgers `since + 1`, ..., `since + n` write exactly one warning at each
multiple of the warn interval and none in between, `n / interval` in all. -/
theorem censorship_predicate_warns_at_multiples (w : Nat) (hw : 0 < w)
    (failed : List TxID) (id : TxID) (since curr : Nat) (hle : since ≤ curr)
    (hcurr : curr < 2 ^ 32) :
    ((censorshipPredicate w curr failed id since).1 = true ↔ id ∈ failed) ∧
    (id ∈ failed → (censorshipPredicate w curr failed id since).2 = []) ∧
    (id ∉ failed →
      (censorshipPredicate w curr failed id since).2 =
        if 0 < curr - since ∧ w ∣ curr - since then
          [Event.censorshipWarning id since curr]
        else []) ∧
    (∀ (failedAt : Nat → List TxID) (n : Nat), (∀ k, id ∉ failedAt k) →
      since + n < 2 ^ 32 →
      warningsOver w failedAt id since n =
        ((List.range' 1 n).filter (fun k => decide (w ∣ k))).map
          (fun k => Event.censorshipWarning id since (since + k)) ∧
      (warningsOver w failedAt id since n).length = n / w) := by
  have hpred := censorshipPredicate_eq w curr failed id since hle hcurr
  have hfilter : ∀ n : Nat, (List.range' 1 n).filter (fun k => decide (w ∣ k)) =
      (List.range' 1 n).filter (fun k => decide (k % w = 0)) := by
    intro n
    apply List.filter_congr
    intro k _
    simp [Nat.dvd_iff_mod_eq_zero]
  refine ⟨?_, ?_, ?_, ?_⟩
  · rw [hpred]
    by_cases hf : id ∈ failed <;> simp [hf]
  · intro hf
    rw [hpred]
    simp [hf]
  · intro hf
    rw [hpred]
    simp only [hf, if_false, Nat.dvd_iff_mod_eq_zero]
  · intro failedAt n hfail hn
    have h1 := warningsOver_eq w failedAt id since hfail n hn
    refine ⟨by rw [h1, hfilter], ?_⟩
    rw [h1, List.length_map, count_multiples, if_neg (by omega)]

/-- Witness for C12: with the warn interval 15, an entry tracked since ledger
100 and never failed gets a warning at ledger 130, none at ledger 131, and
three warnings over the ledgers 101 to 145. -/
theorem censorship_predicate_warns_at_multiples_witness :
    (censorshipPredicate 15 130 [] 9 100).2 = [Event.censorshipWarning 9 100 130] ∧
    (censorshipPredicate 15 131 [] 9 100).2 = [] ∧
    (warningsOver 15 (fun _ => []) 9 100 45).length = 3 :=
  have h := censorship_predicate_warns_at_multiples 15 (by decide) [] 9 100 130
    (by decide) (by decide)
  have h2 := h.2.2.2 (fun _ => []) 45 (fun _ => List.not_mem_nil 9) (by decide)
  ⟨by rw [h.2.2.1 (List.not_mem_nil 9)]; decide, by decide, by rw [h2.2]⟩

/-! ### The disputed transactions `doAccept` retries -/

theorem mem_insert_ids (s : CanonicalTXSet) (t : STTx) (x : TxID) :
    x ∈ (s.insert t).txs.map (fun u => u.txid) ↔
      x ∈ s.txs.map (fun u => u.txid) ∨ x = t.txid := by
  unfold CanonicalTXSet.insert
  by_cases h : s.txs.any (fun u => u.txid == t.txid) = true
  · rw [if_pos h]
    constructor
    · intro hx
      exact Or.inl hx
    · intro hx
      rcases hx with hx | hx
      · exact hx
      · subst hx
        obtain ⟨u, hu, he⟩ := List.any_eq_true.mp h
        exact List.mem_map.mpr ⟨u, hu, by simpa using he⟩
  · rw [if_neg h]
    simp [List.map_append]

theorem mem_retryDisputes_ids (env : AcceptEnv) (disputes : List (TxID × DisputedTx))
    (x : TxID) :
    ∀ acc : CanonicalTXSet × Bool,
      x ∈ (disputes.foldl
        (fun acc it =>
          if !it.2.ourVote then
            match env.parseSTTx it.2.tx.slice with
            | some txn => if txn.pseudo then acc else (acc.1.insert txn, true)
            | none => acc
          else acc) acc).1.txs.map (fun u => u.txid) ↔
      (x ∈ acc.1.txs.map (fun u => u.txid) ∨
        ∃ d ∈ disputes, ∃ txn, d.2.ourVote = false ∧
          env.parseSTTx d.2.tx.slice = some txn ∧ txn.pseudo = false ∧ txn.txid = x) := by
  induction disputes with
  | nil => intro acc; simp
  | cons d ds ih =>
    intro acc
    rw [List.foldl_cons, ih]
    cases hv : d.2.ourVote
    · cases hp : env.parseSTTx d.2.tx.slice with
      | none =>
        simp only [hv, Bool.not_false, if_true]
        constructor
        · rintro (h | ⟨e, he, h⟩)
          · exact Or.inl h
          · exact Or.inr ⟨e, List.mem_cons_of_mem d he, h⟩
        · rintro (h | ⟨e, he, txn, h1, h2, h3⟩)
          · exact Or.inl h
          · rcases List.mem_cons.mp he with rfl | he
            · rw [hp] at h2
              exact absurd h2 (by simp)
            · exact Or.inr ⟨e, he, txn, h1, h2, h3⟩
      | some txn =>
        cases hps : txn.pseudo
        · simp only [hv, hps, Bool.not_false, if_true, Bool.false_eq_true, if_false,
            mem_insert_ids]
          constructor
          · rintro ((h | h) | ⟨e, he, h⟩)
            · exact Or.inl h
            · exact Or.inr ⟨d, List.mem_cons_self d ds, txn, hv, hp, hps, h.symm⟩
            · exact Or.inr ⟨e, List.mem_cons_of_mem d he, h⟩
          · rintro (h | ⟨e, he, t, h1, h2, h3, h4⟩)
            · exact Or.inl (Or.inl h)
            · rcases List.mem_cons.mp he with rfl | he
              · rw [hp] at h2
                have ht : txn = t := Option.some.inj h2
                subst ht
                exact Or.inl (Or.inr h4.symm)
              · exact Or.inr ⟨e, he, t, h1, h2, h3, h4⟩
        · simp only [hv, hps, Bool.not_false, if_true]
          constructor
          · rintro (h | ⟨e, he, h⟩)
            · exact Or.inl h
            · exact Or.inr ⟨e, List.mem_cons_of_mem d he, h⟩
          · rintro (h | ⟨e, he, t, h1, h2, h3, h4⟩)
            · exact Or.inl h
            · rcases List.mem_cons.mp he with rfl | he
              · rw [hp] at h2
                have ht : txn = t := Option.some.inj h2
                subst ht
                rw [hps] at h3
                exact absurd h3 (by simp)
              · exact Or.inr ⟨e, he, t, h1, h2, h3, h4⟩
    · simp only [hv, Bool.not_true, Bool.false_eq_true, if_false]
      constructor
      · rintro (h | ⟨e, he, h⟩)
        · exact Or.inl h
        · exact Or.inr ⟨e, List.mem_cons_of_mem d he, h⟩
      · rintro (h | ⟨e, he, t, h1, h2⟩)
        · exact Or.inl h
        · rcases List.mem_cons.mp he with rfl | he
          · rw [hv] at h1
            exact absurd h1 (by simp)
          · exact Or.inr ⟨e, he, t, h1, h2⟩

theorem openLedgerAcceptCalls_doAccept (a : Adaptor) (env : AcceptEnv) (result : Result)
    (prevLedger : RCLCxLedger) (closeResolution : Nat)
    (rawCloseTimes : ConsensusCloseTimes) (mode : ConsensusMode) :
    openLedgerAcceptCalls
        (a.doAccept env result prevLedger closeResolution rawCloseTimes mode).2 =
      [((acceptBuilt env result prevLedger closeResolution).1.1.id,
        (retryDisputes env result.disputes
          (acceptBuilt env result prevLedger closeResolution).1.2.1).2,
        (retryDisputes env result.disputes
          (acceptBuilt env result prevLedger closeResolution).1.2.1).1.txs.map
            (fun t => t.txid))] := by
  unfold openLedgerAcceptCalls
  rw [filterMap_doAccept Event.openLedgerAcceptCall
      (by intro e he; cases e <;>
        simp_all [Event.isCensorship, Event.openLedgerAcceptCall]),
    filterMap_acceptValidate Event.openLedgerAcceptCall
      (by intro e he; cases e <;>
        simp_all [Event.isValidatePrelude, Event.openLedgerAcceptCall])]
  have hb : (acceptBuilt env result prevLedger closeResolution).2.filterMap
      Event.openLedgerAcceptCall = [] := by
    unfold acceptBuilt buildLCL
    cases hr : env.releaseReplay <;> simp [Event.openLedgerAcceptCall]
  have ho : (acceptOffset rawCloseTimes mode
      (result.state == ConsensusState.MovedOn)).filterMap Event.openLedgerAcceptCall = [] := by
    unfold acceptOffset
    split <;> simp [Event.openLedgerAcceptCall]
  have hv : ∀ (c : Prop) [Decidable c] (v : STValidation),
      (if c then [Event.handleNewValidation v, Event.sendValidation v]
        else []).filterMap Event.openLedgerAcceptCall = [] := by
    intro c _ v
    split <;> rfl
  rw [hb, ho, hv]
  rfl

/-- C17: `doAccept` rebuilds the open ledger once. For every dispute of the
result on which the local node voted NO and whose transaction (as it
deserializes) is not a pseudo-transaction, that transaction is in the retriable
set passed to the rebuild. Every transaction of that set is one the ledger
builder left to retry or one of those disputed transactions: transactions the
node voted YES on and pseudo-transactions are not inserted by this step. -/
theorem doAccept_retries_disputed (a : Adaptor) (env : AcceptEnv) (result : Result)
    (prevLedger : RCLCxLedger) (closeResolution : Nat)
    (rawCloseTimes : ConsensusCloseTimes) (mode : ConsensusMode) :
    openLedgerAcceptCalls
        (a.doAccept env result prevLedger closeResolution rawCloseTimes mode).2 =
      [((acceptBuilt env result prevLedger closeResolution).1.1.id,
        (retryDisputes env result.disputes
          (acceptBuilt env result prevLedger closeResolution).1.2.1).2,
        (retryDisputes env result.disputes
          (acceptBuilt env result prevLedger closeResolution).1.2.1).1.txs.map
            (fun t => t.txid))] ∧
    (∀ d ∈ result.disputes, ∀ txn : STTx, d.2.ourVote = false →
      env.parseSTTx d.2.tx.slice = some txn → txn.pseudo = false →
      txn.txid ∈ (retryDisputes env result.disputes
        (acceptBuilt env result prevLedger closeResolution).1.2.1).1.txs.map
          (fun t => t.txid)) ∧
    (∀ x ∈ (retryDisputes env result.disputes
        (acceptBuilt env result prevLedger closeResolution).1.2.1).1.txs.map
          (fun t => t.txid),
      x ∈ (acceptBuilt env result prevLedger closeResolution).1.2.1.txs.map
          (fun t => t.txid) ∨
      ∃ d ∈ result.disputes, ∃ txn : STTx, d.2.ourVote = false ∧
        env.parseSTTx d.2.tx.slice = some txn ∧ txn.pseudo = false ∧ txn.txid = x) := by
  refine ⟨openLedgerAcceptCalls_doAccept a env result prevLedger closeResolution
    rawCloseTimes mode, ?_, ?_⟩
  · intro d hd txn hv hp hps
    unfold retryDisputes
    rw [mem_retryDisputes_ids]
    exact Or.inr ⟨d, hd, txn, hv, hp, hps, rfl⟩
  · intro x hx
    unfold retryDisputes at hx
    rw [mem_retryDisputes_ids] at hx
    exact hx

/-- Witness for C17: of the four disputes of the sample result only transaction
5 (voted NO, not a pseudo-transaction) is passed to the rebuild. -/
theorem doAccept_retries_disputed_witness :
    openLedgerAcceptCalls
        (sampleAdaptor.doAccept sampleAcceptEnv sampleDisputedResult (sampleLedger 100) 10
          sampleCloseTimes ConsensusMode.proposing).2 = [(1101, true, [5])] ∧
    (5 : TxID) ∈ (retryDisputes sampleAcceptEnv sampleDisputedResult.disputes
      (acceptBuilt sampleAcceptEnv sampleDisputedResult (sampleLedger 100) 10).1.2.1).1.txs.map
        (fun t => t.txid) :=
  have h := doAccept_retries_disputed sampleAdaptor sampleAcceptEnv sampleDisputedResult
    (sampleLedger 100) 10 sampleCloseTimes ConsensusMode.proposing
  ⟨by rw [h.1]; decide,
   h.2.1 (5, { tx := { key := 5, slice := [5, 0] }, ourVote := false }) (by decide)
     { txid := 5, pseudo := false } rfl (by decide) rfl⟩

end ripple

/-! ## Theorems on the lexical cast -/

namespace beast

open detail

/-! ### Characters and decimal values -/

theorem char_le_iff (a b : Char) : a ≤ b ↔ a.toNat ≤ b.toNat := by
  rw [Char.le_def]
  exact UInt32.le_def

theorem char_lt_iff (a b : Char) : a < b ↔ a.toNat < b.toNat := by
  rw [Char.lt_def]
  exact UInt32.lt_def

theorem isDigit_iff (c : Char) : isDigit c = true ↔ 48 ≤ c.toNat ∧ c.toNat ≤ 57 := by
  unfold isDigit
  rw [Bool.and_eq_true, decide_eq_true_iff, decide_eq_true_iff, char_le_iff, char_le_iff]
  exact Iff.rfl

theorem not_isDigit_iff (c : Char) : (c < '0' ∨ c > '9') ↔ isDigit c = false := by
  rw [← Bool.not_eq_true, isDigit_iff, gt_iff_lt, char_lt_iff, char_lt_iff]
  have h0 : ('0' : Char).toNat = 48 := rfl
  have h9 : ('9' : Char).toNat = 57 := rfl
  rw [h0, h9]
  omega

theorem digitValue_of_isDigit (c : Char) (h : isDigit c = true) :
    digitValue c ≤ 9 ∧ c.toNat = 48 + digitValue c := by
  have h1 := (isDigit_iff c).mp h
  have h0 : ('0' : Char).toNat = 48 := rfl
  unfold digitValue
  rw [h0]
  omega

theorem decimalValueFrom_cons (acc : Nat) (c : Char) (s : List Char) :
    decimalValueFrom acc (c :: s) = decimalValueFrom (acc * 10 + digitValue c) s := rfl

theorem le_decimalValueFrom (s : List Char) : ∀ acc : Nat, acc ≤ decimalValueFrom acc s := by
  induction s with
  | nil => intro acc; exact Nat.le_refl acc
  | cons c cs ih =>
    intro acc
    rw [decimalValueFrom_cons]
    have := ih (acc * 10 + digitValue c)
    omega

/-! ### The limits of an integral type -/

theorem IntType.max_nonneg (T : IntType) : 0 ≤ T.max := by
  unfold IntType.max
  have h1 : (0 : Int) < 2 ^ (T.bits - 1) := by positivity
  have h2 : (0 : Int) < 2 ^ T.bits := by positivity
  split <;> omega

theorem IntType.min_nonpos (T : IntType) : T.min ≤ 0 := by
  unfold IntType.min
  have h1 : (0 : Int) < 2 ^ (T.bits - 1) := by positivity
  split <;> omega

theorem IntType.wrap_of_range (T : IntType) (hT : T.isSigned = true → 1 ≤ T.bits)
    (x : Int) (h1 : T.min ≤ x) (h2 : x ≤ T.max) : T.wrap x = x := by
  unfold IntType.wrap
  unfold IntType.min at h1
  unfold IntType.max at h2
  cases hs : T.isSigned
  · simp only [hs, Bool.false_eq_true, if_false] at h1 h2 ⊢
    exact Int.emod_eq_of_lt h1 (by omega)
  · simp only [hs, if_true] at h1 h2 ⊢
    have hb := hT hs
    have hpow : (2 : Int) ^ T.bits = 2 * 2 ^ (T.bits - 1) := by
      have : T.bits = (T.bits - 1) + 1 := by omega
      conv_lhs => rw [this]
      rw [pow_succ]
      ring
    rw [hpow, Int.emod_eq_of_lt (by omega) (by omega)]
    omega

/-! ### The accumulators -/

theorem accumulate_positive_eq (T : IntType) (hT : T.isSigned = true → 1 ≤ T.bits)
    (value digit : Int) (hv : 0 ≤ value) (hd0 : 0 ≤ digit) (hd9 : digit ≤ 9) :
    accumulate_positive T value digit =
      if value * 10 + digit ≤ T.max then (true, value * 10 + digit) else (false, value) := by
  have hM := T.max_nonneg
  have hm := T.min_nonpos
  unfold accumulate_positive
  rw [Int.tdiv_eq_ediv hM (by omega), Int.tmod_eq_emod hM (by omega)]
  by_cases h : value * 10 + digit ≤ T.max
  · have hg : ¬ (value > T.max / 10 ∨ (value = T.max / 10 ∧ digit > T.max % 10)) := by omega
    rw [if_pos h]
    simp only [hg, if_false]
    rw [T.wrap_of_range hT (value * 10) (by omega) (by omega),
      T.wrap_of_range hT (value * 10 + digit) (by omega) h]
  · have hg : value > T.max / 10 ∨ (value = T.max / 10 ∧ digit > T.max % 10) := by omega
    rw [if_neg h]
    simp only [hg, if_true]

theorem accumulate_negative_eq (T : IntType) (hT : T.isSigned = true → 1 ≤ T.bits)
    (value digit : Int) (hv : value ≤ 0) (hd0 : 0 ≤ digit) (hd9 : digit ≤ 9) :
    accumulate_negative T value digit =
      if T.min ≤ value * 10 - digit then (true, value * 10 - digit) else (false, value) := by
  have hM := T.max_nonneg
  have hm := T.min_nonpos
  unfold accumulate_negative
  obtain ⟨k, hk⟩ : ∃ k : Int, T.min = -k := ⟨-T.min, by omega⟩
  have hk0 : 0 ≤ k := by omega
  have hdiv : Int.tdiv T.min 10 = -(k / 10) := by
    rw [hk, Int.neg_tdiv, Int.tdiv_eq_ediv hk0 (by omega)]
  have hmod : Int.tmod T.min 10 = -(k % 10) := by
    rw [Int.tmod_def, hdiv, hk]
    omega
  rw [hdiv, hmod]
  have hld : (if -(k % 10) < 0 then - -(k % 10) else -(k % 10)) = k % 10 := by
    split <;> omega
  simp only [hld]
  by_cases h : T.min ≤ value * 10 - digit
  · have hg : ¬ (value < -(k / 10) ∨ (value = -(k / 10) ∧ digit > k % 10)) := by omega
    rw [if_pos h]
    simp only [hg, if_false]
    rw [T.wrap_of_range hT (value * 10) (by omega) (by omega),
      T.wrap_of_range hT (value * 10 - digit) h (by omega)]
  · have hg : value < -(k / 10) ∨ (value = -(k / 10) ∧ digit > k % 10) := by omega
    rw [if_neg h]
    simp only [hg, if_true]

/-! ### The loop of `parse_integral` -/

theorem parse_integral_loop_nil (acc : Int → Int → Bool × Int) (num : Int) :
    parse_integral_loop acc num [] = (true, num) := rfl

theorem parse_integral_loop_cons (acc : Int → Int → Bool × Int) (num : Int) (c : Char)
    (cs : List Char) :
    parse_integral_loop acc num (c :: cs) =
      if c < '0' ∨ c > '9' then (false, num)
      else
        if !(acc num ((c.toNat - '0'.toNat : Nat) : Int)).1 then
          (false, (acc num ((c.toNat - '0'.toNat : Nat) : Int)).2)
        else parse_integral_loop acc (acc num ((c.toNat - '0'.toNat : Nat) : Int)).2 cs := rfl

theorem loop_positive (T : IntType) (hT : T.isSigned = true → 1 ≤ T.bits) (s : List Char) :
    ∀ n : Nat, (n : Int) ≤ T.max →
      ((parse_integral_loop (accumulate_positive T) (n : Int) s).1 = true ↔
        (∀ c ∈ s, isDigit c = true) ∧ (decimalValueFrom n s : Int) ≤ T.max) ∧
      ((parse_integral_loop (accumulate_positive T) (n : Int) s).1 = true →
        (parse_integral_loop (accumulate_positive T) (n : Int) s).2 =
          (decimalValueFrom n s : Int)) := by
  induction s with
  | nil =>
    intro n hn
    rw [parse_integral_loop_nil]
    exact ⟨⟨fun _ => ⟨fun c hc => absurd hc (List.not_mem_nil c), hn⟩, fun _ => rfl⟩,
      fun _ => rfl⟩
  | cons c cs ih =>
    intro n hn
    rw [parse_integral_loop_cons, decimalValueFrom_cons]
    by_cases hc : c < '0' ∨ c > '9'
    · have hnd := (not_isDigit_iff c).mp hc
      rw [if_pos hc]
      constructor
      · constructor
        · intro h
          exact absurd h (by simp)
        · intro h
          have := h.1 c (List.mem_cons_self c cs)
          rw [hnd] at this
          exact absurd this (by simp)
      · intro h
        exact absurd h (by simp)
    · have hd : isDigit c = true := by
        cases hdc : isDigit c
        · exact absurd ((not_isDigit_iff c).mpr hdc) hc
        · rfl
      have hdv := digitValue_of_isDigit c hd
      rw [if_neg hc]
      have hcast : ((c.toNat - '0'.toNat : Nat) : Int) = (digitValue c : Int) := rfl
      rw [hcast, accumulate_positive_eq T hT n (digitValue c) (by omega) (by omega) (by omega)]
      have hnext : (n : Int) * 10 + (digitValue c : Int) = ((n * 10 + digitValue c : Nat) : Int) := by
        push_cast
        ring
      by_cases hle : (n : Int) * 10 + (digitValue c : Int) ≤ T.max
      · simp only [hle, if_true, Bool.not_true, Bool.false_eq_true, if_false]
        rw [hnext]
        have ih2 := ih (n * 10 + digitValue c) (by rw [← hnext]; exact hle)
        constructor
        · rw [ih2.1]
          constructor
          · intro h
            refine ⟨?_, h.2⟩
            intro d hdm
            rcases List.mem_cons.mp hdm with rfl | hdm
            · exact hd
            · exact h.1 d hdm
          · intro h
            exact ⟨fun d hdm => h.1 d (List.mem_cons_of_mem c hdm), h.2⟩
        · exact ih2.2
      · simp only [hle, if_false, Bool.not_false, if_true]
        constructor
        · constructor
          · intro h
            exact absurd h (by simp)
          · intro h
            have h1 := le_decimalValueFrom cs (n * 10 + digitValue c)
            have h2 : ((n * 10 + digitValue c : Nat) : Int) ≤
                (decimalValueFrom (n * 10 + digitValue c) cs : Int) := by
              exact_mod_cast h1
            rw [← hnext] at h2
            exact absurd (le_trans h2 h.2) hle
        · intro h
          exact absurd h (by simp)

theorem loop_negative (T : IntType) (hT : T.isSigned = true → 1 ≤ T.bits) (s : List Char) :
    ∀ n : Nat, T.min ≤ -(n : Int) →
      ((parse_integral_loop (accumulate_negative T) (-(n : Int)) s).1 = true ↔
        (∀ c ∈ s, isDigit c = true) ∧ T.min ≤ -(decimalValueFrom n s : Int)) ∧
      ((parse_integral_loop (accumulate_negative T) (-(n : Int)) s).1 = true →
        (parse_integral_loop (accumulate_negative T) (-(n : Int)) s).2 =
          -(decimalValueFrom n s : Int)) := by
  induction s with
  | nil =>
    intro n hn
    rw [parse_integral_loop_nil]
    exact ⟨⟨fun _ => ⟨fun c hc => absurd hc (List.not_mem_nil c), hn⟩, fun _ => rfl⟩,
      fun _ => rfl⟩
  | cons c cs ih =>
    intro n hn
    rw [parse_integral_loop_cons, decimalValueFrom_cons]
    by_cases hc : c < '0' ∨ c > '9'
    · have hnd := (not_isDigit_iff c).mp hc
      rw [if_pos hc]
      constructor
      · constructor
        · intro h
          exact absurd h (by simp)
        · intro h
          have := h.1 c (List.mem_cons_self c cs)
          rw [hnd] at this
          exact absurd this (by simp)
      · intro h
        exact absurd h (by simp)
    · have hd : isDigit c = true := by
        cases hdc : isDigit c
        · exact absurd ((not_isDigit_iff c).mpr hdc) hc
        · rfl
      have hdv := digitValue_of_isDigit c hd
      rw [if_neg hc]
      have hcast : ((c.toNat - '0'.toNat : Nat) : Int) = (digitValue c : Int) := rfl
      rw [hcast, accumulate_negative_eq T hT (-(n : Int)) (digitValue c) (by omega) (by omega)
        (by omega)]
      have hnext : -(n : Int) * 10 - (digitValue c : Int) =
          -((n * 10 + digitValue c : Nat) : Int) := by
        push_cast
        ring
      by_cases hle : T.min ≤ -(n : Int) * 10 - (digitValue c : Int)
      · simp only [hle, if_true, Bool.not_true, Bool.false_eq_true, if_false]
        rw [hnext]
        have ih2 := ih (n * 10 + digitValue c) (by rw [← hnext]; exact hle)
        constructor
        · rw [ih2.1]
          constructor
          · intro h
            refine ⟨?_, h.2⟩
            intro d hdm
            rcases List.mem_cons.mp hdm with rfl | hdm
            · exact hd
            · exact h.1 d hdm
          · intro h
            exact ⟨fun d hdm => h.1 d (List.mem_cons_of_mem c hdm), h.2⟩
        · exact ih2.2
      · simp only [hle, if_false, Bool.not_false, if_true]
        constructor
        · constructor
          · intro h
            exact absurd h (by simp)
          · intro h
            have h1 := le_decimalValueFrom cs (n * 10 + digitValue c)
            have h2 : ((n * 10 + digitValue c : Nat) : Int) ≤
                (decimalValueFrom (n * 10 + digitValue c) cs : Int) := by
              exact_mod_cast h1
            rw [hnext] at hle
            exact absurd (by omega) hle
        · intro h
          exact absurd h (by simp)

/-! ### `parse_positive_integral` and `parse_negative_integral` -/

theorem parse_positive_integral_spec (T : IntType) (hT : T.isSigned = true → 1 ≤ T.bits)
    (s : List Char) :
    ((parse_positive_integral T s).1 = true ↔
      s ≠ [] ∧ (∀ c ∈ s, isDigit c = true) ∧ (decimalValue s : Int) ≤ T.max) ∧
    ((parse_positive_integral T s).1 = true →
      (parse_positive_integral T s).2 = (decimalValue s : Int)) := by
  unfold parse_positive_integral parse_integral decimalValue
  by_cases hs : s = []
  · simp [hs]
  · rw [if_neg hs]
    have h := loop_positive T hT s 0 (by simpa using T.max_nonneg)
    simp only [Nat.cast_zero] at h
    exact ⟨by rw [h.1]; simp [hs], h.2⟩

theorem parse_negative_integral_spec (T : IntType) (hT : T.isSigned = true → 1 ≤ T.bits)
    (s : List Char) :
    ((parse_negative_integral T s).1 = true ↔
      s ≠ [] ∧ (∀ c ∈ s, isDigit c = true) ∧ T.min ≤ -(decimalValue s : Int)) ∧
    ((parse_negative_integral T s).1 = true →
      (parse_negative_integral T s).2 = -(decimalValue s : Int)) := by
  unfold parse_negative_integral parse_integral decimalValue
  by_cases hs : s = []
  · simp [hs]
  · rw [if_neg hs]
    have h := loop_negative T hT s 0 (by simpa using T.min_nonpos)
    simp only [Nat.cast_zero, neg_zero] at h
    exact ⟨by rw [h.1]; simp [hs], h.2⟩

/-! ### `parseUnsigned` and `parseSigned` -/

theorem parseUnsigned_plus (T : IntType) (rest : List Char) :
    parseUnsigned T ('+' :: rest) = parse_positive_integral T rest := rfl

theorem parseUnsigned_of_ne (T : IntType) (s : List Char) (h : ∀ rest, s ≠ '+' :: rest) :
    parseUnsigned T s = parse_positive_integral T s := by
  unfold parseUnsigned
  split
  · next rest => exact absurd rfl (h rest)
  · rfl

theorem parseSigned_minus (T : IntType) (rest : List Char) :
    parseSigned T ('-' :: rest) = parse_negative_integral T rest := rfl

theorem parseSigned_plus (T : IntType) (rest : List Char) :
    parseSigned T ('+' :: rest) = parse_positive_integral T rest := rfl

theorem parseSigned_of_ne (T : IntType) (s : List Char) (hm : ∀ rest, s ≠ '-' :: rest)
    (hp : ∀ rest, s ≠ '+' :: rest) : parseSigned T s = parse_positive_integral T s := by
  unfold parseSigned
  split
  · next rest => exact absurd rfl (hm rest)
  · next rest => exact absurd rfl (hp rest)
  · rfl

theorem digits_ne_sign (body : List Char) (hd : ∀ c ∈ body, isDigit c = true) :
    (∀ rest, body ≠ '+' :: rest) ∧ (∀ rest, body ≠ '-' :: rest) := by
  constructor
  · intro rest h
    have := hd '+' (by rw [h]; exact List.mem_cons_self _ _)
    exact absurd this (by decide)
  · intro rest h
    have := hd '-' (by rw [h]; exact List.mem_cons_self _ _)
    exact absurd this (by decide)

theorem parse_positive_integral_of_digits (T : IntType)
    (hT : T.isSigned = true → 1 ≤ T.bits) (body : List Char) (hne : body ≠ [])
    (hd : ∀ c ∈ body, isDigit c = true) :
    ((parse_positive_integral T body).1 = true ↔ (decimalValue body : Int) ≤ T.max) ∧
    ((decimalValue body : Int) ≤ T.max →
      parse_positive_integral T body = (true, (decimalValue body : Int))) := by
  have h := parse_positive_integral_spec T hT body
  refine ⟨by rw [h.1]; exact ⟨fun x => x.2.2, fun x => ⟨hne, hd, x⟩⟩, fun hle => ?_⟩
  have h1 := h.1.mpr ⟨hne, hd, hle⟩
  exact Prod.ext h1 (h.2 h1)

theorem parse_negative_integral_of_digits (T : IntType)
    (hT : T.isSigned = true → 1 ≤ T.bits) (body : List Char) (hne : body ≠ [])
    (hd : ∀ c ∈ body, isDigit c = true) :
    ((parse_negative_integral T body).1 = true ↔ T.min ≤ -(decimalValue body : Int)) ∧
    (T.min ≤ -(decimalValue body : Int) →
      parse_negative_integral T body = (true, -(decimalValue body : Int))) := by
  have h := parse_negative_integral_spec T hT body
  refine ⟨by rw [h.1]; exact ⟨fun x => x.2.2, fun x => ⟨hne, hd, x⟩⟩, fun hle => ?_⟩
  have h1 := h.1.mpr ⟨hne, hd, hle⟩
  exact Prod.ext h1 (h.2 h1)

theorem parseUnsigned_iff (T : IntType) (hT : T.isSigned = true → 1 ≤ T.bits)
    (s : List Char) :
    (parseUnsigned T s).1 = true ↔
      ∃ body, (s = body ∨ s = '+' :: body) ∧ body ≠ [] ∧
        (∀ c ∈ body, isDigit c = true) ∧ (decimalValue body : Int) ≤ T.max := by
  constructor
  · intro h
    by_cases hp : ∃ rest, s = '+' :: rest
    · obtain ⟨rest, rfl⟩ := hp
      rw [parseUnsigned_plus] at h
      exact ⟨rest, Or.inr rfl, (parse_positive_integral_spec T hT rest).1.mp h⟩
    · have hne : ∀ rest, s ≠ '+' :: rest := fun rest hr => hp ⟨rest, hr⟩
      rw [parseUnsigned_of_ne T s hne] at h
      exact ⟨s, Or.inl rfl, (parse_positive_integral_spec T hT s).1.mp h⟩
  · rintro ⟨body, hs, hne, hd, hle⟩
    rcases hs with rfl | rfl
    · rw [parseUnsigned_of_ne T s (digits_ne_sign s hd).1]
      exact (parse_positive_integral_spec T hT s).1.mpr ⟨hne, hd, hle⟩
    · rw [parseUnsigned_plus]
      exact (parse_positive_integral_spec T hT body).1.mpr ⟨hne, hd, hle⟩

theorem parseSigned_iff (T : IntType) (hT : T.isSigned = true → 1 ≤ T.bits)
    (s : List Char) :
    (parseSigned T s).1 = true ↔
      ∃ body, body ≠ [] ∧ (∀ c ∈ body, isDigit c = true) ∧
        (((s = body ∨ s = '+' :: body) ∧ (decimalValue body : Int) ≤ T.max) ∨
          (s = '-' :: body ∧ T.min ≤ -(decimalValue body : Int))) := by
  constructor
  · intro h
    by_cases hm : ∃ rest, s = '-' :: rest
    · obtain ⟨rest, rfl⟩ := hm
      rw [parseSigned_minus] at h
      have h1 := (parse_negative_integral_spec T hT rest).1.mp h
      exact ⟨rest, h1.1, h1.2.1, Or.inr ⟨rfl, h1.2.2⟩⟩
    · by_cases hp : ∃ rest, s = '+' :: rest
      · obtain ⟨rest, rfl⟩ := hp
        rw [parseSigned_plus] at h
        have h1 := (parse_positive_integral_spec T hT rest).1.mp h
        exact ⟨rest, h1.1, h1.2.1, Or.inl ⟨Or.inr rfl, h1.2.2⟩⟩
      · rw [parseSigned_of_ne T s (fun rest hr => hm ⟨rest, hr⟩)
          (fun rest hr => hp ⟨rest, hr⟩)] at h
        have h1 := (parse_positive_integral_spec T hT s).1.mp h
        exact ⟨s, h1.1, h1.2.1, Or.inl ⟨Or.inl rfl, h1.2.2⟩⟩
  · rintro ⟨body, hne, hd, (⟨hs, hle⟩ | ⟨hs, hle⟩)⟩
    · rcases hs with rfl | rfl
      · rw [parseSigned_of_ne T s (digits_ne_sign s hd).2 (digits_ne_sign s hd).1]
        exact (parse_positive_integral_spec T hT s).1.mpr ⟨hne, hd, hle⟩
      · rw [parseSigned_plus]
        exact (parse_positive_integral_spec T hT body).1.mpr ⟨hne, hd, hle⟩
    · subst hs
      rw [parseSigned_minus]
      exact (parse_negative_integral_spec T hT body).1.mpr ⟨hne, hd, hle⟩

/-! ### `std::to_string` -/

theorem digitChar_spec (d : Nat) (hd : d < 10) :
    isDigit (Char.ofNat ('0'.toNat + d)) = true ∧
    digitValue (Char.ofNat ('0'.toNat + d)) = d := by
  interval_cases d <;> exact ⟨rfl, rfl⟩

theorem decimalValueFrom_append (a : Nat) (l₁ l₂ : List Char) :
    decimalValueFrom a (l₁ ++ l₂) = decimalValueFrom (decimalValueFrom a l₁) l₂ :=
  List.foldl_append _ _ _ _

theorem decimalDigits_spec (fuel : Nat) :
    ∀ (n : Nat) (acc : List Char), n < fuel →
      ∃ ds, decimalDigits fuel n acc = ds ++ acc ∧ ds ≠ [] ∧
        (∀ c ∈ ds, isDigit c = true) ∧
        ∀ a, decimalValueFrom a ds = a * 10 ^ ds.length + n := by
  induction fuel with
  | zero => intro n acc h; exact absurd h (Nat.not_lt_zero n)
  | succ fuel ih =>
    intro n acc hn
    have hdc := digitChar_spec (n % 10) (Nat.mod_lt n (by decide))
    unfold decimalDigits
    by_cases h0 : n / 10 = 0
    · simp only [h0, if_true]
      refine ⟨[Char.ofNat ('0'.toNat + n % 10)], rfl, by simp, ?_, ?_⟩
      · intro c hc
        rw [List.mem_singleton.mp hc]
        exact hdc.1
      · intro a
        rw [decimalValueFrom_cons, hdc.2]
        simp only [List.length_singleton, pow_one]
        show a * 10 + n % 10 = a * 10 + n
        omega
    · simp only [h0, if_false]
      obtain ⟨ds, h1, _, h3, h4⟩ := ih (n / 10)
        (Char.ofNat ('0'.toNat + n % 10) :: acc) (by omega)
      refine ⟨ds ++ [Char.ofNat ('0'.toNat + n % 10)], ?_, by simp, ?_, ?_⟩
      · rw [h1]
        simp
      · intro c hc
        rcases List.mem_append.mp hc with hc | hc
        · exact h3 c hc
        · rw [List.mem_singleton.mp hc]
          exact hdc.1
      · intro a
        rw [decimalValueFrom_append, h4 a, decimalValueFrom_cons, hdc.2]
        show (a * 10 ^ ds.length + n / 10) * 10 + n % 10 = _
        rw [List.length_append, List.length_singleton, pow_succ]
        have := Nat.div_add_mod n 10
        nlinarith

theorem to_string_natCast (n : Nat) :
    to_string (n : Int) ≠ [] ∧ (∀ c ∈ to_string (n : Int), isDigit c = true) ∧
    decimalValue (to_string (n : Int)) = n := by
  unfold to_string
  rw [if_neg (by omega)]
  obtain ⟨ds, h1, h2, h3, h4⟩ := decimalDigits_spec ((n : Int).toNat + 1) (n : Int).toNat []
    (Nat.lt_succ_self _)
  rw [h1, List.append_nil]
  refine ⟨h2, h3, ?_⟩
  unfold decimalValue
  rw [h4 0]
  simp

theorem to_string_neg (n : Int) (hn : n < 0) :
    ∃ ds, to_string n = '-' :: ds ∧ ds ≠ [] ∧ (∀ c ∈ ds, isDigit c = true) ∧
      (decimalValue ds : Int) = -n := by
  unfold to_string
  rw [if_pos hn]
  obtain ⟨ds, h1, h2, h3, h4⟩ := decimalDigits_spec (n.natAbs + 1) n.natAbs []
    (Nat.lt_succ_self _)
  rw [h1, List.append_nil]
  refine ⟨ds, rfl, h2, h3, ?_⟩
  unfold decimalValue
  rw [h4 0]
  simp only [Nat.zero_mul, Nat.zero_add]
  omega

/-! ### The claims on the lexical cast -/

theorem unsigned_max_iff (w v : Nat) :
    (v : Int) ≤ (IntType.unsigned w).max ↔ v ≤ 2 ^ w - 1 := by
  have h1 : 1 ≤ 2 ^ w := Nat.one_le_two_pow
  have hc : ((2 ^ w : Nat) : Int) = (2 : Int) ^ w := by push_cast; rfl
  unfold IntType.max IntType.unsigned
  simp only [Bool.false_eq_true, if_false]
  rw [← hc]
  omega

theorem unsigned_ok (w : Nat) : (IntType.unsigned w).isSigned = true → 1 ≤ (IntType.unsigned w).bits :=
  fun h => absurd h (by simp [IntType.unsigned])

theorem signed_ok (w : Nat) (hw : 1 ≤ w) :
    (IntType.signed w).isSigned = true → 1 ≤ (IntType.signed w).bits :=
  fun _ => hw

theorem signed_max (w : Nat) : (IntType.signed w).max = 2 ^ (w - 1) - 1 := rfl

theorem signed_min (w : Nat) : (IntType.signed w).min = -(2 ^ (w - 1)) := rfl

/-- C19: for every unsigned integral type of width `w` and every string `s`,
`lexicalCastChecked` returns true if and only if `s` is an optional single
leading `+` followed by one or more ASCII digits whose decimal value is at most
`2^w - 1`, and then the output is that value. In particular, on a non-empty
digit string the guard rejects exactly the values above the maximum; the empty
string, `+` alone and strings with a non-digit after the optional sign are
rejected; and an accumulation step that passes the guard computes
`value * 10 + digit` within the range of the type, without wrap-around. -/
theorem lexicalCastChecked_unsigned_iff (w : Nat) (s : List Char) :
    ((lexicalCastChecked (IntType.unsigned w) s).1 = true ↔
      ∃ body, (s = body ∨ s = '+' :: body) ∧ body ≠ [] ∧
        (∀ c ∈ body, isDigit c = true) ∧ decimalValue body ≤ 2 ^ w - 1) ∧
    (∀ body, (s = body ∨ s = '+' :: body) → body ≠ [] →
      (∀ c ∈ body, isDigit c = true) → decimalValue body ≤ 2 ^ w - 1 →
      lexicalCastChecked (IntType.unsigned w) s = (true, (decimalValue body : Int))) ∧
    (∀ body, body ≠ [] → (∀ c ∈ body, isDigit c = true) →
      ((lexicalCastChecked (IntType.unsigned w) body).1 = true ↔
        decimalValue body ≤ 2 ^ w - 1)) ∧
    (lexicalCastChecked (IntType.unsigned w) []).1 = false ∧
    (lexicalCastChecked (IntType.unsigned w) ['+']).1 = false ∧
    (∀ body, (∃ c ∈ body, isDigit c = false) →
      (lexicalCastChecked (IntType.unsigned w) ('+' :: body)).1 = false ∧
      ((∀ rest, body ≠ '+' :: rest) →
        (lexicalCastChecked (IntType.unsigned w) body).1 = false)) ∧
    (∀ value digit : Int, 0 ≤ value → value ≤ 2 ^ w - 1 → 0 ≤ digit → digit ≤ 9 →
      (detail.accumulate_positive (IntType.unsigned w) value digit).1 = true →
      value * 10 + digit ≤ 2 ^ w - 1 ∧
      (detail.accumulate_positive (IntType.unsigned w) value digit).2 =
        value * 10 + digit) := by
  have hT := unsigned_ok w
  have hcc : ∀ t, lexicalCastChecked (IntType.unsigned w) t =
      parseUnsigned (IntType.unsigned w) t := fun t => rfl
  have hiff : ∀ t, (lexicalCastChecked (IntType.unsigned w) t).1 = true ↔
      ∃ body, (t = body ∨ t = '+' :: body) ∧ body ≠ [] ∧
        (∀ c ∈ body, isDigit c = true) ∧ decimalValue body ≤ 2 ^ w - 1 := by
    intro t
    rw [hcc, parseUnsigned_iff _ hT]
    simp only [unsigned_max_iff]
  have hfalse : ∀ t, ¬ (lexicalCastChecked (IntType.unsigned w) t).1 = true →
      (lexicalCastChecked (IntType.unsigned w) t).1 = false := by
    intro t h
    exact Bool.eq_false_iff.mpr h
  refine ⟨hiff s, ?_, ?_, ?_, ?_, ?_, ?_⟩
  · intro body hs hne hd hle
    have hle2 := (unsigned_max_iff w _).mpr hle
    rw [hcc]
    rcases hs with rfl | rfl
    · rw [parseUnsigned_of_ne _ s (digits_ne_sign s hd).1]
      exact (parse_positive_integral_of_digits _ hT s hne hd).2 hle2
    · rw [parseUnsigned_plus]
      exact (parse_positive_integral_of_digits _ hT body hne hd).2 hle2
  · intro body hne hd
    rw [hcc, parseUnsigned_of_ne _ body (digits_ne_sign body hd).1,
      (parse_positive_integral_of_digits _ hT body hne hd).1, unsigned_max_iff]
  · apply hfalse
    rw [hiff]
    rintro ⟨body, hs, hne, -, -⟩
    rcases hs with h | h
    · exact hne h.symm
    · exact absurd h (by simp)
  · apply hfalse
    rw [hiff]
    rintro ⟨body, hs, hne, hd, -⟩
    rcases hs with h | h
    · have := hd '+' (by rw [← h]; exact List.mem_cons_self _ _)
      exact absurd this (by decide)
    · have hb : body = [] := by
        have := List.cons.inj h
        exact this.2.symm
      exact hne hb
  · rintro body ⟨c, hc, hcd⟩
    constructor
    · apply hfalse
      rw [hiff]
      rintro ⟨b, hs, -, hd, -⟩
      rcases hs with h | h
      · have := hd '+' (by rw [← h]; exact List.mem_cons_self _ _)
        exact absurd this (by decide)
      · have hb : body = b := (List.cons.inj h).2
        subst hb
        rw [hd c hc] at hcd
        exact absurd hcd (by simp)
    · intro hnp
      apply hfalse
      rw [hiff]
      rintro ⟨b, hs, -, hd, -⟩
      rcases hs with h | h
      · subst h
        rw [hd c hc] at hcd
        exact absurd hcd (by simp)
      · exact hnp b h
  · intro value digit hv hvm hd0 hd9 hok
    have hmax : (IntType.unsigned w).max = 2 ^ w - 1 := rfl
    rw [accumulate_positive_eq _ hT value digit hv hd0 hd9, hmax] at hok ⊢
    by_cases hle : value * 10 + digit ≤ 2 ^ w - 1
    · rw [if_pos hle]
      exact ⟨hle, rfl⟩
    · rw [if_neg hle] at hok
      exact absurd hok (by simp)

/-- Witness for C19: `+42` parses to 42 as a 32-bit unsigned integer, and
`4294967296` is rejected. -/
theorem lexicalCastChecked_unsigned_iff_witness :
    lexicalCastChecked (IntType.unsigned 32) "+42".toList = (true, 42) ∧
    (lexicalCastChecked (IntType.unsigned 32) "4294967296".toList).1 = false :=
  have h := lexicalCastChecked_unsigned_iff 32 "+42".toList
  ⟨h.2.1 "42".toList (Or.inr rfl) (by decide) (by decide) (by decide), by decide⟩

/-- C20: for every signed integral type of width `w` and every string `s`,
`parseSigned` returns true if and only if `s` is an optional single leading `+`
or `-` followed by one or more ASCII digits whose signed decimal value `v` lies
in `[-2^(w-1), 2^(w-1) - 1]`, and then the output is `v`. In particular, on a
non-empty digit string the magnitude is accepted up to `2^(w-1) - 1` without a
minus sign and up to `2^(w-1)` with it, so the minimum value parses and a
magnitude one past either limit is rejected, and `-0` parses to 0. An
accumulation step that passes its guard computes `value * 10` and
`value * 10 + digit` (or `value * 10 - digit`) within the range of the type. -/
theorem parseSigned_iff_in_range (w : Nat) (hw : 1 ≤ w) (s : List Char) :
    ((detail.parseSigned (IntType.signed w) s).1 = true ↔
      ∃ (body : List Char) (v : Int), body ≠ [] ∧ (∀ c ∈ body, isDigit c = true) ∧
        (((s = body ∨ s = '+' :: body) ∧ v = (decimalValue body : Int)) ∨
          (s = '-' :: body ∧ v = -(decimalValue body : Int))) ∧
        -(2 ^ (w - 1)) ≤ v ∧ v ≤ 2 ^ (w - 1) - 1) ∧
    (∀ (body : List Char) (v : Int), body ≠ [] → (∀ c ∈ body, isDigit c = true) →
      (((s = body ∨ s = '+' :: body) ∧ v = (decimalValue body : Int)) ∨
        (s = '-' :: body ∧ v = -(decimalValue body : Int))) →
      -(2 ^ (w - 1)) ≤ v → v ≤ 2 ^ (w - 1) - 1 →
      detail.parseSigned (IntType.signed w) s = (true, v)) ∧
    (∀ body, body ≠ [] → (∀ c ∈ body, isDigit c = true) →
      ((detail.parseSigned (IntType.signed w) body).1 = true ↔
        (decimalValue body : Int) ≤ 2 ^ (w - 1) - 1) ∧
      ((detail.parseSigned (IntType.signed w) ('+' :: body)).1 = true ↔
        (decimalValue body : Int) ≤ 2 ^ (w - 1) - 1) ∧
      ((detail.parseSigned (IntType.signed w) ('-' :: body)).1 = true ↔
        (decimalValue body : Int) ≤ 2 ^ (w - 1))) ∧
    detail.parseSigned (IntType.signed w) ['-', '0'] = (true, 0) ∧
    detail.parseSigned (IntType.signed w) (detail.to_string (-(2 ^ (w - 1)))) =
      (true, -(2 ^ (w - 1))) ∧
    (∀ value digit : Int, 0 ≤ digit → digit ≤ 9 →
      (0 ≤ value → value ≤ 2 ^ (w - 1) - 1 →
        (detail.accumulate_positive (IntType.signed w) value digit).1 = true →
        value * 10 ≤ 2 ^ (w - 1) - 1 ∧ value * 10 + digit ≤ 2 ^ (w - 1) - 1 ∧
        (detail.accumulate_positive (IntType.signed w) value digit).2 =
          value * 10 + digit) ∧
      (value ≤ 0 → -(2 ^ (w - 1)) ≤ value →
        (detail.accumulate_negative (IntType.signed w) value digit).1 = true →
        -(2 ^ (w - 1)) ≤ value * 10 ∧ -(2 ^ (w - 1)) ≤ value * 10 - digit ∧
        (detail.accumulate_negative (IntType.signed w) value digit).2 =
          value * 10 - digit)) := by
  have hT := signed_ok w hw
  have hpos : (0 : Int) < 2 ^ (w - 1) := by positivity
  have hout : ∀ (t body : List Char) (v : Int), body ≠ [] →
      (∀ c ∈ body, isDigit c = true) →
      (((t = body ∨ t = '+' :: body) ∧ v = (decimalValue body : Int)) ∨
        (t = '-' :: body ∧ v = -(decimalValue body : Int))) →
      -(2 ^ (w - 1)) ≤ v → v ≤ 2 ^ (w - 1) - 1 →
      parseSigned (IntType.signed w) t = (true, v) := by
    intro t body v hne hd hs hmin hmax
    rcases hs with ⟨hs, rfl⟩ | ⟨rfl, rfl⟩
    · rcases hs with rfl | rfl
      · rw [parseSigned_of_ne _ t (digits_ne_sign t hd).2 (digits_ne_sign t hd).1]
        exact (parse_positive_integral_of_digits _ hT t hne hd).2 (by rw [signed_max]; exact hmax)
      · rw [parseSigned_plus]
        exact (parse_positive_integral_of_digits _ hT body hne hd).2
          (by rw [signed_max]; exact hmax)
    · rw [parseSigned_minus]
      exact (parse_negative_integral_of_digits _ hT body hne hd).2
        (by rw [signed_min]; exact hmin)
  refine ⟨?_, hout s, ?_, ?_, ?_, ?_⟩
  · rw [parseSigned_iff _ hT, signed_max, signed_min]
    constructor
    · rintro ⟨body, hne, hd, (⟨hs, hle⟩ | ⟨hs, hle⟩)⟩
      · exact ⟨body, (decimalValue body : Int), hne, hd, Or.inl ⟨hs, rfl⟩, by omega, hle⟩
      · exact ⟨body, -(decimalValue body : Int), hne, hd, Or.inr ⟨hs, rfl⟩, hle, by omega⟩
    · rintro ⟨body, v, hne, hd, (⟨hs, rfl⟩ | ⟨hs, rfl⟩), hmin, hmax⟩
      · exact ⟨body, hne, hd, Or.inl ⟨hs, hmax⟩⟩
      · exact ⟨body, hne, hd, Or.inr ⟨hs, hmin⟩⟩
  · intro body hne hd
    refine ⟨?_, ?_, ?_⟩
    · rw [parseSigned_of_ne _ body (digits_ne_sign body hd).2 (digits_ne_sign body hd).1,
        (parse_positive_integral_of_digits _ hT body hne hd).1, signed_max]
    · rw [parseSigned_plus, (parse_positive_integral_of_digits _ hT body hne hd).1,
        signed_max]
    · rw [parseSigned_minus, (parse_negative_integral_of_digits _ hT body hne hd).1,
        signed_min]
      omega
  · exact hout ['-', '0'] ['0'] 0 (by simp) (by simp; decide)
      (Or.inr ⟨rfl, by decide⟩) (by omega) (by omega)
  · obtain ⟨ds, h1, h2, h3, h4⟩ := to_string_neg (-(2 ^ (w - 1))) (by omega)
    rw [h1]
    exact hout _ ds _ h2 h3 (Or.inr ⟨rfl, by omega⟩) (by omega) (by omega)
  · intro value digit hd0 hd9
    constructor
    · intro hv hvm hok
      rw [accumulate_positive_eq _ hT value digit hv hd0 hd9, signed_max] at hok ⊢
      by_cases hle : value * 10 + digit ≤ 2 ^ (w - 1) - 1
      · rw [if_pos hle]
        exact ⟨by omega, hle, rfl⟩
      · rw [if_neg hle] at hok
        exact absurd hok (by simp)
    · intro hv hvm hok
      rw [accumulate_negative_eq _ hT value digit hv hd0 hd9, signed_min] at hok ⊢
      by_cases hle : -(2 ^ (w - 1)) ≤ value * 10 - digit
      · rw [if_pos hle]
        exact ⟨by omega, hle, rfl⟩
      · rw [if_neg hle] at hok
        exact absurd hok (by simp)

/-- Witness for C20: as an 8-bit signed integer `-128` parses to -128 and `128`
is rejected. -/
theorem parseSigned_iff_in_range_witness :
    detail.parseSigned (IntType.signed 8) "-128".toList = (true, -128) ∧
    (detail.parseSigned (IntType.signed 8) "128".toList).1 = false :=
  have h := parseSigned_iff_in_range 8 (by decide) "-128".toList
  ⟨h.2.1 "128".toList (-128) (by decide) (by decide) (Or.inr ⟨rfl, by decide⟩)
    (by decide) (by decide), by decide⟩

/-- C15: for every value `n` of an integral type, unsigned or signed, its
minimum and maximum included, the cast of `n` to a string succeeds, and
`lexicalCastChecked` of that string to the same type succeeds and yields
`n`. -/
theorem lexicalCast_round_trip (w : Nat) :
    (∀ n : Nat, n ≤ 2 ^ w - 1 →
      (detail.LexicalCast_to_string (n : Int)).1 = true ∧
      lexicalCastChecked (IntType.unsigned w) (detail.LexicalCast_to_string (n : Int)).2 =
        (true, (n : Int))) ∧
    (1 ≤ w → ∀ n : Int, -(2 ^ (w - 1)) ≤ n → n ≤ 2 ^ (w - 1) - 1 →
      (detail.LexicalCast_to_string n).1 = true ∧
      lexicalCastChecked (IntType.signed w) (detail.LexicalCast_to_string n).2 =
        (true, n)) := by
  constructor
  · intro n hn
    refine ⟨rfl, ?_⟩
    have hT := unsigned_ok w
    obtain ⟨h1, h2, h3⟩ := to_string_natCast n
    show parseUnsigned (IntType.unsigned w) (to_string (n : Int)) = (true, (n : Int))
    rw [parseUnsigned_of_ne _ _ (digits_ne_sign _ h2).1]
    have := (parse_positive_integral_of_digits _ hT _ h1 h2).2
      ((unsigned_max_iff w _).mpr (by rw [h3]; exact hn))
    rw [this, h3]
  · intro hw n hmin hmax
    refine ⟨rfl, ?_⟩
    have hT := signed_ok w hw
    show parseSigned (IntType.signed w) (to_string n) = (true, n)
    by_cases hneg : n < 0
    · obtain ⟨ds, h1, h2, h3, h4⟩ := to_string_neg n hneg
      rw [h1, parseSigned_minus]
      have := (parse_negative_integral_of_digits _ hT ds h2 h3).2
        (by rw [signed_min, h4]; omega)
      rw [this, h4]
      simp
    · obtain ⟨k, rfl⟩ : ∃ k : Nat, n = (k : Int) := ⟨n.toNat, by omega⟩
      obtain ⟨h1, h2, h3⟩ := to_string_natCast k
      rw [parseSigned_of_ne _ _ (digits_ne_sign _ h2).2 (digits_ne_sign _ h2).1]
      have := (parse_positive_integral_of_digits _ hT _ h1 h2).2
        (by rw [signed_max, h3]; exact hmax)
      rw [this, h3]

/-- Witness for C15: the largest 32-bit unsigned value and the least 32-bit
signed value survive the round trip. -/
theorem lexicalCast_round_trip_witness :
    lexicalCastChecked (IntType.unsigned 32)
      (detail.LexicalCast_to_string ((4294967295 : Nat) : Int)).2 =
        (true, ((4294967295 : Nat) : Int)) ∧
    detail.to_string (-2147483648) = "-2147483648".toList ∧
    lexicalCastChecked (IntType.signed 32) (detail.LexicalCast_to_string (-2147483648)).2 =
      (true, -2147483648) :=
  have h := lexicalCast_round_trip 32
  ⟨(h.1 4294967295 (by decide)).2, by decide,
   (h.2 (by decide) (-2147483648) (by decide) (by decide)).2⟩

theorem lexicalCast_digits (T : IntType) (hT : T.isSigned = false) (s : List Char)
    (hd : ∀ c ∈ s, isDigit c = true) (d : Int) :
    lexicalCast T s d =
      if s ≠ [] ∧ (decimalValue s : Int) ≤ T.max then (decimalValue s : Int) else d := by
  have hT2 : T.isSigned = true → 1 ≤ T.bits := fun h => absurd h (by simp [hT])
  have hcc : lexicalCastChecked T s = parse_positive_integral T s := by
    unfold lexicalCastChecked LexicalCast_from_string
    simp only [hT, Bool.false_eq_true, if_false]
    exact parseUnsigned_of_ne T s (digits_ne_sign s hd).1
  have h := parse_positive_integral_spec T hT2 s
  unfold lexicalCast
  rw [hcc]
  by_cases hok : (parse_positive_integral T s).1 = true
  · have h1 := h.1.mp hok
    rw [if_pos hok, h.2 hok, if_pos ⟨h1.1, h1.2.2⟩]
  · have h1 : ¬ (s ≠ [] ∧ (decimalValue s : Int) ≤ T.max) :=
      fun hc => hok (h.1.mpr ⟨hc.1, hd, hc.2⟩)
    rw [if_neg hok, if_neg h1]

end beast

/-! ## Theorems on `doCanDelete` -/

namespace ripple

/-! ### `doCanDelete` -/

theorem contains_digits_eq (c : Char) :
    "0123456789".toList.contains c = beast.isDigit c := by
  cases hd : beast.isDigit c
  · rw [Bool.eq_false_iff]
    intro hc
    have hm : c ∈ "0123456789".toList := by simpa using hc
    have : beast.isDigit c = true := by
      simp only [String.toList, List.mem_cons, List.mem_singleton, List.not_mem_nil,
        or_false] at hm
      rcases hm with rfl | rfl | rfl | rfl | rfl | rfl | rfl | rfl | rfl | rfl <;> rfl
    rw [hd] at this
    exact absurd this (by simp)
  · have h := (beast.isDigit_iff c).mp hd
    rw [← Char.ofNat_toNat c]
    generalize c.toNat = n at h
    obtain ⟨h1, h2⟩ := h
    interval_cases n <;> rfl

theorem allCharsIn_digits_iff (s : List Char) :
    allCharsIn "0123456789".toList s = true ↔ ∀ c ∈ s, beast.isDigit c = true := by
  unfold allCharsIn
  rw [List.all_eq_true]
  constructor
  · intro h c hc
    rw [← contains_digits_eq]
    exact h c hc
  · intro h c hc
    rw [contains_digits_eq]
    exact h c hc

theorem canDeleteSeqOfString_digits (env : CanDeleteEnv) (s : List Char)
    (hd : ∀ c ∈ to_lower s, beast.isDigit c = true) :
    canDeleteSeqOfString env s =
      Except.ok (if to_lower s ≠ [] ∧ beast.decimalValue (to_lower s) ≤ 2 ^ 32 - 1 then
        beast.decimalValue (to_lower s) else 0) := by
  unfold canDeleteSeqOfString
  simp only [(allCharsIn_digits_iff (to_lower s)).mpr hd, if_true]
  rw [beast.lexicalCast_digits beast.uint32_t rfl (to_lower s) hd 0]
  congr 1
  have hmax : ∀ v : Nat, (v : Int) ≤ beast.uint32_t.max ↔ v ≤ 2 ^ 32 - 1 :=
    fun v => beast.unsigned_max_iff 32 v
  simp only [hmax]
  split <;> simp

theorem doCanDelete_string_eq (env : CanDeleteEnv) (hadv : env.advisoryDelete = true)
    (s : List Char) :
    doCanDelete env (CanDeleteParam.string s) =
      match canDeleteSeqOfString env s with
      | Except.error e => (CanDeleteReply.error e, [])
      | Except.ok seq => (CanDeleteReply.can_delete (env.setCanDelete seq), [seq]) := by
  simp [doCanDelete, hadv]

/-- C16 fails as stated: with advisory delete enabled, the empty string and the
digit string `4294967296`, which does not fit 32 bits, are not rejected; each
sets the sequence 0. A string of 64 digits is read as a decimal number (here 1)
and not as a ledger hash. -/
theorem doCanDelete_rejects_counterexample :
    doCanDelete sampleCanDeleteEnv (CanDeleteParam.string []) =
      (CanDeleteReply.can_delete 0, [0]) ∧
    doCanDelete sampleCanDeleteEnv (CanDeleteParam.string "4294967296".toList) =
      (CanDeleteReply.can_delete 0, [0]) ∧
    doCanDelete sampleCanDeleteEnv
        (CanDeleteParam.string (List.replicate 63 '0' ++ ['1'])) =
      (CanDeleteReply.can_delete 1, [1]) ∧
    doCanDelete sampleCanDeleteEnv (CanDeleteParam.string []) ≠
      (CanDeleteReply.error error_code_i.rpcINVALID_PARAMS, []) := by
  decide

/-- C16 as amended: with advisory delete enabled, `doCanDelete` reads a string
`can_delete` parameter in lower case. A string of decimal digits only is passed
through `lexicalCast` with the default 0: it sets the number it denotes if it
is not empty and the number fits 32 bits, and sets 0 otherwise (the empty
string, or a number that does not fit). `never` sets 0, `always` sets
`2^32 - 1`, `now` sets the last rotated sequence (`rpcNOT_READY` if that is 0,
without a call of `setCanDelete`), a string of 64 hex characters that are not
all decimal digits sets the sequence of the ledger with that hash
(`rpcLGR_NOT_FOUND` if absent, without a call of `setCanDelete`), and every
other string is rejected with `rpcINVALID_PARAMS` without a call of
`setCanDelete`. -/
theorem doCanDelete_string_cases (env : CanDeleteEnv) (hadv : env.advisoryDelete = true)
    (s : List Char) :
    ((∀ c ∈ to_lower s, beast.isDigit c = true) →
      (to_lower s ≠ [] → beast.decimalValue (to_lower s) ≤ 2 ^ 32 - 1 →
        doCanDelete env (CanDeleteParam.string s) =
          (CanDeleteReply.can_delete (env.setCanDelete (beast.decimalValue (to_lower s))),
            [beast.decimalValue (to_lower s)])) ∧
      (to_lower s = [] ∨ 2 ^ 32 - 1 < beast.decimalValue (to_lower s) →
        doCanDelete env (CanDeleteParam.string s) =
          (CanDeleteReply.can_delete (env.setCanDelete 0), [0]))) ∧
    (to_lower s = "never".toList →
      doCanDelete env (CanDeleteParam.string s) =
        (CanDeleteReply.can_delete (env.setCanDelete 0), [0])) ∧
    (to_lower s = "always".toList →
      doCanDelete env (CanDeleteParam.string s) =
        (CanDeleteReply.can_delete (env.setCanDelete (2 ^ 32 - 1)), [2 ^ 32 - 1])) ∧
    (to_lower s = "now".toList →
      doCanDelete env (CanDeleteParam.string s) =
        if env.getLastRotated = 0 then
          (CanDeleteReply.error error_code_i.rpcNOT_READY, [])
        else
          (CanDeleteReply.can_delete (env.setCanDelete env.getLastRotated),
            [env.getLastRotated])) ∧
    ((to_lower s).length = 64 → allCharsIn "0123456789abcdef".toList (to_lower s) = true →
      ¬ (∀ c ∈ to_lower s, beast.isDigit c = true) →
      doCanDelete env (CanDeleteParam.string s) =
        match env.getLedgerByHash (env.from_hex_text (to_lower s)) with
        | none => (CanDeleteReply.error error_code_i.rpcLGR_NOT_FOUND, [])
        | some ledger =>
          (CanDeleteReply.can_delete (env.setCanDelete ledger.seq), [ledger.seq])) ∧
    (¬ (∀ c ∈ to_lower s, beast.isDigit c = true) → to_lower s ≠ "never".toList →
      to_lower s ≠ "always".toList → to_lower s ≠ "now".toList →
      ¬ ((to_lower s).length = 64 ∧
        allCharsIn "0123456789abcdef".toList (to_lower s) = true) →
      doCanDelete env (CanDeleteParam.string s) =
        (CanDeleteReply.error error_code_i.rpcINVALID_PARAMS, [])) := by
  have hgen := doCanDelete_string_eq env hadv s
  refine ⟨?_, ?_, ?_, ?_, ?_, ?_⟩
  · intro hd
    have h := canDeleteSeqOfString_digits env s hd
    constructor
    · intro hne hle
      rw [hgen, h, if_pos ⟨hne, hle⟩]
    · intro hor
      have hn : ¬ (to_lower s ≠ [] ∧ beast.decimalValue (to_lower s) ≤ 2 ^ 32 - 1) := by
        rintro ⟨h1, h2⟩
        rcases hor with h3 | h3
        · exact h1 h3
        · omega
      rw [hgen, h, if_neg hn]
  · intro ht
    have h : canDeleteSeqOfString env s = Except.ok 0 := by
      unfold canDeleteSeqOfString
      simp only [ht]
      rfl
    rw [hgen, h]
  · intro ht
    have h : canDeleteSeqOfString env s = Except.ok (2 ^ 32 - 1) := by
      unfold canDeleteSeqOfString
      simp only [ht]
      rfl
    rw [hgen, h]
  · intro ht
    have h : canDeleteSeqOfString env s =
        if env.getLastRotated = 0 then Except.error error_code_i.rpcNOT_READY
        else Except.ok env.getLastRotated := by
      unfold canDeleteSeqOfString
      simp only [ht]
      rfl
    rw [hgen, h]
    by_cases h0 : env.getLastRotated = 0
    · simp only [h0, if_true]
    · simp only [h0, if_false]
  · intro hlen hhex hnd
    have h1 : ¬ allCharsIn "0123456789".toList (to_lower s) = true :=
      fun hc => hnd ((allCharsIn_digits_iff _).mp hc)
    have h2 : to_lower s ≠ "never".toList := fun hc => by rw [hc] at hlen; exact absurd hlen (by decide)
    have h3 : to_lower s ≠ "always".toList := fun hc => by rw [hc] at hlen; exact absurd hlen (by decide)
    have h4 : to_lower s ≠ "now".toList := fun hc => by rw [hc] at hlen; exact absurd hlen (by decide)
    have h : canDeleteSeqOfString env s =
        match env.getLedgerByHash (env.from_hex_text (to_lower s)) with
        | none => Except.error error_code_i.rpcLGR_NOT_FOUND
        | some ledger => Except.ok ledger.seq := by
      unfold canDeleteSeqOfString
      simp only [h1, h2, h3, h4, hlen, hhex, if_false, and_self, if_true,
        Bool.false_eq_true]
    rw [hgen, h]
    cases env.getLedgerByHash (env.from_hex_text (to_lower s)) <;> rfl
  · intro hnd h2 h3 h4 h5
    have h1 : ¬ allCharsIn "0123456789".toList (to_lower s) = true :=
      fun hc => hnd ((allCharsIn_digits_iff _).mp hc)
    have h : canDeleteSeqOfString env s = Except.error error_code_i.rpcINVALID_PARAMS := by
      unfold canDeleteSeqOfString
      simp only [h1, h2, h3, h4, h5, if_false, Bool.false_eq_true]
    rw [hgen, h]

/-- Witness for C16 as amended: `Never` sets 0, `123` sets 123, and `+5` is
rejected. -/
theorem doCanDelete_string_cases_witness :
    sampleCanDeleteEnv.advisoryDelete = true ∧
    doCanDelete sampleCanDeleteEnv (CanDeleteParam.string "Never".toList) =
      (CanDeleteReply.can_delete (sampleCanDeleteEnv.setCanDelete 0), [0]) ∧
    doCanDelete sampleCanDeleteEnv (CanDeleteParam.string "123".toList) =
      (CanDeleteReply.can_delete 123, [123]) ∧
    doCanDelete sampleCanDeleteEnv (CanDeleteParam.string "+5".toList) =
      (CanDeleteReply.error error_code_i.rpcINVALID_PARAMS, []) :=
  have h1 := doCanDelete_string_cases sampleCanDeleteEnv rfl "Never".toList
  have h2 := doCanDelete_string_cases sampleCanDeleteEnv rfl "+5".toList
  ⟨rfl, h1.2.1 (by decide), by decide,
   h2.2.2.2.2.2 (by decide) (by decide) (by decide) (by decide) (by decide)⟩

/-! ### The rounded mean lies within the spread of the close times -/

theorem weightSum_nonneg (peers : List (Nat × Int)) (hc : ∀ p ∈ peers, 0 ≤ p.2) :
    0 ≤ weightSum peers := by
  induction peers with
  | nil => simp [weightSum]
  | cons p ps ih =>
    have h1 := hc p (List.mem_cons_self p ps)
    have h2 := ih (fun q hq => hc q (List.mem_cons_of_mem p hq))
    have h3 : (0 : Int) ≤ (p.1 : Int) * p.2 := mul_nonneg (by omega) h1
    simp only [weightSum, List.map_cons, List.sum_cons] at h2 ⊢
    omega

theorem closeTimeTotals_foldl_exact (peers : List (Nat × Int)) :
    ∀ (cnt : Int) (tot : Nat), 1 ≤ cnt → cnt + countSum peers < 2 ^ 31 →
      (∀ p ∈ peers, 0 ≤ p.2) → (tot : Int) + weightSum peers < 2 ^ 64 →
      (peers.foldl
        (fun acc p => (toInt32 (acc.1 + p.2), (acc.2 + p.1 * toUInt64 p.2) % 2 ^ 64))
        (cnt, tot)).1 = cnt + countSum peers ∧
      (((peers.foldl
        (fun acc p => (toInt32 (acc.1 + p.2), (acc.2 + p.1 * toUInt64 p.2) % 2 ^ 64))
        (cnt, tot)).2 : Nat) : Int) = tot + weightSum peers := by
  induction peers with
  | nil => intro cnt tot _ _ _ _; simp [countSum, weightSum]
  | cons p ps ih =>
    intro cnt tot h1 h3 hc hov
    have hp0 := hc p (List.mem_cons_self p ps)
    have hcs : ∀ q ∈ ps, 0 ≤ q.2 := fun q hq => hc q (List.mem_cons_of_mem p hq)
    have hps := countSum_nonneg ps hcs
    have hws := weightSum_nonneg ps hcs
    have hsum : countSum (p :: ps) = p.2 + countSum ps := by
      simp [countSum]
    have hw : weightSum (p :: ps) = (p.1 : Int) * p.2 + weightSum ps := by
      simp [weightSum]
    rw [hsum] at h3
    rw [hw] at hov
    have e1 : toInt32 (cnt + p.2) = cnt + p.2 := toInt32_of_range _ (by omega) (by omega)
    have e2 : toUInt64 p.2 = p.2.toNat := by
      unfold toUInt64
      congr 1
      omega
    have hcast : ((p.1 * p.2.toNat : Nat) : Int) = (p.1 : Int) * p.2 := by
      rw [Nat.cast_mul, Int.toNat_of_nonneg hp0]
    have e3 : (tot + p.1 * p.2.toNat) % 2 ^ 64 = tot + p.1 * p.2.toNat := by
      apply Nat.mod_eq_of_lt
      have : ((tot + p.1 * p.2.toNat : Nat) : Int) < 2 ^ 64 := by
        rw [Nat.cast_add, hcast]
        omega
      exact_mod_cast this
    rw [List.foldl_cons]
    simp only [e1, e2, e3]
    have := ih (cnt + p.2) (tot + p.1 * p.2.toNat) (by omega) (by omega) hcs
      (by rw [Nat.cast_add, hcast]; omega)
    rw [this.1, this.2, hsum, hw, Nat.cast_add, hcast]
    constructor <;> ring

theorem closeTimeMean_eq_spec_of_no_overflow (times : ConsensusCloseTimes)
    (hc : ∀ p ∈ times.peers, 0 ≤ p.2) (hn : specVoteCount times.peers < 2 ^ 31)
    (hov : (times.self : Int) + weightSum times.peers + specVoteCount times.peers / 2 <
      2 ^ 64) :
    ((closeTimeMean times : Nat) : Int) = specRoundedMean times.self times.peers := by
  have hps := countSum_nonneg times.peers hc
  have hws := weightSum_nonneg times.peers hc
  unfold specVoteCount at hn hov
  have hself : times.self % 2 ^ 64 = times.self := Nat.mod_eq_of_lt (by omega)
  obtain ⟨h1, h2⟩ := closeTimeTotals_foldl_exact times.peers 1 times.self (by omega) hn hc
    (by omega)
  unfold closeTimeMean closeTimeTotals specRoundedMean specVoteCount
  rw [hself]
  simp only [h1]
  generalize hT : (times.peers.foldl
    (fun acc p => (toInt32 (acc.1 + p.2), (acc.2 + p.1 * toUInt64 p.2) % 2 ^ 64))
    ((1 : Int), times.self)).2 = T at h2 ⊢
  generalize hN : (1 : Int) + countSum times.peers = n at hov hn ⊢
  have hn1 : 1 ≤ n := by omega
  have e1 : n.tdiv 2 = n / 2 := Int.tdiv_eq_ediv (by omega) (by omega)
  have e2 : toUInt64 (n / 2) = (n / 2).toNat := by
    unfold toUInt64
    congr 1
    omega
  have e3 : toUInt64 n = n.toNat := by
    unfold toUInt64
    congr 1
    omega
  have e4 : (T + (n / 2).toNat) % 2 ^ 64 = T + (n / 2).toNat := by
    apply Nat.mod_eq_of_lt
    omega
  rw [e1, e2, e3, e4, Int.natCast_div, Nat.cast_add, h2,
    Int.toNat_of_nonneg (by omega : (0 : Int) ≤ n / 2),
    Int.toNat_of_nonneg (by omega : (0 : Int) ≤ n)]

theorem closeTimeMin_le (s : Nat) (peers : List (Nat × Int)) :
    closeTimeMin s peers ≤ s ∧ ∀ p ∈ peers, closeTimeMin s peers ≤ p.1 := by
  induction peers with
  | nil => exact ⟨Nat.le_refl s, fun p hp => absurd hp (List.not_mem_nil p)⟩
  | cons q qs ih =>
    simp only [closeTimeMin]
    refine ⟨by omega, ?_⟩
    intro p hp
    rcases List.mem_cons.mp hp with rfl | hp
    · omega
    · have := ih.2 p hp
      omega

theorem le_closeTimeMax (s : Nat) (peers : List (Nat × Int)) :
    s ≤ closeTimeMax s peers ∧ ∀ p ∈ peers, p.1 ≤ closeTimeMax s peers := by
  induction peers with
  | nil => exact ⟨Nat.le_refl s, fun p hp => absurd hp (List.not_mem_nil p)⟩
  | cons q qs ih =>
    simp only [closeTimeMax]
    refine ⟨by omega, ?_⟩
    intro p hp
    rcases List.mem_cons.mp hp with rfl | hp
    · omega
    · have := ih.2 p hp
      omega

theorem weightSum_bounds (lo hi : Int) (peers : List (Nat × Int))
    (hc : ∀ p ∈ peers, 0 ≤ p.2) (hlo : ∀ p ∈ peers, lo ≤ (p.1 : Int))
    (hhi : ∀ p ∈ peers, (p.1 : Int) ≤ hi) :
    lo * countSum peers ≤ weightSum peers ∧ weightSum peers ≤ hi * countSum peers := by
  induction peers with
  | nil => simp [countSum, weightSum]
  | cons p ps ih =>
    have h0 := hc p (List.mem_cons_self p ps)
    have h1 := hlo p (List.mem_cons_self p ps)
    have h2 := hhi p (List.mem_cons_self p ps)
    have ih2 := ih (fun q hq => hc q (List.mem_cons_of_mem p hq))
      (fun q hq => hlo q (List.mem_cons_of_mem p hq))
      (fun q hq => hhi q (List.mem_cons_of_mem p hq))
    have hsum : countSum (p :: ps) = p.2 + countSum ps := by
      simp [countSum]
    have hw : weightSum (p :: ps) = (p.1 : Int) * p.2 + weightSum ps := by
      simp [weightSum]
    rw [hsum, hw]
    constructor <;> nlinarith

theorem specRoundedMean_bounds (s : Nat) (peers : List (Nat × Int))
    (hc : ∀ p ∈ peers, 0 ≤ p.2) :
    (closeTimeMin s peers : Int) ≤ specRoundedMean s peers ∧
    specRoundedMean s peers ≤ (closeTimeMax s peers : Int) := by
  have hmin := closeTimeMin_le s peers
  have hmax := le_closeTimeMax s peers
  have hps := countSum_nonneg peers hc
  have hb := weightSum_bounds (closeTimeMin s peers) (closeTimeMax s peers) peers hc
    (fun p hp => by exact_mod_cast hmin.2 p hp) (fun p hp => by exact_mod_cast hmax.2 p hp)
  have hs1 : (closeTimeMin s peers : Int) ≤ (s : Int) := by exact_mod_cast hmin.1
  have hs2 : (s : Int) ≤ (closeTimeMax s peers : Int) := by exact_mod_cast hmax.1
  unfold specRoundedMean specVoteCount
  generalize countSum peers = k at hps hb ⊢
  generalize weightSum peers = W at hb ⊢
  generalize (closeTimeMin s peers : Int) = lo at hb hs1 ⊢
  generalize (closeTimeMax s peers : Int) = hi at hb hs2 ⊢
  have hn : (0 : Int) < 1 + k := by omega
  have hhalf : 0 ≤ (1 + k) / 2 ∧ (1 + k) / 2 < 1 + k := by omega
  constructor
  · apply Int.le_ediv_of_mul_le hn
    nlinarith
  · have : ((s : Int) + W + (1 + k) / 2) / (1 + k) < hi + 1 := by
      apply Int.ediv_lt_of_lt_mul hn
      nlinarith
    omega

theorem toInt32_natAbs_le (x : Int) (d : Nat) (h : x.natAbs ≤ d) :
    (toInt32 x).natAbs ≤ d := by
  unfold toInt32
  omega

theorem closeTime_spread_of_all_eq (s : Nat) (peers : List (Nat × Int))
    (h : ∀ p ∈ peers, p.1 = s) : closeTimeMin s peers = s ∧ closeTimeMax s peers = s := by
  induction peers with
  | nil => exact ⟨rfl, rfl⟩
  | cons q qs ih =>
    have h1 := h q (List.mem_cons_self q qs)
    have h2 := ih (fun p hp => h p (List.mem_cons_of_mem q hp))
    simp only [closeTimeMin, closeTimeMax, h1, h2.1, h2.2]
    exact ⟨Nat.min_self s, Nat.max_self s⟩

theorem mem_adjustCloseTimeCalls_doAccept (a : Adaptor) (env : AcceptEnv) (result : Result)
    (prevLedger : RCLCxLedger) (closeResolution : Nat)
    (rawCloseTimes : ConsensusCloseTimes) (mode : ConsensusMode) (o : Int)
    (ho : o ∈ adjustCloseTimeCalls
      (a.doAccept env result prevLedger closeResolution rawCloseTimes mode).2) :
    o = closeTimeOffset rawCloseTimes := by
  rw [adjustCloseTimeCalls_doAccept] at ho
  unfold acceptOffset at ho
  split at ho
  · split at ho
    · simp at ho
    · simpa [Event.adjustedCloseTime] using ho
  · simp at ho

theorem closeTotal_no_overflow_of_u32 (times : ConsensusCloseTimes)
    (hs : times.self < 2 ^ 32) (ht : ∀ p ∈ times.peers, p.1 < 2 ^ 32)
    (hc : ∀ p ∈ times.peers, 0 ≤ p.2) (hn : specVoteCount times.peers < 2 ^ 31) :
    (times.self : Int) + weightSum times.peers + specVoteCount times.peers / 2 < 2 ^ 64 := by
  have hps := countSum_nonneg times.peers hc
  unfold specVoteCount at hn ⊢
  obtain ⟨_, _, h3⟩ := closeTimeTotals_foldl times.peers 1 times.self (by omega)
    (by omega) hn ht hc
  omega

/-- C21: whenever `doAccept` submits a close-time offset, with all peer vote
counts positive, a vote total that fits an `int` and no 64-bit overflow of the
total, the value computed in `closeTotal` is the rounded weighted mean
`floor((s + sum t_i*c_i + floor(n/2)) / n)`, and it lies between the minimum
and the maximum of the local close time `s` and the peer close times `t_i`
(inclusive). Consequently the magnitude of the submitted offset is at most
`max - min`; the offset is the mean less `s` when `max - min` fits 31 bits; and
it is 0 when every peer close time equals `s`. -/
theorem doAccept_offset_within_spread (a : Adaptor) (env : AcceptEnv) (result : Result)
    (prevLedger : RCLCxLedger) (closeResolution : Nat)
    (rawCloseTimes : ConsensusCloseTimes) (mode : ConsensusMode)
    (hc : ∀ p ∈ rawCloseTimes.peers, 0 < p.2)
    (hn : specVoteCount rawCloseTimes.peers < 2 ^ 31)
    (hov : (rawCloseTimes.self : Int) + weightSum rawCloseTimes.peers +
      specVoteCount rawCloseTimes.peers / 2 < 2 ^ 64) :
    ((closeTimeMean rawCloseTimes : Nat) : Int) =
      specRoundedMean rawCloseTimes.self rawCloseTimes.peers ∧
    closeTimeMin rawCloseTimes.self rawCloseTimes.peers ≤ closeTimeMean rawCloseTimes ∧
    closeTimeMean rawCloseTimes ≤ closeTimeMax rawCloseTimes.self rawCloseTimes.peers ∧
    (∀ o ∈ adjustCloseTimeCalls
        (a.doAccept env result prevLedger closeResolution rawCloseTimes mode).2,
      o = closeTimeOffset rawCloseTimes ∧
      o.natAbs ≤ closeTimeMax rawCloseTimes.self rawCloseTimes.peers -
        closeTimeMin rawCloseTimes.self rawCloseTimes.peers ∧
      (closeTimeMax rawCloseTimes.self rawCloseTimes.peers -
          closeTimeMin rawCloseTimes.self rawCloseTimes.peers < 2 ^ 31 →
        o = specRoundedMean rawCloseTimes.self rawCloseTimes.peers - rawCloseTimes.self) ∧
      ((∀ p ∈ rawCloseTimes.peers, p.1 = rawCloseTimes.self) → o = 0)) := by
  have hc0 : ∀ p ∈ rawCloseTimes.peers, 0 ≤ p.2 := fun p hp => le_of_lt (hc p hp)
  have hmean := closeTimeMean_eq_spec_of_no_overflow rawCloseTimes hc0 hn hov
  have hb := specRoundedMean_bounds rawCloseTimes.self rawCloseTimes.peers hc0
  have hmin := closeTimeMin_le rawCloseTimes.self rawCloseTimes.peers
  have hmax := le_closeTimeMax rawCloseTimes.self rawCloseTimes.peers
  rw [← hmean] at hb
  have hlo : closeTimeMin rawCloseTimes.self rawCloseTimes.peers ≤
      closeTimeMean rawCloseTimes := by exact_mod_cast hb.1
  have hhi : closeTimeMean rawCloseTimes ≤
      closeTimeMax rawCloseTimes.self rawCloseTimes.peers := by exact_mod_cast hb.2
  have hoff : closeTimeOffset rawCloseTimes =
      toInt32 ((closeTimeMean rawCloseTimes : Int) - (rawCloseTimes.self : Int)) := by
    unfold closeTimeOffset
    rw [toInt32_sub_toInt32]
  have hx : ((closeTimeMean rawCloseTimes : Int) - (rawCloseTimes.self : Int)).natAbs ≤
      closeTimeMax rawCloseTimes.self rawCloseTimes.peers -
        closeTimeMin rawCloseTimes.self rawCloseTimes.peers := by
    omega
  refine ⟨hmean, hlo, hhi, ?_⟩
  intro o ho
  have heq := mem_adjustCloseTimeCalls_doAccept a env result prevLedger closeResolution
    rawCloseTimes mode o ho
  refine ⟨heq, ?_, ?_, ?_⟩
  · rw [heq, hoff]
    exact toInt32_natAbs_le _ _ hx
  · intro hsmall
    rw [heq, hoff, ← hmean]
    exact toInt32_of_range _ (by omega) (by omega)
  · intro hall
    have hsp := closeTime_spread_of_all_eq rawCloseTimes.self rawCloseTimes.peers hall
    rw [heq, hoff]
    have : (closeTimeMean rawCloseTimes : Int) - (rawCloseTimes.self : Int) = 0 := by omega
    rw [this]
    rfl

/-- Witness for C21: in scenario 6 the close times range from 1000 to 1002, the
mean 1001 lies in between, and the submitted offset 0 has magnitude at most
2. -/
theorem doAccept_offset_within_spread_witness :
    (∀ p ∈ sampleCloseTimes.peers, 0 < p.2) ∧
    closeTimeMin sampleCloseTimes.self sampleCloseTimes.peers = 1000 ∧
    closeTimeMax sampleCloseTimes.self sampleCloseTimes.peers = 1002 ∧
    closeTimeMin sampleCloseTimes.self sampleCloseTimes.peers ≤
      closeTimeMean sampleCloseTimes ∧
    closeTimeMean sampleCloseTimes ≤
      closeTimeMax sampleCloseTimes.self sampleCloseTimes.peers ∧
    adjustCloseTimeCalls
      (sampleAdaptor.doAccept sampleAcceptEnv sampleResult (sampleLedger 100) 10
        sampleCloseTimes ConsensusMode.proposing).2 = [0] ∧
    (∀ o ∈ adjustCloseTimeCalls
        (sampleAdaptor.doAccept sampleAcceptEnv sampleResult (sampleLedger 100) 10
          sampleCloseTimes ConsensusMode.proposing).2,
      o.natAbs ≤ closeTimeMax sampleCloseTimes.self sampleCloseTimes.peers -
        closeTimeMin sampleCloseTimes.self sampleCloseTimes.peers) :=
  have hc : ∀ p ∈ sampleCloseTimes.peers, 0 < p.2 := by decide
  have h := doAccept_offset_within_spread sampleAdaptor sampleAcceptEnv sampleResult
    (sampleLedger 100) 10 sampleCloseTimes ConsensusMode.proposing hc (by decide)
    (by decide)
  ⟨hc, by decide, by decide, h.2.1, h.2.2.1, by decide, fun o ho => (h.2.2.2 o ho).2.1⟩

end ripple
